import Mathlib

/-!
# List-FastAllocator

A verification development for `list_fastallocator.h`: the fixed-size slab pool
`FixedAllocator<chunkSize>`, the size-class dispatcher `FastAllocator<T>` and the
sentinel ring list `List<T, Allocator>`.

Conventions of the embedding.

* `size_t` is 64 bits wide; a `size_t` expression that can wrap is written with an
  explicit `% 2 ^ 64`.
* A pointer is either the address of a chunk, `&pools[k][i]` of some
  `FixedAllocator<chunkSize>` - named by the chunk size, the slab array and the index in
  that array - or storage obtained from `std::allocator`.  The slab arrays of a pool are
  named by the order in which the pool obtained them from `new Pool[size]`.
* Out-of-bounds vector accesses (`pools[pools.size() - 1]` on an empty vector) have no
  result: the operation returns `none`.
-/

/-! ## Part 1: definitions -/

/-- Width of `size_t` arithmetic: values are taken modulo `2 ^ 64`. -/
def SIZE_T_MOD : Nat := 2 ^ 64

/-- A raw pointer (`void *`, `T *`).  `chunk chunkSize slab slot` is `&a[slot]` where `a`
is the array of `Pool`s (`chunkSize` bytes each) that `FixedAllocator<chunkSize>` holds
under the name `slab`; `heap id` is the storage returned by the `id`-th call made on
`std::allocator`. -/
inductive Ptr where
  | chunk (chunkSize slab slot : Nat)
  | heap (id : Nat)
deriving DecidableEq

/-- State of the `FixedAllocator<chunkSize>` object: the data members `cur_pos`,
`pools` and `reused`.  An entry of `pools` names a slab array. -/
structure FixedAllocator (chunkSize : Nat) where
  cur_pos : Nat
  pools : List Nat
  reused : List Ptr
deriving DecidableEq

namespace FixedAllocator

variable {chunkSize : Nat}

/-- Data member `size_t size = 2048;` - it is never assigned after initialisation. -/
def size : Nat := 2048

/-- The array returned by `new Pool[size]` when the pool already owns `pools`: arrays
are named by their order of creation, so the new one is distinct from every array the
pool obtained before (none of which has been released). -/
def new_Pool_array (pools : List Nat) : Nat := pools.length

/-- `void new_pool()`: `pools.push_back(new Pool[size]); cur_pos = 0;`. -/
def new_pool (s : FixedAllocator chunkSize) : FixedAllocator chunkSize :=
  { s with pools := s.pools ++ [new_Pool_array s.pools], cur_pos := 0 }

/-- The private constructor `FixedAllocator() { new_pool(); }`: both vectors start
empty and `new_pool` sets the cursor. -/
def ctor : FixedAllocator chunkSize :=
  new_pool { cur_pos := 0, pools := [], reused := [] }

/-- `static FixedAllocator &get_instance()`: the function-local static is constructed
on the first call (`none` = not constructed yet) and returned on every call. -/
def get_instance (inst : Option (FixedAllocator chunkSize)) : FixedAllocator chunkSize :=
  match inst with
  | some alloc => alloc
  | none => ctor

/-- `void *allocate()`.  With a non-empty free list the last entry is popped;
otherwise a slot is carved from the last slab, after appending a slab when the cursor
has reached `size`. -/
def allocate (s : FixedAllocator chunkSize) : Option (Ptr × FixedAllocator chunkSize) :=
  match s.reused.getLast? with
  | some ptr => some (ptr, { s with reused := s.reused.dropLast })
  | none =>
    let s1 := if s.cur_pos = size then s.new_pool else s
    match s1.pools.getLast? with
    | some slab =>
      some (Ptr.chunk chunkSize slab s1.cur_pos,
            { s1 with cur_pos := (s1.cur_pos + 1) % SIZE_T_MOD })
    | none => none

/-- `void deallocate(void *ptr)`: `reused.push_back(ptr)`. -/
def deallocate (s : FixedAllocator chunkSize) (ptr : Ptr) : FixedAllocator chunkSize :=
  { s with reused := s.reused ++ [ptr] }

/-- The loop `for (k = 0; k < n; ++k) out.push_back(allocate());`: `n` consecutive
calls of `allocate`, collecting the returned addresses in call order. -/
def allocateN : Nat → FixedAllocator chunkSize → Option (List Ptr × FixedAllocator chunkSize)
  | 0, s => some ([], s)
  | n + 1, s =>
    match allocate s with
    | none => none
    | some (p, s1) =>
      match allocateN n s1 with
      | none => none
      | some (ps, s2) => some (p :: ps, s2)

/-- The loop `for (k = 0; k < n; ++k) { p = allocate(); deallocate(p); }`, collecting
the addresses returned by `allocate` in call order. -/
def allocateFreeLoop : Nat → FixedAllocator chunkSize → Option (List Ptr × FixedAllocator chunkSize)
  | 0, s => some ([], s)
  | n + 1, s =>
    match allocate s with
    | none => none
    | some (p, s1) =>
      match allocateFreeLoop n (deallocate s1 p) with
      | none => none
      | some (ps, s2) => some (p :: ps, s2)

/-- The address of the `k`-th slot a pool carves (counting from 0): slot `k mod size`
of the slab with number `k div size`. -/
def carved (chunkSize k : Nat) : Ptr := Ptr.chunk chunkSize (k / size) (k % size)

/-- Closed form of the pool state after `m` carving calls on a fresh pool; used to
state the growth law, proved equal to what `allocateN` computes. -/
def carvedState (m : Nat) : FixedAllocator chunkSize :=
  { cur_pos := if m = 0 then 0 else (m - 1) % size + 1,
    pools := List.range (max 1 ((m + (size - 1)) / size)),
    reused := [] }

/-- Histories of one pool.  `Reach s live` holds when `s` is the state, and `live` the
addresses handed out and not yet given back, after some sequence of `allocate` and
`deallocate` calls on a freshly constructed pool in which every `deallocate` is given
an address that is live at that moment. -/
inductive Reach : FixedAllocator chunkSize → List Ptr → Prop
  | ctor : Reach ctor []
  | allocate {s : FixedAllocator chunkSize} {live : List Ptr} {p : Ptr}
      {s1 : FixedAllocator chunkSize} :
      Reach s live → allocate s = some (p, s1) → Reach s1 (p :: live)
  | deallocate {s : FixedAllocator chunkSize} {live : List Ptr} {p : Ptr} :
      Reach s live → p ∈ live → Reach (deallocate s p) (live.erase p)

/-- A slot lies in the carved part of the pool: in an existing slab, below the
capacity, and below the cursor when the slab is the last one. -/
def Carved (s : FixedAllocator chunkSize) : Ptr → Prop
  | Ptr.chunk c slab slot =>
    c = chunkSize ∧ slab < s.pools.length ∧ slot < size ∧
      (slab + 1 = s.pools.length → slot < s.cur_pos)
  | Ptr.heap _ => False

/-- Invariant of pool histories: slabs are numbered in creation order and there is at
least one, the cursor is within the capacity, and the live addresses together with the
free list are pairwise distinct carved slots. -/
def Inv (s : FixedAllocator chunkSize) (live : List Ptr) : Prop :=
  s.pools = List.range s.pools.length ∧ s.pools ≠ [] ∧ s.cur_pos ≤ size ∧
  (∀ a ∈ live ++ s.reused, Carved s a) ∧ (live ++ s.reused).Nodup

end FixedAllocator

/-- A call received by the default allocator `std::allocator<T>`; `sizeofT` stands for
the element type `T`. -/
inductive StdCall where
  | allocate (sizeofT count : Nat)
  | deallocate (sizeofT : Nat) (ptr : Ptr) (count : Nat)
deriving DecidableEq

/-- The process-wide state behind every `FastAllocator<T>`: the function-local static
of `FixedAllocator<c>::get_instance()` for each of the five instantiations (`none`
until its first use), and the calls received so far by `std::allocator`. -/
structure Globals where
  fixed4 : Option (FixedAllocator 4)
  fixed8 : Option (FixedAllocator 8)
  fixed16 : Option (FixedAllocator 16)
  fixed20 : Option (FixedAllocator 20)
  fixed24 : Option (FixedAllocator 24)
  std : List StdCall
deriving DecidableEq

/-- The state at program start: no pool constructed, no call made on `std::allocator`. -/
def Globals.initial : Globals :=
  { fixed4 := none, fixed8 := none, fixed16 := none, fixed20 := none, fixed24 := none,
    std := [] }

/-- `std::allocator<T>().allocate(count)`: the call is recorded and its storage is
named by the position of the call in the record.  Whether the library call throws is
outside the model. -/
def std_allocate (sizeofT count : Nat) (g : Globals) : Ptr × Globals :=
  (Ptr.heap g.std.length, { g with std := g.std ++ [StdCall.allocate sizeofT count] })

/-- `std::allocator<T>().deallocate(ptr, count)`: the call is recorded. -/
def std_deallocate (sizeofT : Nat) (ptr : Ptr) (count : Nat) (g : Globals) : Globals :=
  { g with std := g.std ++ [StdCall.deallocate sizeofT ptr count] }

namespace FastAllocator

/-- `T *allocate(size_t count)` of `FastAllocator<T>` with `sizeof(T) = sizeofT`.  The
product `sizeof(T) * count` is computed in `size_t`. -/
def allocate (sizeofT count : Nat) (g : Globals) : Option (Ptr × Globals) :=
  if sizeofT * count % SIZE_T_MOD = 4 then
    match (FixedAllocator.get_instance g.fixed4).allocate with
    | some (p, a) => some (p, { g with fixed4 := some a })
    | none => none
  else if sizeofT * count % SIZE_T_MOD = 8 then
    match (FixedAllocator.get_instance g.fixed8).allocate with
    | some (p, a) => some (p, { g with fixed8 := some a })
    | none => none
  else if sizeofT * count % SIZE_T_MOD = 16 then
    match (FixedAllocator.get_instance g.fixed16).allocate with
    | some (p, a) => some (p, { g with fixed16 := some a })
    | none => none
  else if sizeofT * count % SIZE_T_MOD = 20 then
    match (FixedAllocator.get_instance g.fixed20).allocate with
    | some (p, a) => some (p, { g with fixed20 := some a })
    | none => none
  else if sizeofT * count % SIZE_T_MOD = 24 then
    match (FixedAllocator.get_instance g.fixed24).allocate with
    | some (p, a) => some (p, { g with fixed24 := some a })
    | none => none
  else
    some (std_allocate sizeofT count g)

/-- `void deallocate(T *ptr, size_t count)` of `FastAllocator<T>` with
`sizeof(T) = sizeofT`. -/
def deallocate (sizeofT : Nat) (ptr : Ptr) (count : Nat) (g : Globals) : Globals :=
  if sizeofT * count % SIZE_T_MOD = 4 then
    { g with fixed4 := some ((FixedAllocator.get_instance g.fixed4).deallocate ptr) }
  else if sizeofT * count % SIZE_T_MOD = 8 then
    { g with fixed8 := some ((FixedAllocator.get_instance g.fixed8).deallocate ptr) }
  else if sizeofT * count % SIZE_T_MOD = 16 then
    { g with fixed16 := some ((FixedAllocator.get_instance g.fixed16).deallocate ptr) }
  else if sizeofT * count % SIZE_T_MOD = 20 then
    { g with fixed20 := some ((FixedAllocator.get_instance g.fixed20).deallocate ptr) }
  else if sizeofT * count % SIZE_T_MOD = 24 then
    { g with fixed24 := some ((FixedAllocator.get_instance g.fixed24).deallocate ptr) }
  else
    std_deallocate sizeofT ptr count g

end FastAllocator


/-- `struct Node` of `List<T, Allocator>`: the stored value and the two ring links. -/
structure Node (T P : Type) where
  value : T
  next : P
  prev : P

/-- The node allocator of a list, `rebind_alloc<Node>`, as the list uses it:
`allocate(count)` yields storage for `count` nodes or fails, `deallocate(ptr, count)`
takes storage back.  `A` is the state behind the allocator, `P` its pointer type. -/
structure NodeAllocator (A P : Type) where
  allocate : A → Nat → Option (P × A)
  deallocate : A → P → Nat → A

/-- The allocator contract the list relies on, for a state invariant `inv` and a
notion `live` of storage that is handed out: in every state satisfying `inv`, storage
returned by `allocate(1)` was not live, becomes live, and stays live until it is given
back by `deallocate`; nothing else changes what is live. -/
structure Lawful {A P : Type} (al : NodeAllocator A P) (inv : A → Prop)
    (live : A → P → Prop) : Prop where
  allocate_inv : ∀ a p a1, inv a → al.allocate a 1 = some (p, a1) → inv a1
  allocate_fresh : ∀ a p a1, inv a → al.allocate a 1 = some (p, a1) → ¬ live a p
  allocate_live : ∀ a p a1, inv a → al.allocate a 1 = some (p, a1) →
    ∀ q, live a1 q ↔ (q = p ∨ live a q)
  deallocate_inv : ∀ a p, inv a → live a p → inv (al.deallocate a p 1)
  deallocate_live : ∀ a p, inv a → live a p →
    ∀ q, live (al.deallocate a p 1) q ↔ (live a q ∧ q ≠ p)

/-- The memory the lists live in: the `Node` object found at each address, and the
state behind the node allocator. -/
structure Heap (T A P : Type) where
  node : P → Node T P
  alloc : A

/-- `common_iterator<IsConst>`: the data member `Node *ptr`. -/
structure common_iterator (P : Type) where
  ptr : P
deriving DecidableEq

/-- The data members of a `List<T, Allocator>` object: the counter `_size` and the
sentinel pointer `fake`.  The allocator members are handles on `Heap.alloc`. -/
structure LinkedList (P : Type) where
  _size : Nat
  fake : P
deriving DecidableEq

namespace common_iterator

variable {T P : Type}

/-- `operator++()`: `ptr = ptr->next`. -/
def inc (node : P → Node T P) (it : common_iterator P) : common_iterator P :=
  { ptr := (node it.ptr).next }

/-- `operator--()`: `ptr = ptr->prev`. -/
def dec (node : P → Node T P) (it : common_iterator P) : common_iterator P :=
  { ptr := (node it.ptr).prev }

/-- `operator*()`: `ptr->value`. -/
def deref (node : P → Node T P) (it : common_iterator P) : T :=
  (node it.ptr).value

/-- `n` applications of `operator++`. -/
def advance (node : P → Node T P) : Nat → common_iterator P → common_iterator P
  | 0, it => it
  | n + 1, it => advance node n (inc node it)

end common_iterator

namespace LinkedList

variable {T A P : Type} [DecidableEq P]

/-- The store `p->next = x;`. -/
def store_next (node : P → Node T P) (p x : P) : P → Node T P :=
  Function.update node p { node p with next := x }

/-- The store `p->prev = x;`. -/
def store_prev (node : P → Node T P) (p x : P) : P → Node T P :=
  Function.update node p { node p with prev := x }

/-- `explicit List(const Allocator &alloc)`: allocate the sentinel and link it to
itself; its `value` is left as found. -/
def ctor (al : NodeAllocator A P) (h : Heap T A P) : Option (LinkedList P × Heap T A P) :=
  match al.allocate h.alloc 1 with
  | none => none
  | some (fake, alloc1) =>
    let node1 := store_next h.node fake fake
    let node2 := store_prev node1 fake fake
    some ({ _size := 0, fake := fake }, { node := node2, alloc := alloc1 })

/-- `size_t size() const`. -/
def size (l : LinkedList P) : Nat := l._size

/-- `begin()`: `iterator(fake->next)`. -/
def begin (l : LinkedList P) (h : Heap T A P) : common_iterator P :=
  { ptr := (h.node l.fake).next }

/-- `end()`: `iterator(fake)`. -/
def end_ (l : LinkedList P) : common_iterator P :=
  { ptr := l.fake }

/-- The stores of `insert` once `new_node` is allocated:
`construct(new_node, val, ptr->prev, ptr); ptr->prev->next = new_node;
ptr->prev = new_node;`, in this order, each reading the memory left by the one before. -/
def link_before (node : P → Node T P) (ptr new_node : P) (val : T) : P → Node T P :=
  let node1 := Function.update node new_node
    { value := val, next := ptr, prev := (node ptr).prev }
  let node2 := store_next node1 (node1 ptr).prev new_node
  store_prev node2 ptr new_node

/-- `void insert(const_iterator it, const T &val)`.  The counter is a `size_t`; it
counts distinct live nodes, each several bytes wide, so `++_size` cannot wrap. -/
def insert (al : NodeAllocator A P) (l : LinkedList P) (it : common_iterator P) (val : T)
    (h : Heap T A P) : Option (LinkedList P × Heap T A P) :=
  match al.allocate h.alloc 1 with
  | none => none
  | some (new_node, alloc1) =>
    some ({ l with _size := l._size + 1 },
          { node := link_before h.node it.ptr new_node val, alloc := alloc1 })

/-- The stores of `erase`: `ptr->prev->next = ptr->next; ptr->next->prev = ptr->prev;`,
the second reading the memory left by the first. -/
def unlink (node : P → Node T P) (ptr : P) : P → Node T P :=
  let node1 := store_next node (node ptr).prev (node ptr).next
  store_prev node1 (node1 ptr).next (node1 ptr).prev

/-- `void erase(const_iterator it)`.  `traits::destroy` ends the lifetime of the node
and changes no link; `--_size` wraps at 0 as `size_t` does. -/
def erase (al : NodeAllocator A P) (l : LinkedList P) (it : common_iterator P)
    (h : Heap T A P) : LinkedList P × Heap T A P :=
  ({ l with _size := if l._size = 0 then SIZE_T_MOD - 1 else l._size - 1 },
   { node := unlink h.node it.ptr, alloc := al.deallocate h.alloc it.ptr 1 })

/-- `void push_back(const T &val)`: `insert(end(), val)`. -/
def push_back (al : NodeAllocator A P) (l : LinkedList P) (val : T) (h : Heap T A P) :
    Option (LinkedList P × Heap T A P) :=
  insert al l (end_ l) val h

/-- `void push_front(const T &val)`: `insert(begin(), val)`. -/
def push_front (al : NodeAllocator A P) (l : LinkedList P) (val : T) (h : Heap T A P) :
    Option (LinkedList P × Heap T A P) :=
  insert al l (begin l h) val h

/-- `void pop_back()`: `auto it = end(); --it; erase(it);`. -/
def pop_back (al : NodeAllocator A P) (l : LinkedList P) (h : Heap T A P) :
    LinkedList P × Heap T A P :=
  erase al l (common_iterator.dec h.node (end_ l)) h

/-- `void pop_front()`: `erase(begin())`. -/
def pop_front (al : NodeAllocator A P) (l : LinkedList P) (h : Heap T A P) :
    LinkedList P × Heap T A P :=
  erase al l (begin l h) h

/-- The loop `for (; it != last; ++it) out.push_back(it);` run for at most `fuel`
tests of the loop condition: the iterators visited, or `none` when the fuel runs out
before `it == last`. -/
def iterate (node : P → Node T P) (last : common_iterator P) :
    Nat → common_iterator P → Option (List (common_iterator P))
  | 0, _ => none
  | fuel + 1, it =>
    if it = last then some []
    else
      match iterate node last fuel (common_iterator.inc node it) with
      | none => none
      | some its => some (it :: its)

/-- Forward iteration `for (auto it = begin(); it != end(); ++it) out.push_back(*it);`:
the elements visited. -/
def forward (l : LinkedList P) (h : Heap T A P) (fuel : Nat) : Option (List T) :=
  match iterate h.node (end_ l) fuel (begin l h) with
  | none => none
  | some its => some (its.map (common_iterator.deref h.node))

/-- Walk round the ring: starting at `cur`, follow `next` links until the sentinel
`fake` is met, counting the nodes passed; `none` when the fuel runs out first. -/
def ringCount (node : P → Node T P) (fake : P) : Nat → P → Option Nat
  | 0, _ => none
  | fuel + 1, cur =>
    if cur = fake then some 0
    else
      match ringCount node fake fuel (node cur).next with
      | none => none
      | some n => some (n + 1)

/-- `Linked node a ns b`: from `a` the `next` links lead through exactly the nodes `ns`,
in order, and then to `b`, and along the way every `prev` link leads one step back. -/
def Linked (node : P → Node T P) : P → List P → P → Prop
  | a, [], b => (node a).next = b ∧ (node b).prev = a
  | a, n :: ns, b => (node a).next = n ∧ (node n).prev = a ∧ Linked node n ns b

/-- The nodes `ns`, all distinct and distinct from the sentinel, form with the sentinel
one ring: `fake -> ns[0] -> ... -> ns[last] -> fake`. -/
def Ring (node : P → Node T P) (fake : P) (ns : List P) : Prop :=
  Linked node fake ns fake ∧ (fake :: ns).Nodup

/-- A well-formed list whose value nodes are `ns`, in forward order: the nodes form a
ring with the sentinel, `_size` is their number, and the sentinel and all nodes are
live storage of the list's allocator, which is in a state satisfying its invariant. -/
def WF (inv : A → Prop) (live : A → P → Prop) (l : LinkedList P) (h : Heap T A P)
    (ns : List P) : Prop :=
  Ring h.node l.fake ns ∧ l._size = ns.length ∧ inv h.alloc ∧
    ∀ p ∈ l.fake :: ns, live h.alloc p

/-- The values stored in the nodes `ns`. -/
def values (h : Heap T A P) (ns : List P) : List T :=
  ns.map (fun n => (h.node n).value)

/-- The iterator `it` can be dereferenced: it is reached from `begin()` by some number
`k` of increments, and none of the iterators `begin()`, ..., `it` met on the way is
`end()`. -/
def Dereferenceable (l : LinkedList P) (h : Heap T A P) (it : common_iterator P) : Prop :=
  ∃ k, it = common_iterator.advance h.node k (begin l h) ∧
    ∀ j, j ≤ k → common_iterator.advance h.node j (begin l h) ≠ end_ l

/-- The list states reached from construction, on an allocator state satisfying `inv`,
by `insert`, `erase`, `push_back`, `push_front`, `pop_back` and `pop_front`, each used
within its precondition: `insert` at `end()` or at a dereferenceable iterator, `erase`
at a dereferenceable iterator, the two pops on a non-empty list. -/
inductive Reachable (al : NodeAllocator A P) (inv : A → Prop) :
    LinkedList P → Heap T A P → Prop
  | ctor {h0 : Heap T A P} {l : LinkedList P} {h : Heap T A P} :
      inv h0.alloc → ctor al h0 = some (l, h) → Reachable al inv l h
  | insert {l : LinkedList P} {h : Heap T A P} {it : common_iterator P} {v : T}
      {l1 : LinkedList P} {h1 : Heap T A P} :
      Reachable al inv l h → (it = end_ l ∨ Dereferenceable l h it) →
      insert al l it v h = some (l1, h1) → Reachable al inv l1 h1
  | erase {l : LinkedList P} {h : Heap T A P} {it : common_iterator P} :
      Reachable al inv l h → Dereferenceable l h it →
      Reachable al inv (erase al l it h).1 (erase al l it h).2
  | push_back {l : LinkedList P} {h : Heap T A P} {v : T}
      {l1 : LinkedList P} {h1 : Heap T A P} :
      Reachable al inv l h → push_back al l v h = some (l1, h1) → Reachable al inv l1 h1
  | push_front {l : LinkedList P} {h : Heap T A P} {v : T}
      {l1 : LinkedList P} {h1 : Heap T A P} :
      Reachable al inv l h → push_front al l v h = some (l1, h1) → Reachable al inv l1 h1
  | pop_back {l : LinkedList P} {h : Heap T A P} :
      Reachable al inv l h → common_iterator.dec h.node (end_ l) ≠ end_ l →
      Reachable al inv (pop_back al l h).1 (pop_back al l h).2
  | pop_front {l : LinkedList P} {h : Heap T A P} :
      Reachable al inv l h → begin l h ≠ end_ l →
      Reachable al inv (pop_front al l h).1 (pop_front al l h).2

end LinkedList

namespace FixedAllocator

variable {chunkSize : Nat}

/-- State invariant of a pool seen as an allocator: slabs numbered in creation order, at
least one slab, cursor within the capacity, and the free list made of pairwise distinct
carved slots. -/
def Sound (s : FixedAllocator chunkSize) : Prop :=
  s.pools = List.range s.pools.length ∧ s.pools ≠ [] ∧ s.cur_pos ≤ size ∧
  (∀ a ∈ s.reused, Carved s a) ∧ s.reused.Nodup

/-- The chunks of a pool that are handed out: carved and not on the free list. -/
def Live (s : FixedAllocator chunkSize) (p : Ptr) : Prop :=
  Carved s p ∧ p ∉ s.reused

end FixedAllocator

namespace FastAllocator

/-- The node allocator of `List<T, FastAllocator<T>>`: `FastAllocator<Node>` with
`sizeof(Node) = sizeofNode`, acting on the process-wide state. -/
def nodeAllocator (sizeofNode : Nat) : NodeAllocator Globals Ptr :=
  { allocate := fun g count => allocate sizeofNode count g,
    deallocate := fun g ptr count => deallocate sizeofNode ptr count g }

end FastAllocator

namespace Example

/-- Memory at program start: every address holds a node with value 0 and links into
the default heap; no pool exists yet. -/
def heap0 : Heap Nat Globals Ptr :=
  { node := fun _ => { value := 0, next := Ptr.heap 0, prev := Ptr.heap 0 },
    alloc := Globals.initial }

/-- The list object after `List<int, FastAllocator<int>> l;` with 24-byte nodes. -/
def list1 : LinkedList Ptr := { _size := 0, fake := Ptr.chunk 24 0 0 }

/-- The memory after the construction of `list1`. -/
def heap1 : Heap Nat Globals Ptr :=
  { node := LinkedList.store_prev
      (LinkedList.store_next heap0.node (Ptr.chunk 24 0 0) (Ptr.chunk 24 0 0))
      (Ptr.chunk 24 0 0) (Ptr.chunk 24 0 0),
    alloc := { Globals.initial with
      fixed24 := some { cur_pos := 1, pools := [0], reused := [] } } }

/-- The list object after a following `l.push_back(5);`. -/
def list2 : LinkedList Ptr := { _size := 1, fake := Ptr.chunk 24 0 0 }

/-- The memory after that `push_back`. -/
def heap2 : Heap Nat Globals Ptr :=
  { node := LinkedList.link_before heap1.node (Ptr.chunk 24 0 0) (Ptr.chunk 24 0 1) 5,
    alloc := { Globals.initial with
      fixed24 := some { cur_pos := 2, pools := [0], reused := [] } } }

end Example

namespace FixedAllocator

variable {chunkSize : Nat}

/-- Histories of one pool with their bookkeeping.  `History s live issued peak` holds
when, after some sequence of `allocate` and `deallocate` calls on a freshly constructed
pool in which every `deallocate` is given a live address, `s` is the state, `live` the
addresses handed out and not yet given back, `issued` every address `allocate` has
returned so far (newest first, repetitions kept), and `peak` the largest number of
addresses that were live at the same time. -/
inductive History : FixedAllocator chunkSize → List Ptr → List Ptr → Nat → Prop
  | ctor : History ctor [] [] 0
  | allocate {s : FixedAllocator chunkSize} {live issued : List Ptr} {peak : Nat} {p : Ptr}
      {s1 : FixedAllocator chunkSize} :
      History s live issued peak → allocate s = some (p, s1) →
      History s1 (p :: live) (p :: issued) (max peak (live.length + 1))
  | deallocate {s : FixedAllocator chunkSize} {live issued : List Ptr} {peak : Nat}
      {p : Ptr} :
      History s live issued peak → p ∈ live →
      History (deallocate s p) (live.erase p) issued peak

/-- The number of slots carved so far: all slots of every slab but the last, and the
slots of the last slab below the cursor. -/
def footprint (s : FixedAllocator chunkSize) : Nat :=
  size * (s.pools.length - 1) + s.cur_pos

end FixedAllocator

/-- `std::reverse_iterator<iterator>` as the C++ standard defines it: the data member
`current` is the wrapped iterator. -/
structure reverse_iterator (P : Type) where
  current : common_iterator P
deriving DecidableEq

/-- One call received by an allocator: an `allocate` that returned `p`, or a
`deallocate` of `p`. -/
inductive AllocCall (P : Type) where
  | allocate (p : P)
  | deallocate (p : P)
deriving DecidableEq

namespace AllocCall

variable {P : Type}

/-- The number of `allocate` calls in a record of calls. -/
def allocations : List (AllocCall P) → Nat
  | [] => 0
  | AllocCall.allocate _ :: cs => allocations cs + 1
  | AllocCall.deallocate _ :: cs => allocations cs

/-- The number of `deallocate` calls in a record of calls. -/
def deallocations : List (AllocCall P) → Nat
  | [] => 0
  | AllocCall.allocate _ :: cs => deallocations cs
  | AllocCall.deallocate _ :: cs => deallocations cs + 1

end AllocCall

namespace NodeAllocator

variable {A P : Type}

/-- The allocator `al` with a record of the calls it has received: every `allocate`
that returns and every `deallocate` is appended to the record. -/
def logged (al : NodeAllocator A P) : NodeAllocator (A × List (AllocCall P)) P :=
  { allocate := fun s count =>
      match al.allocate s.1 count with
      | none => none
      | some (p, a1) => some (p, (a1, s.2 ++ [AllocCall.allocate p])),
    deallocate := fun s p count =>
      (al.deallocate s.1 p count, s.2 ++ [AllocCall.deallocate p]) }

end NodeAllocator

namespace reverse_iterator

variable {T P : Type}

/-- `operator++()` of `std::reverse_iterator`: `--current`. -/
def inc (node : P → Node T P) (rit : reverse_iterator P) : reverse_iterator P :=
  { current := common_iterator.dec node rit.current }

/-- `operator*()` of `std::reverse_iterator`: `Iter tmp = current; return *--tmp;`. -/
def deref (node : P → Node T P) (rit : reverse_iterator P) : T :=
  common_iterator.deref node (common_iterator.dec node rit.current)

end reverse_iterator

namespace LinkedList

variable {T A P : Type} [DecidableEq P]

/-- `rbegin()`: `reverse_iterator(fake)`. -/
def rbegin (l : LinkedList P) : reverse_iterator P :=
  { current := { ptr := l.fake } }

/-- `rend()`: `reverse_iterator(fake->next)`. -/
def rend (l : LinkedList P) (h : Heap T A P) : reverse_iterator P :=
  { current := { ptr := (h.node l.fake).next } }

/-- The loop `for (; rit != last; ++rit) out.push_back(*rit);` over reverse iterators,
run for at most `fuel` tests of the loop condition. -/
def riterate (node : P → Node T P) (last : reverse_iterator P) :
    Nat → reverse_iterator P → Option (List T)
  | 0, _ => none
  | fuel + 1, rit =>
    if rit = last then some []
    else
      match riterate node last fuel (reverse_iterator.inc node rit) with
      | none => none
      | some vs => some (reverse_iterator.deref node rit :: vs)

/-- Reverse iteration `for (auto rit = rbegin(); rit != rend(); ++rit)
out.push_back(*rit);`: the elements visited. -/
def reverse (l : LinkedList P) (h : Heap T A P) (fuel : Nat) : Option (List T) :=
  riterate h.node (rend l h) fuel (rbegin l)

/-- The loop `while (it != first) { --it; out.push_back(*it); }`: walking `prev` links
from `it` back to `first`, run for at most `fuel` tests of the loop condition. -/
def walk_back (node : P → Node T P) (first : common_iterator P) :
    Nat → common_iterator P → Option (List T)
  | 0, _ => none
  | fuel + 1, it =>
    if it = first then some []
    else
      match walk_back node first fuel (common_iterator.dec node it) with
      | none => none
      | some vs => some (common_iterator.deref node (common_iterator.dec node it) :: vs)

/-- Walking `prev` links from `end()` back to `begin()`: the elements visited. -/
def backward (l : LinkedList P) (h : Heap T A P) (fuel : Nat) : Option (List T) :=
  walk_back h.node (begin l h) fuel (end_ l)

/-- One call of a public mutating operation on the list object, within its
precondition: `insert` at `end()` or at a dereferenceable iterator, `erase` at a
dereferenceable iterator, `push_back`, `push_front`, and the two pops on a non-empty
list.  `Step al l h l1 h1`: the call takes the object `l` in memory `h` to `l1` in
`h1`. -/
inductive Step (al : NodeAllocator A P) :
    LinkedList P → Heap T A P → LinkedList P → Heap T A P → Prop
  | insert {l : LinkedList P} {h : Heap T A P} {it : common_iterator P} {v : T}
      {l1 : LinkedList P} {h1 : Heap T A P} :
      (it = end_ l ∨ Dereferenceable l h it) →
      insert al l it v h = some (l1, h1) → Step al l h l1 h1
  | erase {l : LinkedList P} {h : Heap T A P} {it : common_iterator P} :
      Dereferenceable l h it → Step al l h (erase al l it h).1 (erase al l it h).2
  | push_back {l : LinkedList P} {h : Heap T A P} {v : T}
      {l1 : LinkedList P} {h1 : Heap T A P} :
      push_back al l v h = some (l1, h1) → Step al l h l1 h1
  | push_front {l : LinkedList P} {h : Heap T A P} {v : T}
      {l1 : LinkedList P} {h1 : Heap T A P} :
      push_front al l v h = some (l1, h1) → Step al l h l1 h1
  | pop_back {l : LinkedList P} {h : Heap T A P} :
      common_iterator.dec h.node (end_ l) ≠ end_ l →
      Step al l h (pop_back al l h).1 (pop_back al l h).2
  | pop_front {l : LinkedList P} {h : Heap T A P} :
      begin l h ≠ end_ l → Step al l h (pop_front al l h).1 (pop_front al l h).2

/-- A sequence of calls of public mutating operations on one list object. -/
inductive Steps (al : NodeAllocator A P) :
    LinkedList P → Heap T A P → LinkedList P → Heap T A P → Prop
  | refl {l : LinkedList P} {h : Heap T A P} : Steps al l h l h
  | tail {l : LinkedList P} {h : Heap T A P} {l1 : LinkedList P} {h1 : Heap T A P}
      {l2 : LinkedList P} {h2 : Heap T A P} :
      Steps al l h l1 h1 → Step al l1 h1 l2 h2 → Steps al l h l2 h2

/-- `Erasures al k l h l1 h1`: `k` calls of `erase`, each at a dereferenceable
iterator of the list as it is then, take `l` in `h` to `l1` in `h1`. -/
inductive Erasures (al : NodeAllocator A P) :
    Nat → LinkedList P → Heap T A P → LinkedList P → Heap T A P → Prop
  | zero {l : LinkedList P} {h : Heap T A P} : Erasures al 0 l h l h
  | succ {k : Nat} {l : LinkedList P} {h : Heap T A P} {it : common_iterator P}
      {l1 : LinkedList P} {h1 : Heap T A P} :
      Dereferenceable l h it →
      Erasures al k (erase al l it h).1 (erase al l it h).2 l1 h1 →
      Erasures al (k + 1) l h l1 h1

/-- The loop of `destroy`: `count` times `auto iter = end(); --iter; erase(iter);`. -/
def destroy_loop (al : NodeAllocator A P) :
    Nat → LinkedList P → Heap T A P → LinkedList P × Heap T A P
  | 0, l, h => (l, h)
  | count + 1, l, h =>
    destroy_loop al count (erase al l (common_iterator.dec h.node (end_ l)) h).1
      (erase al l (common_iterator.dec h.node (end_ l)) h).2

/-- `void destroy()`: nothing for a null sentinel; otherwise erase the last element
`_size` times and give the sentinel back.  `nullptr` is the null pointer value. -/
def destroy (al : NodeAllocator A P) (nullptr : P) (l : LinkedList P) (h : Heap T A P) :
    LinkedList P × Heap T A P :=
  if l.fake = nullptr then (l, h)
  else
    let r := destroy_loop al l._size l h
    (r.1, { node := r.2.node, alloc := al.deallocate r.2.alloc r.1.fake 1 })

/-- The loop of `List(size_t count, const Allocator &)`: per round
`node = allocate(1); construct(node, nullptr, nullptr); node->prev = prev;
prev->next = node; prev = node; _size++;`.  `construct` runs
`Node(Node *p, Node *n) : next(n), prev(p)`, which default-initialises `value`:
`dinit` maps the content found in the storage to the value left there (constant for a
class type, the identity for a scalar).  Returns the final `prev`. -/
def ctor_count_loop (al : NodeAllocator A P) (nullptr : P) (dinit : T → T) :
    Nat → P → LinkedList P → Heap T A P → Option (P × LinkedList P × Heap T A P)
  | 0, prev, l, h => some (prev, l, h)
  | count + 1, prev, l, h =>
    match al.allocate h.alloc 1 with
    | none => none
    | some (node, alloc1) =>
      let node1 := Function.update h.node node
        { value := dinit (h.node node).value, next := nullptr, prev := nullptr }
      let node2 := store_prev node1 node prev
      let node3 := store_next node2 prev node
      ctor_count_loop al nullptr dinit count node { l with _size := l._size + 1 }
        { node := node3, alloc := alloc1 }

/-- `List(size_t count, const Allocator &alloc)`: construct the empty list, link
`count` default-constructed nodes behind the sentinel by hand, then close the ring with
`prev->next = fake; fake->prev = prev;`. -/
def ctor_count (al : NodeAllocator A P) (nullptr : P) (dinit : T → T) (count : Nat)
    (h : Heap T A P) : Option (LinkedList P × Heap T A P) :=
  match ctor al h with
  | none => none
  | some (l, h1) =>
    match ctor_count_loop al nullptr dinit count l.fake l h1 with
    | none => none
    | some (prev, l2, h2) =>
      let node1 := store_next h2.node prev l2.fake
      let node2 := store_prev node1 l2.fake prev
      some (l2, { node := node2, alloc := h2.alloc })

/-- The loop `for (size_t it = 0; it < count; ++it) push_back(value);`. -/
def push_back_n (al : NodeAllocator A P) (value : T) :
    Nat → LinkedList P → Heap T A P → Option (LinkedList P × Heap T A P)
  | 0, l, h => some (l, h)
  | count + 1, l, h =>
    match push_back al l value h with
    | none => none
    | some (l1, h1) => push_back_n al value count l1 h1

/-- `List(size_t count, const T &value, const Allocator &alloc)`: the empty list
followed by `count` calls of `push_back(value)`.  This is also the list the
specification compares `List(count)` with. -/
def ctor_count_value (al : NodeAllocator A P) (count : Nat) (value : T) (h : Heap T A P) :
    Option (LinkedList P × Heap T A P) :=
  match ctor al h with
  | none => none
  | some (l, h1) => push_back_n al value count l h1

/-- The loop `for (auto it = another.begin(); it != another.end(); ++it)
push_back(*it);` of the copy constructor and of copy assignment, entered with `it`,
run for at most `fuel` tests of the loop condition. -/
def copy_loop (al : NodeAllocator A P) (another : LinkedList P) :
    Nat → common_iterator P → LinkedList P → Heap T A P →
      Option (LinkedList P × Heap T A P)
  | 0, _, _, _ => none
  | fuel + 1, it, l, h =>
    if it = end_ another then some (l, h)
    else
      match push_back al l (common_iterator.deref h.node it) h with
      | none => none
      | some (l1, h1) => copy_loop al another fuel (common_iterator.inc h1.node it) l1 h1

/-- `List(const List &another)`: construct the empty list, then copy the elements of
`another` with `push_back`.  The allocator picked by
`select_on_container_copy_construction` is a handle on the same `Heap.alloc`. -/
def copy_ctor (al : NodeAllocator A P) (another : LinkedList P) (h : Heap T A P)
    (fuel : Nat) : Option (LinkedList P × Heap T A P) :=
  match ctor al h with
  | none => none
  | some (l, h1) => copy_loop al another fuel (begin another h1) l h1

/-- `List &operator=(const List &another)` on the object `l` at address `this_addr`,
with `another` at address `another_addr`: nothing when the addresses are equal;
otherwise `destroy()`, a new self-linked sentinel, and a copy of the elements of
`another`.  Propagating the allocator changes handles only.  `_size` is not assigned
between `destroy()` and the copy. -/
def assign (al : NodeAllocator A P) (nullptr : P) (this_addr another_addr : Nat)
    (l another : LinkedList P) (h : Heap T A P) (fuel : Nat) :
    Option (LinkedList P × Heap T A P) :=
  if another_addr = this_addr then some (l, h)
  else
    let r := destroy al nullptr l h
    match al.allocate r.2.alloc 1 with
    | none => none
    | some (fake, alloc1) =>
      let node1 := store_next r.2.node fake fake
      let node2 := store_prev node1 fake fake
      copy_loop al another fuel
        (begin another ({ node := node2, alloc := alloc1 } : Heap T A P))
        { r.1 with fake := fake } { node := node2, alloc := alloc1 }

/-- The sentinels and value nodes of two lists are disjoint storage. -/
def Apart (a b : LinkedList P) (nsa nsb : List P) : Prop :=
  ∀ x ∈ a.fake :: nsa, x ∉ b.fake :: nsb

end LinkedList

namespace Example

/-- The scenario of the specification on 24-byte nodes served by `FastAllocator`:
construct, `push_back(1)`, `push_back(2)`, `push_front(0)`, read the elements and
`size()`, then `pop_back()` and read both again. -/
def scenario : Option (Option (List Nat) × Nat × Option (List Nat) × Nat) :=
  match LinkedList.ctor (FastAllocator.nodeAllocator 24) heap0 with
  | none => none
  | some (l0, h0) =>
    match LinkedList.push_back (FastAllocator.nodeAllocator 24) l0 1 h0 with
    | none => none
    | some (l1, h1) =>
      match LinkedList.push_back (FastAllocator.nodeAllocator 24) l1 2 h1 with
      | none => none
      | some (l2, h2) =>
        match LinkedList.push_front (FastAllocator.nodeAllocator 24) l2 0 h2 with
        | none => none
        | some (l3, h3) =>
          some (LinkedList.forward l3 h3 4, LinkedList.size l3,
            LinkedList.forward
              (LinkedList.pop_back (FastAllocator.nodeAllocator 24) l3 h3).1
              (LinkedList.pop_back (FastAllocator.nodeAllocator 24) l3 h3).2 4,
            LinkedList.size (LinkedList.pop_back (FastAllocator.nodeAllocator 24) l3 h3).1)

end Example

namespace LinkedList

variable {T A P : Type} [DecidableEq P]

/-- The relation kept between the loop of `List(count)`, in memory `hA` with its local
`prev`, and the loop of `push_back` calls, in memory `hB`, after both have added the
nodes `ns` to a list constructed on memory `h0`: the same allocator state; `hB` holds
the closed ring; `prev` is the last node; `hA` has the same `next` links except at
`prev` and the same `prev` links except at the sentinel; each node of `hA` holds the
default-initialised content of its storage, each node of `hB` the pushed value; and
storage not handed out is as in `h0`. -/
def FillSim (inv : A → Prop) (live : A → P → Prop) (dinit : T → T) (v : T)
    (h0 : Heap T A P) (prev : P) (l : LinkedList P) (hA hB : Heap T A P)
    (ns : List P) : Prop :=
  hA.alloc = hB.alloc ∧ WF inv live l hB ns ∧ (l.fake :: ns).getLast? = some prev ∧
    (∀ x ∈ l.fake :: ns, x ≠ prev → (hA.node x).next = (hB.node x).next) ∧
    (∀ x ∈ ns, (hA.node x).prev = (hB.node x).prev) ∧
    (∀ x ∈ ns, (hA.node x).value = dinit (h0.node x).value) ∧
    (∀ z, ¬ live hA.alloc z → hA.node z = h0.node z) ∧
    values hB ns = List.replicate ns.length v

end LinkedList

namespace Example

/-- The object of a second list, constructed after `list2` was filled. -/
def list3 : LinkedList Ptr := { _size := 0, fake := Ptr.chunk 24 0 2 }

/-- The memory after the construction of `list3`. -/
def heap3 : Heap Nat Globals Ptr :=
  { node := LinkedList.store_prev
      (LinkedList.store_next heap2.node (Ptr.chunk 24 0 2) (Ptr.chunk 24 0 2))
      (Ptr.chunk 24 0 2) (Ptr.chunk 24 0 2),
    alloc := { Globals.initial with
      fixed24 := some { cur_pos := 3, pools := [0], reused := [] } } }

/-- The memory `heap2` with an empty record of allocator calls. -/
def heap2_logged : Heap Nat (Globals × List (AllocCall Ptr)) Ptr :=
  { node := heap2.node, alloc := (heap2.alloc, []) }

end Example

namespace Example

/-- The program `{ List<int, FastAllocator<int>> a; a.push_back(7); a.push_back(8); }`
followed by the construction of a list of two elements, once as `List(2)` and once as
`List(2, int())`, each then read forward and asked its `size()`.  For `int` the
default initialisation of `value` does nothing, so `dinit` is the identity. -/
def fill_scenario : Option ((Option (List Nat) × Nat) × (Option (List Nat) × Nat)) :=
  match LinkedList.ctor (FastAllocator.nodeAllocator 24) heap0 with
  | none => none
  | some (l0, h0) =>
    match LinkedList.push_back (FastAllocator.nodeAllocator 24) l0 7 h0 with
    | none => none
    | some (l1, h1) =>
      match LinkedList.push_back (FastAllocator.nodeAllocator 24) l1 8 h1 with
      | none => none
      | some (l2, h2) =>
        match LinkedList.ctor_count (FastAllocator.nodeAllocator 24) (Ptr.heap 0)
            (fun x => x) 2
            (LinkedList.destroy (FastAllocator.nodeAllocator 24) (Ptr.heap 0) l2 h2).2,
          LinkedList.ctor_count_value (FastAllocator.nodeAllocator 24) 2 0
            (LinkedList.destroy (FastAllocator.nodeAllocator 24) (Ptr.heap 0) l2 h2).2 with
        | some (l, h), some (m, k) =>
          some ((LinkedList.forward l h 3, LinkedList.size l),
            (LinkedList.forward m k 3, LinkedList.size m))
        | _, _ => none

end Example

/-! ## Part 2: theorems -/

namespace FixedAllocator

variable {chunkSize : Nat}

/-- C1 (reuse, LIFO): for every pool state and every address `p`, `deallocate(p)`
followed directly by `allocate()` returns exactly `p` and leaves slabs, cursor and free
list as they were before the `deallocate`. -/
theorem allocate_deallocate (s : FixedAllocator chunkSize) (p : Ptr) :
    allocate (deallocate s p) = some (p, s) := by
  simp [allocate, deallocate]

/-- One carving call from the state reached after `m` carving calls. -/
theorem allocate_carvedState (m : Nat) :
    allocate (carvedState m : FixedAllocator chunkSize)
      = some (carved chunkSize m, carvedState (m + 1)) := by
  have h64 : SIZE_T_MOD = 18446744073709551616 := by norm_num [SIZE_T_MOD]
  rcases Nat.eq_zero_or_pos m with hm | hm
  · subst hm
    simp [allocate, carvedState, carved, size, new_pool, h64, List.range_succ]
  · by_cases hfull : (m - 1) % 2048 + 1 = 2048
    · have h1 : max 1 ((m + 2047) / 2048) = m / 2048 := by omega
      have h2 : max 1 ((m + 1 + 2047) / 2048) = m / 2048 + 1 := by omega
      have h3 : m % 2048 = 0 := by omega
      have h4 : m ≠ 0 := by omega
      simp [allocate, carvedState, carved, size, new_pool, new_Pool_array, h64, hfull,
        h1, h2, h3, h4, List.range_succ]
    · have h1 : max 1 ((m + 2047) / 2048) = m / 2048 + 1 := by omega
      have h2 : max 1 ((m + 1 + 2047) / 2048) = m / 2048 + 1 := by omega
      have h3 : (m - 1) % 2048 + 1 = m % 2048 := by omega
      have h4 : m ≠ 0 := by omega
      have h5 : (m % 2048 + 1) % 18446744073709551616 = m % 2048 + 1 := by omega
      have h6 : ¬ m % 2048 = 2048 := by omega
      simp [allocate, carvedState, carved, size, new_pool, h64,
        h1, h2, h3, h4, h5, h6, List.range_succ]

/-- From the state after `m` carving calls, `n` more calls return the next `n` carved
addresses in order and lead to the state after `m + n` calls. -/
theorem allocateN_carvedState (n m : Nat) :
    allocateN n (carvedState m : FixedAllocator chunkSize)
      = some ((List.range n).map (fun k => carved chunkSize (m + k)),
          carvedState (m + n)) := by
  induction n generalizing m with
  | zero => simp [allocateN]
  | succ n ih =>
    have e : m + 1 + n = m + (n + 1) := by omega
    simp [allocateN, allocate_carvedState, ih, List.range_succ_eq_map, List.map_map,
      Function.comp_def, e]
    intro a _
    congr 1
    omega

/-- The freshly constructed pool is the closed form at `0`. -/
theorem ctor_eq_carvedState : (ctor : FixedAllocator chunkSize) = carvedState 0 := by
  simp [ctor, carvedState, new_pool, new_Pool_array, size, List.range_succ]

/-- C3 (growth): on a freshly constructed pool, `n` consecutive `allocate()` calls
succeed; the `k`-th call (from 0) returns slot `k mod 2048` of the slab at index
`k div 2048` of the slab collection; afterwards the slab count is
`max 1 (ceil (n / 2048))`, so the call that requests chunk number `n + 1` appends a
slab exactly when `n` is a positive multiple of 2048. -/
theorem growth (chunkSize n : Nat) :
    ∃ s : FixedAllocator chunkSize,
      allocateN n ctor
        = some ((List.range n).map (fun k => Ptr.chunk chunkSize (k / 2048) (k % 2048)), s) ∧
      s.pools.length = max 1 ((n + 2047) / 2048) ∧
      (∀ k, k < n → s.pools.get? (k / 2048) = some (k / 2048)) ∧
      (∃ s1 : FixedAllocator chunkSize, ∃ ps : List Ptr,
        allocateN (n + 1) ctor = some (ps, s1) ∧
        s1.pools.length = s.pools.length + (if 0 < n ∧ n % 2048 = 0 then 1 else 0)) := by
  refine ⟨carvedState n, ?_, ?_, ?_, ?_⟩
  · rw [ctor_eq_carvedState, allocateN_carvedState]
    simp [carved, size]
  · simp [carvedState, size]
  · intro k hk
    have : k / 2048 < max 1 ((n + 2047) / 2048) := by omega
    simp [carvedState, size, List.getElem?_range, this]
  · refine ⟨carvedState (n + 1),
      (List.range (n + 1)).map (fun k => carved chunkSize (0 + k)), ?_, ?_⟩
    · rw [ctor_eq_carvedState, allocateN_carvedState]
      simp
    · simp only [carvedState, size, List.length_range]
      split_ifs <;> omega

/-- The state in which the allocate-then-free loop settles after its first round: one
slab, cursor 1, and slot 0 of that slab on the free list. -/
theorem allocateFreeLoop_settled (n : Nat) :
    allocateFreeLoop n
        ({ cur_pos := 1, pools := [0], reused := [Ptr.chunk chunkSize 0 0] } :
          FixedAllocator chunkSize)
      = some (List.replicate n (Ptr.chunk chunkSize 0 0),
          { cur_pos := 1, pools := [0], reused := [Ptr.chunk chunkSize 0 0] }) := by
  induction n with
  | zero => simp [allocateFreeLoop]
  | succ n ih =>
    simp only [allocateFreeLoop, allocate, deallocate, List.getLast?_singleton,
      List.dropLast_single, List.nil_append, ih, List.replicate_succ]

/-- C6 (slab stability): for every pool state, `deallocate` leaves the slab collection
as it is, and `allocate` either has no result - only in a state without any slab and
with an empty free list, which the constructor excludes - or returns with the old slab
collection a prefix of the new one and at most one slab appended. -/
theorem slab_stability (s : FixedAllocator chunkSize) (p : Ptr) :
    (deallocate s p).pools = s.pools ∧
    ((allocate s = none ∧ s.pools = [] ∧ s.reused = []) ∨
      ∃ q s1, allocate s = some (q, s1) ∧ s.pools <+: s1.pools ∧
        s1.pools.length ≤ s.pools.length + 1) := by
  refine ⟨rfl, ?_⟩
  unfold allocate
  cases hr : s.reused.getLast? with
  | some ptr =>
    right
    exact ⟨ptr, _, rfl, List.prefix_refl _, Nat.le_succ _⟩
  | none =>
    have hre : s.reused = [] := List.getLast?_eq_none_iff.mp hr
    by_cases hc : s.cur_pos = size
    · right
      refine ⟨_, _, by simp only [hc, if_true, new_pool, List.getLast?_concat]; rfl, ?_, ?_⟩
      · exact List.prefix_append _ _
      · simp
    · cases hp : s.pools.getLast? with
      | none =>
        left
        have hpe : s.pools = [] := List.getLast?_eq_none_iff.mp hp
        simp [hc, hp, hpe, hre]
      | some slab =>
        right
        refine ⟨_, _, by simp only [hc, if_false, hp]; rfl, ?_, ?_⟩
        · exact List.prefix_refl _
        · simp

/-- C7 (allocate-then-free loop): on a freshly constructed pool, `n` rounds of
`p = allocate(); deallocate(p)` all succeed, every `allocate` returns slot 0 of the
first slab, the slab count is still 1 afterwards, and the number of distinct addresses
issued is at most the slab capacity 2048. -/
theorem allocateFreeLoop_ctor (chunkSize n : Nat) :
    ∃ s : FixedAllocator chunkSize,
      allocateFreeLoop n ctor = some (List.replicate n (Ptr.chunk chunkSize 0 0), s) ∧
      s.pools.length = 1 ∧
      (ctor : FixedAllocator chunkSize).pools.head? = some 0 ∧
      (List.replicate n (Ptr.chunk chunkSize 0 0)).dedup.length ≤ size := by
  have hd : (List.replicate n (Ptr.chunk chunkSize 0 0)).dedup.length ≤ size := by
    cases n with
    | zero => simp
    | succ n =>
      rw [List.replicate_dedup (Nat.succ_ne_zero n)]
      simp [size]
  cases n with
  | zero => exact ⟨ctor, by simp [allocateFreeLoop], by simp [ctor, new_pool], by
      simp [ctor, new_pool, new_Pool_array], hd⟩
  | succ n =>
    refine ⟨{ cur_pos := 1, pools := [0], reused := [Ptr.chunk chunkSize 0 0] }, ?_, rfl,
      by simp [ctor, new_pool, new_Pool_array], hd⟩
    have h64 : SIZE_T_MOD = 18446744073709551616 := by norm_num [SIZE_T_MOD]
    have h1 : allocate (ctor : FixedAllocator chunkSize)
        = some (Ptr.chunk chunkSize 0 0, { cur_pos := 1, pools := [0], reused := [] }) := by
      simp [allocate, ctor, new_pool, new_Pool_array, size, h64]
    simp only [allocateFreeLoop, h1, deallocate, List.nil_append, allocateFreeLoop_settled,
      List.replicate_succ]

/-- The three ways `allocate` can return: pop the free list, append a slab and carve
its slot 0, or carve the slot under the cursor of the last slab. -/
theorem allocate_cases {s s1 : FixedAllocator chunkSize} {p : Ptr}
    (h : allocate s = some (p, s1)) :
    (∃ r, s.reused = r ++ [p] ∧ s1 = { s with reused := r }) ∨
    (s.reused = [] ∧ s.cur_pos = size ∧ p = Ptr.chunk chunkSize s.pools.length 0 ∧
      s1 = { cur_pos := 1, pools := s.pools ++ [s.pools.length], reused := [] }) ∨
    (s.reused = [] ∧ s.cur_pos ≠ size ∧
      (∃ slab, s.pools.getLast? = some slab ∧ p = Ptr.chunk chunkSize slab s.cur_pos) ∧
      s1 = { s with cur_pos := (s.cur_pos + 1) % SIZE_T_MOD }) := by
  unfold allocate at h
  cases hr : s.reused.getLast? with
  | some ptr =>
    left
    rw [hr] at h
    simp only [Option.some.injEq, Prod.mk.injEq] at h
    obtain ⟨rfl, rfl⟩ := h
    refine ⟨s.reused.dropLast, ?_, rfl⟩
    have := List.dropLast_append_getLast? ptr (by simpa using hr)
    exact this.symm
  | none =>
    right
    have hre : s.reused = [] := List.getLast?_eq_none_iff.mp hr
    rw [hr] at h
    by_cases hc : s.cur_pos = size
    · left
      simp only [hc, if_true, new_pool, List.getLast?_concat, Option.some.injEq,
        Prod.mk.injEq] at h
      obtain ⟨rfl, rfl⟩ := h
      refine ⟨hre, hc, rfl, ?_⟩
      simp [new_Pool_array, hre, SIZE_T_MOD]
    · right
      simp only [hc, if_false] at h
      cases hp : s.pools.getLast? with
      | none => simp [hp] at h
      | some slab =>
        simp only [hp, Option.some.injEq, Prod.mk.injEq] at h
        obtain ⟨rfl, rfl⟩ := h
        exact ⟨hre, hc, ⟨slab, rfl, rfl⟩, rfl⟩

/-- A pool with at least one slab always gets a result from `allocate`. -/
theorem allocate_isSome {s : FixedAllocator chunkSize} (h : s.pools ≠ []) :
    ∃ p s1, allocate s = some (p, s1) := by
  unfold allocate
  cases hr : s.reused.getLast? with
  | some ptr => exact ⟨_, _, rfl⟩
  | none =>
    by_cases hc : s.cur_pos = size
    · simp [hc, new_pool]
    · cases hp : s.pools.getLast? with
      | none => exact absurd (List.getLast?_eq_none_iff.mp hp) h
      | some slab => simp [hc, hp]

/-- The freshly constructed pool satisfies the invariant with nothing live. -/
theorem inv_ctor : Inv (ctor : FixedAllocator chunkSize) [] := by
  simp [Inv, ctor, new_pool, new_Pool_array, size, List.range_succ]

/-- The invariant survives `allocate`, the returned address joining the live ones. -/
theorem inv_allocate {s s1 : FixedAllocator chunkSize} {live : List Ptr} {p : Ptr}
    (hinv : Inv s live) (h : allocate s = some (p, s1)) : Inv s1 (p :: live) := by
  obtain ⟨hrange, hne, hcur, hcarved, hnd⟩ := hinv
  have hlen : 0 < s.pools.length := List.length_pos.mpr hne
  rcases allocate_cases h with ⟨r, hr, rfl⟩ | ⟨hr, hc, rfl, rfl⟩ |
    ⟨hr, hc, ⟨slab, hlast, rfl⟩, rfl⟩
  · have hperm : (p :: live ++ r).Perm (live ++ s.reused) := by
      rw [hr, ← List.append_assoc]
      exact (List.perm_append_singleton p (live ++ r)).symm
    refine ⟨hrange, hne, hcur, ?_, hperm.nodup_iff.mpr hnd⟩
    intro a ha
    exact hcarved a (hperm.mem_iff.mp ha)
  · rw [hr, List.append_nil] at hcarved hnd
    refine ⟨?_, by simp, by simp [size], ?_, ?_⟩
    · simp only [List.length_append, List.length_singleton, List.range_succ]
      rw [← hrange]
    · intro a ha
      simp only [List.append_nil, List.mem_cons] at ha
      rcases ha with rfl | ha
      · simp [Carved, size]
      · have := hcarved a ha
        cases a with
        | heap id => exact this
        | chunk c slab slot =>
          simp only [Carved, List.length_append, List.length_singleton] at this ⊢
          omega
    · simp only [List.append_nil, List.nodup_cons]
      refine ⟨?_, hnd⟩
      intro hmem
      exact lt_irrefl _ (hcarved _ hmem).2.1
  · rw [hr, List.append_nil] at hcarved hnd
    have hlt : s.cur_pos < size := lt_of_le_of_ne hcur hc
    have hmod : (s.cur_pos + 1) % SIZE_T_MOD = s.cur_pos + 1 := by
      apply Nat.mod_eq_of_lt
      simp only [size, SIZE_T_MOD] at hlt ⊢
      omega
    have hslab : slab + 1 = s.pools.length := by
      rw [hrange, List.getLast?_range] at hlast
      split_ifs at hlast with h0
      simp only [Option.some.injEq] at hlast
      omega
    refine ⟨hrange, hne, by simp only [hmod]; omega, ?_, ?_⟩
    · intro a ha
      simp only [hr, List.append_nil, List.mem_cons] at ha
      rcases ha with rfl | ha
      · simp only [Carved, hmod, true_and]
        omega
      · have := hcarved a ha
        cases a with
        | heap id => exact this
        | chunk c slab slot =>
          simp only [Carved, hmod] at this ⊢
          omega
    · simp only [hr, List.append_nil, List.nodup_cons]
      refine ⟨?_, hnd⟩
      intro hmem
      have := (hcarved _ hmem).2.2.2 hslab
      omega

/-- The invariant survives `deallocate` of a live address. -/
theorem inv_deallocate {s : FixedAllocator chunkSize} {live : List Ptr} {p : Ptr}
    (hinv : Inv s live) (hp : p ∈ live) : Inv (deallocate s p) (live.erase p) := by
  obtain ⟨hrange, hne, hcur, hcarved, hnd⟩ := hinv
  have hperm : (live.erase p ++ (s.reused ++ [p])).Perm (live ++ s.reused) := by
    have h1 : (live.erase p ++ (s.reused ++ [p])).Perm (p :: (live.erase p ++ s.reused)) := by
      rw [← List.append_assoc]
      exact List.perm_append_singleton _ _
    exact h1.trans ((List.perm_cons_erase hp).symm.append_right s.reused)
  refine ⟨hrange, hne, hcur, ?_, hperm.nodup_iff.mpr hnd⟩
  intro a ha
  have := hcarved a (hperm.mem_iff.mp ha)
  cases a with
  | heap id => exact this
  | chunk c slab slot => exact this

/-- Every pool history satisfies the invariant. -/
theorem reach_inv {s : FixedAllocator chunkSize} {live : List Ptr} (h : Reach s live) :
    Inv s live := by
  induction h with
  | ctor => exact inv_ctor
  | allocate _ ha ih => exact inv_allocate ih ha
  | deallocate _ hp ih => exact inv_deallocate ih hp

/-- C2 (no double-issue): after any sequence of `allocate`/`deallocate` calls on a
freshly constructed pool in which every `deallocate` is given a live address, the live
addresses are pairwise distinct, and the next `allocate` returns - also when it has to
append a slab - an address different from every live one. -/
theorem no_double_issue (s : FixedAllocator chunkSize) (live : List Ptr)
    (h : Reach s live) :
    live.Nodup ∧ ∃ p s1, allocate s = some (p, s1) ∧ p ∉ live := by
  have hinv := reach_inv h
  refine ⟨(List.nodup_append.mp hinv.2.2.2.2).1, ?_⟩
  obtain ⟨p, s1, ha⟩ := allocate_isSome hinv.2.1
  refine ⟨p, s1, ha, ?_⟩
  have hnd := (inv_allocate hinv ha).2.2.2.2
  rw [List.cons_append, List.nodup_cons] at hnd
  exact fun hmem => hnd.1 (List.mem_append_left _ hmem)

/-- Witness for C2: after two `allocate` calls and a `deallocate` of the first address,
the one live address is distinct from what the next `allocate` returns. -/
theorem no_double_issue_witness :
    Reach (deallocate ({ cur_pos := 2, pools := [0], reused := [] } : FixedAllocator 8)
        (Ptr.chunk 8 0 0)) [Ptr.chunk 8 0 1] ∧
      ([Ptr.chunk 8 0 1].Nodup ∧
        ∃ p s1, allocate (deallocate
            ({ cur_pos := 2, pools := [0], reused := [] } : FixedAllocator 8)
            (Ptr.chunk 8 0 0)) = some (p, s1) ∧
          p ∉ [Ptr.chunk 8 0 1]) := by
  have h1 : allocate (ctor : FixedAllocator 8)
      = some (Ptr.chunk 8 0 0, { cur_pos := 1, pools := [0], reused := [] }) := by decide
  have h2 : allocate ({ cur_pos := 1, pools := [0], reused := [] } : FixedAllocator 8)
      = some (Ptr.chunk 8 0 1, { cur_pos := 2, pools := [0], reused := [] }) := by decide
  have hr : Reach (deallocate ({ cur_pos := 2, pools := [0], reused := [] } : FixedAllocator 8)
      (Ptr.chunk 8 0 0)) ([Ptr.chunk 8 0 1, Ptr.chunk 8 0 0].erase (Ptr.chunk 8 0 0)) :=
    Reach.deallocate (Reach.allocate (Reach.allocate Reach.ctor h1) h2) (by decide)
  exact ⟨hr, no_double_issue _ _ hr⟩

end FixedAllocator

namespace FastAllocator

/-- Without wrap-around the dispatch is exact: when `sizeof(T) * count` fits in `size_t`
and is none of 4, 8, 16, 20, 24, both operations take the `std::allocator` branch and
leave every pool as it is. -/
theorem fallback_of_not_class (sizeofT count : Nat) (ptr : Ptr) (g : Globals)
    (hfit : sizeofT * count < SIZE_T_MOD) (h : sizeofT * count ∉ [4, 8, 16, 20, 24]) :
    allocate sizeofT count g = some (std_allocate sizeofT count g) ∧
    deallocate sizeofT ptr count g = std_deallocate sizeofT ptr count g := by
  simp only [List.mem_cons, List.mem_singleton, List.not_mem_nil, or_false, not_or] at h
  obtain ⟨h4, h8, h16, h20, h24⟩ := h
  simp [allocate, deallocate, Nat.mod_eq_of_lt hfit, h4, h8, h16, h20, h24]

/-- A request whose wrapped byte total is a size class never reaches `std::allocator`:
the record of calls made on it stays as it was. -/
theorem allocate_std_eq (sizeofT count : Nat) (g : Globals) (r : Ptr × Globals)
    (hc : sizeofT * count % SIZE_T_MOD ∈ [4, 8, 16, 20, 24])
    (hr : allocate sizeofT count g = some r) : r.2.std = g.std := by
  simp only [List.mem_cons, List.mem_singleton, List.not_mem_nil, or_false] at hc
  unfold allocate at hr
  split_ifs at hr with h4 h8 h16 h20 h24
  all_goals first
    | (split at hr
       · simp only [Option.some.injEq] at hr
         subst hr
         rfl
       · exact absurd hr (by simp))
    | tauto

/-- C4 (size-class routing), evaluated where the code departs from it: for a 4-byte
element type and `count = 2 ^ 62 + 1`, a count that fits in `size_t`, the request is
for `2 ^ 64 + 4` bytes, which is no size class, yet `allocate` serves it with a 4-byte
chunk of `FixedAllocator<4>` and `deallocate` hands a pointer to that pool, because
`sizeof(T) * count` wraps to 4. -/
theorem allocate_wraps_into_pool4 :
    4611686018427387905 < SIZE_T_MOD ∧
    4 * 4611686018427387905 ∉ [4, 8, 16, 20, 24] ∧
    allocate 4 4611686018427387905 Globals.initial
      = some (Ptr.chunk 4 0 0,
          { Globals.initial with
            fixed4 := some { cur_pos := 1, pools := [0], reused := [] } }) ∧
    allocate 4 4611686018427387905 Globals.initial
      ≠ some (std_allocate 4 4611686018427387905 Globals.initial) ∧
    deallocate 4 (Ptr.heap 7) 4611686018427387905 Globals.initial
      = { Globals.initial with
          fixed4 := some { cur_pos := 0, pools := [0], reused := [Ptr.heap 7] } } := by
  refine ⟨by decide, by decide, by decide, by decide, by decide⟩

/-- C5 fails as stated: a 4-byte element type with `count = 2` is not sent to the
fallback; the 8 bytes are served by `FixedAllocator<8>`, whose state changes. -/
theorem count_two_of_four_bytes_uses_pool8 :
    allocate 4 2 Globals.initial
      = some (Ptr.chunk 8 0 0,
          { Globals.initial with
            fixed8 := some { cur_pos := 1, pools := [0], reused := [] } }) ∧
    allocate 4 2 Globals.initial ≠ some (std_allocate 4 2 Globals.initial) ∧
    deallocate 4 (Ptr.chunk 8 0 0) 2 Globals.initial
      ≠ std_deallocate 4 (Ptr.chunk 8 0 0) 2 Globals.initial := by
  refine ⟨by decide, by decide, by decide⟩

/-- C5 as amended: for an element size that is itself a size class and a count above 1
whose byte total fits in `size_t`, `allocate` and `deallocate` both take the
`std::allocator` branch, leaving every pool untouched, exactly when the total is not
itself a size class; the totals that are size classes are 4 x 2, 4 x 4, 4 x 5, 4 x 6,
8 x 2 and 8 x 3, and such a request is served exactly as a request for one element of
that total size, that is by the pool of the total: a total of 8 draws from and returns
to the static of `FixedAllocator<8>` and changes nothing else, and likewise for 16, 20
and 24; the total is never 4. -/
theorem fallback_iff_total_not_class (sizeofT count : Nat) (ptr : Ptr) (g : Globals)
    (hs : sizeofT ∈ [4, 8, 16, 20, 24]) (hn : 1 < count)
    (hfit : sizeofT * count < SIZE_T_MOD) :
    ((allocate sizeofT count g = some (std_allocate sizeofT count g) ∧
        deallocate sizeofT ptr count g = std_deallocate sizeofT ptr count g)
      ↔ sizeofT * count ∉ [4, 8, 16, 20, 24]) ∧
    (sizeofT * count ∈ [4, 8, 16, 20, 24]
      ↔ (sizeofT = 4 ∧ count ∈ [2, 4, 5, 6]) ∨ (sizeofT = 8 ∧ count ∈ [2, 3])) ∧
    (sizeofT * count ∈ [4, 8, 16, 20, 24] →
      allocate sizeofT count g = allocate (sizeofT * count) 1 g ∧
      deallocate sizeofT ptr count g = deallocate (sizeofT * count) ptr 1 g) ∧
    sizeofT * count ≠ 4 ∧
    (sizeofT * count = 8 →
      allocate sizeofT count g
        = (match (FixedAllocator.get_instance g.fixed8).allocate with
          | some (p, a) => some (p, { g with fixed8 := some a })
          | none => none) ∧
      deallocate sizeofT ptr count g
        = { g with
            fixed8 := some ((FixedAllocator.get_instance g.fixed8).deallocate ptr) }) ∧
    (sizeofT * count = 16 →
      allocate sizeofT count g
        = (match (FixedAllocator.get_instance g.fixed16).allocate with
          | some (p, a) => some (p, { g with fixed16 := some a })
          | none => none) ∧
      deallocate sizeofT ptr count g
        = { g with
            fixed16 := some ((FixedAllocator.get_instance g.fixed16).deallocate ptr) }) ∧
    (sizeofT * count = 20 →
      allocate sizeofT count g
        = (match (FixedAllocator.get_instance g.fixed20).allocate with
          | some (p, a) => some (p, { g with fixed20 := some a })
          | none => none) ∧
      deallocate sizeofT ptr count g
        = { g with
            fixed20 := some ((FixedAllocator.get_instance g.fixed20).deallocate ptr) }) ∧
    (sizeofT * count = 24 →
      allocate sizeofT count g
        = (match (FixedAllocator.get_instance g.fixed24).allocate with
          | some (p, a) => some (p, { g with fixed24 := some a })
          | none => none) ∧
      deallocate sizeofT ptr count g
        = { g with
            fixed24 := some ((FixedAllocator.get_instance g.fixed24).deallocate ptr) }) := by
  have hmod := Nat.mod_eq_of_lt hfit
  refine ⟨?_, ?_, ?_, ?_, ?_, ?_, ?_, ?_⟩
  · constructor
    · rintro ⟨ha, -⟩ hmem
      simp only [List.mem_cons, List.mem_singleton, List.not_mem_nil, or_false] at hmem
      have := allocate_std_eq sizeofT count g _
        (by simpa [Nat.mod_eq_of_lt hfit] using hmem) ha
      simp [std_allocate] at this
    · exact fallback_of_not_class sizeofT count ptr g hfit
  · simp only [List.mem_cons, List.mem_singleton, List.not_mem_nil, or_false] at hs ⊢
    rcases hs with rfl | rfl | rfl | rfl | rfl <;> omega
  · intro hmem
    simp only [List.mem_cons, List.mem_singleton, List.not_mem_nil, or_false] at hmem
    simp only [allocate, deallocate, Nat.mul_one, Nat.mod_eq_of_lt hfit]
    rcases hmem with h | h | h | h | h <;> simp [h]
  · simp only [List.mem_cons, List.mem_singleton, List.not_mem_nil, or_false] at hs
    rcases hs with rfl | rfl | rfl | rfl | rfl <;> omega
  · intro h
    have hm := hmod.trans h
    have hne : ∀ c, c ≠ 8 → ¬ sizeofT * count % SIZE_T_MOD = c :=
      fun c hc e => hc (e.symm.trans hm)
    constructor
    · unfold allocate
      exact (if_neg (hne 4 (by decide))).trans
        (if_pos hm)
    · unfold deallocate
      exact (if_neg (hne 4 (by decide))).trans
        (if_pos hm)
  · intro h
    have hm := hmod.trans h
    have hne : ∀ c, c ≠ 16 → ¬ sizeofT * count % SIZE_T_MOD = c :=
      fun c hc e => hc (e.symm.trans hm)
    constructor
    · unfold allocate
      exact (if_neg (hne 4 (by decide))).trans
        ((if_neg (hne 8 (by decide))).trans
        (if_pos hm))
    · unfold deallocate
      exact (if_neg (hne 4 (by decide))).trans
        ((if_neg (hne 8 (by decide))).trans
        (if_pos hm))
  · intro h
    have hm := hmod.trans h
    have hne : ∀ c, c ≠ 20 → ¬ sizeofT * count % SIZE_T_MOD = c :=
      fun c hc e => hc (e.symm.trans hm)
    constructor
    · unfold allocate
      exact (if_neg (hne 4 (by decide))).trans
        ((if_neg (hne 8 (by decide))).trans
        ((if_neg (hne 16 (by decide))).trans
        (if_pos hm)))
    · unfold deallocate
      exact (if_neg (hne 4 (by decide))).trans
        ((if_neg (hne 8 (by decide))).trans
        ((if_neg (hne 16 (by decide))).trans
        (if_pos hm)))
  · intro h
    have hm := hmod.trans h
    have hne : ∀ c, c ≠ 24 → ¬ sizeofT * count % SIZE_T_MOD = c :=
      fun c hc e => hc (e.symm.trans hm)
    constructor
    · unfold allocate
      exact (if_neg (hne 4 (by decide))).trans
        ((if_neg (hne 8 (by decide))).trans
        ((if_neg (hne 16 (by decide))).trans
        ((if_neg (hne 20 (by decide))).trans
        (if_pos hm))))
    · unfold deallocate
      exact (if_neg (hne 4 (by decide))).trans
        ((if_neg (hne 8 (by decide))).trans
        ((if_neg (hne 16 (by decide))).trans
        ((if_neg (hne 20 (by decide))).trans
        (if_pos hm))))

/-- Witness for the amended C5: an 8-byte element type with `count = 3`, a total of 24
bytes, served by the pool of 24-byte chunks. -/
theorem fallback_iff_total_not_class_witness :
    (8 ∈ [4, 8, 16, 20, 24] ∧ 1 < 3 ∧ 8 * 3 < SIZE_T_MOD) ∧
    (((allocate 8 3 Globals.initial = some (std_allocate 8 3 Globals.initial) ∧
        deallocate 8 (Ptr.chunk 24 0 0) 3 Globals.initial
          = std_deallocate 8 (Ptr.chunk 24 0 0) 3 Globals.initial)
      ↔ 8 * 3 ∉ [4, 8, 16, 20, 24]) ∧
    (8 * 3 ∈ [4, 8, 16, 20, 24]
      ↔ (8 = 4 ∧ 3 ∈ [2, 4, 5, 6]) ∨ (8 = 8 ∧ 3 ∈ [2, 3])) ∧
    (8 * 3 ∈ [4, 8, 16, 20, 24] →
      allocate 8 3 Globals.initial = allocate (8 * 3) 1 Globals.initial ∧
      deallocate 8 (Ptr.chunk 24 0 0) 3 Globals.initial
        = deallocate (8 * 3) (Ptr.chunk 24 0 0) 1 Globals.initial) ∧
    8 * 3 ≠ 4 ∧
    (8 * 3 = 8 →
      allocate 8 3 Globals.initial
        = (match (FixedAllocator.get_instance Globals.initial.fixed8).allocate with
          | some (p, a) => some (p, { Globals.initial with fixed8 := some a })
          | none => none) ∧
      deallocate 8 (Ptr.chunk 24 0 0) 3 Globals.initial
        = { Globals.initial with
            fixed8 := some ((FixedAllocator.get_instance Globals.initial.fixed8).deallocate
              (Ptr.chunk 24 0 0)) }) ∧
    (8 * 3 = 16 →
      allocate 8 3 Globals.initial
        = (match (FixedAllocator.get_instance Globals.initial.fixed16).allocate with
          | some (p, a) => some (p, { Globals.initial with fixed16 := some a })
          | none => none) ∧
      deallocate 8 (Ptr.chunk 24 0 0) 3 Globals.initial
        = { Globals.initial with
            fixed16 := some ((FixedAllocator.get_instance Globals.initial.fixed16).deallocate
              (Ptr.chunk 24 0 0)) }) ∧
    (8 * 3 = 20 →
      allocate 8 3 Globals.initial
        = (match (FixedAllocator.get_instance Globals.initial.fixed20).allocate with
          | some (p, a) => some (p, { Globals.initial with fixed20 := some a })
          | none => none) ∧
      deallocate 8 (Ptr.chunk 24 0 0) 3 Globals.initial
        = { Globals.initial with
            fixed20 := some ((FixedAllocator.get_instance Globals.initial.fixed20).deallocate
              (Ptr.chunk 24 0 0)) }) ∧
    (8 * 3 = 24 →
      allocate 8 3 Globals.initial
        = (match (FixedAllocator.get_instance Globals.initial.fixed24).allocate with
          | some (p, a) => some (p, { Globals.initial with fixed24 := some a })
          | none => none) ∧
      deallocate 8 (Ptr.chunk 24 0 0) 3 Globals.initial
        = { Globals.initial with
            fixed24 := some ((FixedAllocator.get_instance Globals.initial.fixed24).deallocate
              (Ptr.chunk 24 0 0)) })) :=
  ⟨⟨by decide, by decide, by decide⟩,
    fallback_iff_total_not_class 8 3 (Ptr.chunk 24 0 0) Globals.initial (by decide)
      (by decide) (by decide)⟩

end FastAllocator

namespace FixedAllocator

variable {chunkSize : Nat}

/-- Whether a slot is carved depends on the slabs and the cursor only. -/
theorem carved_congr {s s1 : FixedAllocator chunkSize} (hp : s1.pools = s.pools)
    (hc : s1.cur_pos = s.cur_pos) (a : Ptr) : Carved s1 a ↔ Carved s a := by
  cases a with
  | heap id => simp [Carved]
  | chunk c slab slot => simp [Carved, hp, hc]

/-- The freshly constructed pool is sound. -/
theorem sound_ctor : Sound (ctor : FixedAllocator chunkSize) := by
  simp [Sound, ctor, new_pool, new_Pool_array, size, List.range_succ]

/-- `allocate` on a sound pool: the pool stays sound, the returned chunk was not live,
and afterwards the live chunks are the old ones and the returned one. -/
theorem sound_allocate {s s1 : FixedAllocator chunkSize} {p : Ptr} (hs : Sound s)
    (h : allocate s = some (p, s1)) :
    Sound s1 ∧ ¬ Live s p ∧ ∀ q, Live s1 q ↔ (q = p ∨ Live s q) := by
  obtain ⟨hrange, hne, hcur, hcarved, hnd⟩ := hs
  have hlen : 0 < s.pools.length := List.length_pos.mpr hne
  rcases allocate_cases h with ⟨r, hr, rfl⟩ | ⟨hr, hc, rfl, rfl⟩ |
    ⟨hr, hc, ⟨slab, hlast, rfl⟩, rfl⟩
  · rw [hr] at hnd hcarved
    have hpr : p ∉ r := by
      intro hm
      have := List.nodup_append.mp hnd
      exact this.2.2 hm (List.mem_singleton_self p) 
    have hcp : Carved s p := hcarved p (by simp)
    refine ⟨⟨hrange, hne, hcur, ?_, (List.nodup_append.mp hnd).1⟩, ?_, ?_⟩
    · intro a ha
      exact (carved_congr rfl rfl a).mpr (hcarved a (List.mem_append_left _ ha))
    · intro hl
      exact hl.2 (by rw [hr]; simp)
    · intro q
      simp only [Live, hr, List.mem_append, List.mem_singleton, not_or]
      rw [@carved_congr _ s { s with reused := r } rfl rfl q]
      constructor
      · rintro ⟨h1, h2⟩
        by_cases hqp : q = p
        · exact Or.inl hqp
        · exact Or.inr ⟨h1, h2, hqp⟩
      · rintro (rfl | ⟨h1, h2, -⟩)
        · exact ⟨hcp, hpr⟩
        · exact ⟨h1, h2⟩
  · refine ⟨⟨?_, by simp, by simp [size], by simp, by simp⟩, ?_, ?_⟩
    · simp only [List.length_append, List.length_singleton, List.range_succ]
      rw [← hrange]
    · intro hl
      exact lt_irrefl _ hl.1.2.1
    · intro q
      cases q with
      | heap id => simp [Live, Carved]
      | chunk c slab slot =>
        simp only [Live, Carved, hr, List.not_mem_nil, not_false_eq_true, and_true,
          List.length_append, List.length_singleton, Ptr.chunk.injEq]
        constructor
        · rintro ⟨h1, h2, h3, h4⟩
          by_cases hsl : slab = s.pools.length
          · left
            exact ⟨h1, hsl, by have := h4 (by omega); omega⟩
          · right
            exact ⟨h1, by omega, h3, fun _ => by omega⟩
        · rintro (⟨h1, h2, h3⟩ | ⟨h1, h2, h3, h4⟩)
          · exact ⟨h1, by omega, by simp [size, h3], fun _ => by omega⟩
          · exact ⟨h1, by omega, h3, fun h5 => by omega⟩
  · have hlt : s.cur_pos < size := lt_of_le_of_ne hcur hc
    have hmod : (s.cur_pos + 1) % SIZE_T_MOD = s.cur_pos + 1 := by
      apply Nat.mod_eq_of_lt
      simp only [size, SIZE_T_MOD] at hlt ⊢
      omega
    have hslab : slab + 1 = s.pools.length := by
      rw [hrange, List.getLast?_range] at hlast
      split_ifs at hlast with h0
      simp only [Option.some.injEq] at hlast
      omega
    refine ⟨⟨hrange, hne, by simp only [hmod]; omega, by simp [hr], by simp [hr]⟩, ?_, ?_⟩
    · intro hl
      have := hl.1.2.2.2 hslab
      omega
    · intro q
      cases q with
      | heap id => simp [Live, Carved]
      | chunk c sl so =>
        simp only [Live, Carved, hr, List.not_mem_nil, not_false_eq_true, and_true,
          Ptr.chunk.injEq, hmod]
        constructor
        · rintro ⟨h1, h2, h3, h4⟩
          by_cases hsl : sl = slab ∧ so = s.cur_pos
          · exact Or.inl ⟨h1, hsl.1, hsl.2⟩
          · right
            refine ⟨h1, h2, h3, fun h5 => ?_⟩
            have := h4 h5
            omega
        · rintro (⟨h1, h2, h3⟩ | ⟨h1, h2, h3, h4⟩)
          · exact ⟨h1, by omega, by omega, fun _ => by omega⟩
          · exact ⟨h1, h2, h3, fun h5 => by have := h4 h5; omega⟩

/-- `deallocate` of a live chunk on a sound pool: the pool stays sound and the chunk,
and only it, stops being live. -/
theorem sound_deallocate {s : FixedAllocator chunkSize} {p : Ptr} (hs : Sound s)
    (hp : Live s p) :
    Sound (deallocate s p) ∧ ∀ q, Live (deallocate s p) q ↔ (Live s q ∧ q ≠ p) := by
  obtain ⟨hrange, hne, hcur, hcarved, hnd⟩ := hs
  refine ⟨⟨hrange, hne, hcur, ?_, ?_⟩, ?_⟩
  · intro a ha
    simp only [deallocate, List.mem_append, List.mem_singleton] at ha
    rw [@carved_congr _ s (deallocate s p) rfl rfl a]
    rcases ha with ha | rfl
    · exact hcarved a ha
    · exact hp.1
  · simp only [deallocate]
    rw [List.nodup_append]
    refine ⟨hnd, List.nodup_singleton p, ?_⟩
    intro a ha hb
    simp only [List.mem_singleton] at hb
    exact hp.2 (hb ▸ ha)
  · intro q
    simp only [Live]
    rw [@carved_congr _ s (deallocate s p) rfl rfl q]
    simp only [deallocate, List.mem_append, List.mem_singleton, not_or]
    tauto

end FixedAllocator

namespace FastAllocator

/-- With 24-byte nodes, `allocate(1)` is the `FixedAllocator<24>` branch. -/
theorem allocate_24_1 (g : Globals) :
    allocate 24 1 g
      = match (FixedAllocator.get_instance g.fixed24).allocate with
        | some (p, a) => some (p, { g with fixed24 := some a })
        | none => none := by
  simp [allocate, SIZE_T_MOD]

/-- With 24-byte nodes, `deallocate(ptr, 1)` is the `FixedAllocator<24>` branch. -/
theorem deallocate_24_1 (g : Globals) (ptr : Ptr) :
    deallocate 24 ptr 1 g
      = { g with fixed24 := some ((FixedAllocator.get_instance g.fixed24).deallocate ptr) } := by
  simp [deallocate, SIZE_T_MOD]

/-- `FastAllocator<Node>` with 24-byte nodes honours the allocator contract: the
invariant is soundness of the `FixedAllocator<24>` pool and the live storage is its
live chunks. -/
theorem lawful24 :
    Lawful (nodeAllocator 24)
      (fun g => (FixedAllocator.get_instance g.fixed24).Sound)
      (fun g p => (FixedAllocator.get_instance g.fixed24).Live p) := by
  have key : ∀ (g : Globals) (p : Ptr) (g1 : Globals),
      (nodeAllocator 24).allocate g 1 = some (p, g1) →
      ∃ a, (FixedAllocator.get_instance g.fixed24).allocate = some (p, a) ∧
        FixedAllocator.get_instance g1.fixed24 = a := by
    intro g p g1 h
    simp only [nodeAllocator, allocate_24_1] at h
    cases hx : (FixedAllocator.get_instance g.fixed24).allocate with
    | none => simp [hx] at h
    | some r =>
      obtain ⟨q, a⟩ := r
      simp only [hx, Option.some.injEq, Prod.mk.injEq] at h
      obtain ⟨rfl, rfl⟩ := h
      exact ⟨a, rfl, rfl⟩
  have keyd : ∀ (g : Globals) (p : Ptr),
      FixedAllocator.get_instance ((nodeAllocator 24).deallocate g p 1).fixed24
        = (FixedAllocator.get_instance g.fixed24).deallocate p := by
    intro g p
    simp only [nodeAllocator, deallocate_24_1]
    rfl
  refine ⟨?_, ?_, ?_, ?_, ?_⟩
  · intro g p g1 hinv h
    obtain ⟨a, ha, rfl⟩ := key g p g1 h
    exact (FixedAllocator.sound_allocate hinv ha).1
  · intro g p g1 hinv h
    obtain ⟨a, ha, rfl⟩ := key g p g1 h
    exact (FixedAllocator.sound_allocate hinv ha).2.1
  · intro g p g1 hinv h
    obtain ⟨a, ha, hg1⟩ := key g p g1 h
    intro q
    rw [hg1]
    exact (FixedAllocator.sound_allocate hinv ha).2.2 q
  · intro g p hinv hl
    rw [keyd]
    exact (FixedAllocator.sound_deallocate hinv hl).1
  · intro g p hinv hl q
    rw [keyd]
    exact (FixedAllocator.sound_deallocate hinv hl).2 q

end FastAllocator

namespace LinkedList

variable {T A P : Type}

/-- A chain through `xs ++ y :: ys` is a chain to `y` followed by a chain from `y`. -/
theorem linked_append (node : P → Node T P) (xs : List P) (a y : P) (ys : List P) (b : P) :
    Linked node a (xs ++ y :: ys) b ↔ Linked node a xs y ∧ Linked node y ys b := by
  induction xs generalizing a with
  | nil => simp [Linked, and_assoc]
  | cons x xs ih => simp [Linked, ih, and_assoc]

/-- A chain only reads the `next` links of its start and inner nodes and the `prev`
links of its inner nodes and end. -/
theorem linked_frame {node node1 : P → Node T P} (ns : List P) (a b : P)
    (hnext : ∀ x ∈ a :: ns, (node1 x).next = (node x).next)
    (hprev : ∀ x ∈ ns ++ [b], (node1 x).prev = (node x).prev)
    (h : Linked node a ns b) : Linked node1 a ns b := by
  induction ns generalizing a with
  | nil =>
    obtain ⟨h1, h2⟩ := h
    exact ⟨by rw [hnext a (by simp)]; exact h1, by rw [hprev b (by simp)]; exact h2⟩
  | cons n ns ih =>
    obtain ⟨h1, h2, h3⟩ := h
    refine ⟨by rw [hnext a (by simp)]; exact h1, by rw [hprev n (by simp)]; exact h2,
      ih n ?_ ?_ h3⟩
    · intro x hx
      exact hnext x (List.mem_cons_of_mem _ hx)
    · intro x hx
      exact hprev x (List.mem_cons_of_mem _ hx)

/-- The `prev` link of the end of a chain is the start or an inner node. -/
theorem linked_prev_mem {node : P → Node T P} (ns : List P) (a b : P)
    (h : Linked node a ns b) : (node b).prev ∈ a :: ns := by
  induction ns generalizing a with
  | nil => simp [h.2]
  | cons n ns ih => exact List.mem_cons_of_mem _ (ih n h.2.2)

/-- The `next` link of the start of a chain is the first inner node, or the end. -/
theorem linked_next_head {node : P → Node T P} (ns : List P) (a b : P)
    (h : Linked node a ns b) : (ns ++ [b]).head? = some (node a).next := by
  cases ns with
  | nil => simp [h.1]
  | cons n ns => simp [h.1]

/-- `i` increments from the node after `a` lead to the `i`-th inner node of a chain, or
to its end when `i` is the number of inner nodes. -/
theorem advance_of_linked (node : P → Node T P) (b : P) :
    ∀ (i : Nat) (ns : List P) (a : P), Linked node a ns b → i ≤ ns.length →
      (ns.drop i ++ [b]).head?
        = some (common_iterator.advance node i { ptr := (node a).next }).ptr := by
  intro i
  induction i with
  | zero =>
    intro ns a h _
    simpa [common_iterator.advance] using linked_next_head ns a b h
  | succ i ih =>
    intro ns a h hi
    cases ns with
    | nil => simp at hi
    | cons n ns =>
      obtain ⟨h1, h2, h3⟩ := h
      have := ih ns n h3 (by simpa using hi)
      simpa [common_iterator.advance, common_iterator.inc, h1] using this

/-- The `prev` link of the end of a chain is the last node before it. -/
theorem linked_prev_last {node : P → Node T P} (ns : List P) (a b : P)
    (h : Linked node a ns b) : (a :: ns).getLast? = some (node b).prev := by
  induction ns generalizing a with
  | nil => simp [h.2]
  | cons n ns ih =>
    have := ih n h.2.2
    rw [List.getLast?_cons_cons]
    exact this

/-- A dereferenceable iterator of a ring refers to one of its value nodes. -/
theorem dereferenceable_index (l : LinkedList P) (h : Heap T A P) (ns : List P)
    (hr : Ring h.node l.fake ns) (it : common_iterator P) (hd : Dereferenceable l h it) :
    ∃ i, i < ns.length ∧ it = common_iterator.advance h.node i (begin l h) := by
  obtain ⟨k, hk, hne⟩ := hd
  refine ⟨k, ?_, hk⟩
  by_contra hlt
  have hle : ns.length ≤ k := Nat.le_of_not_lt hlt
  have := advance_of_linked h.node l.fake ns.length ns l.fake hr.1 (Nat.le_refl _)
  simp only [List.drop_length, List.nil_append, List.head?_cons, Option.some.injEq] at this
  apply hne ns.length hle
  cases hadv : common_iterator.advance h.node ns.length (begin l h) with
  | mk q =>
    simp only [begin] at hadv
    rw [hadv] at this
    simp [end_, this]

variable [DecidableEq P]

/-- Storing a `next` link at `a` changes the `next` link there and nowhere else. -/
theorem store_next_next (f : P → Node T P) (a x z : P) :
    (store_next f a x z).next = if z = a then x else (f z).next := by
  rcases eq_or_ne z a with rfl | h
  · simp [store_next, store_prev]
  · simp [store_next, store_prev, h]

/-- Storing a `next` link changes no `prev` link. -/
theorem store_next_prev (f : P → Node T P) (a x z : P) :
    (store_next f a x z).prev = (f z).prev := by
  rcases eq_or_ne z a with rfl | h
  · simp [store_next, store_prev]
  · simp [store_next, store_prev, h]

/-- Storing a `next` link changes no value. -/
theorem store_next_value (f : P → Node T P) (a x z : P) :
    (store_next f a x z).value = (f z).value := by
  rcases eq_or_ne z a with rfl | h
  · simp [store_next, store_prev]
  · simp [store_next, store_prev, h]

/-- Storing a `prev` link at `a` changes the `prev` link there and nowhere else. -/
theorem store_prev_prev (f : P → Node T P) (a x z : P) :
    (store_prev f a x z).prev = if z = a then x else (f z).prev := by
  rcases eq_or_ne z a with rfl | h
  · simp [store_next, store_prev]
  · simp [store_next, store_prev, h]

/-- Storing a `prev` link changes no `next` link. -/
theorem store_prev_next (f : P → Node T P) (a x z : P) :
    (store_prev f a x z).next = (f z).next := by
  rcases eq_or_ne z a with rfl | h
  · simp [store_next, store_prev]
  · simp [store_next, store_prev, h]

/-- Storing a `prev` link changes no value. -/
theorem store_prev_value (f : P → Node T P) (a x z : P) :
    (store_prev f a x z).value = (f z).value := by
  rcases eq_or_ne z a with rfl | h
  · simp [store_next, store_prev]
  · simp [store_next, store_prev, h]

/-- The links after `link_before`, when the new node differs from `ptr` and from the
node before `ptr`. -/
theorem link_before_next (node : P → Node T P) (y p : P) (v : T) (hy : p ≠ y)
    (hq : p ≠ (node y).prev) (z : P) :
    (link_before node y p v z).next
      = if z = p then y else if z = (node y).prev then p else (node z).next := by
  have h1 : (Function.update node p
      ({ value := v, next := y, prev := (node y).prev } : Node T P) y).prev
        = (node y).prev := by
    rw [Function.update_noteq (Ne.symm hy)]
  unfold link_before
  simp only [h1, store_prev_next, store_next_next]
  by_cases hzp : z = p
  · subst hzp
    simp [hq]
  · simp [hzp]

/-- The back links after `link_before`. -/
theorem link_before_prev (node : P → Node T P) (y p : P) (v : T) (hy : p ≠ y) (z : P) :
    (link_before node y p v z).prev
      = if z = y then p else if z = p then (node y).prev else (node z).prev := by
  unfold link_before
  simp only [store_prev_prev, store_next_prev]
  by_cases hzy : z = y
  · simp [hzy]
  · by_cases hzp : z = p
    · subst hzp
      simp [hy]
    · simp [hzy, hzp]

/-- The values after `link_before`. -/
theorem link_before_value (node : P → Node T P) (y p : P) (v : T) (z : P) :
    (link_before node y p v z).value = if z = p then v else (node z).value := by
  unfold link_before
  simp only [store_prev_value, store_next_value]
  by_cases hzp : z = p
  · subst hzp
    simp
  · simp [hzp]

/-- The links after `unlink`. -/
theorem unlink_next (node : P → Node T P) (y z : P) :
    (unlink node y z).next = if z = (node y).prev then (node y).next else (node z).next := by
  unfold unlink
  simp only [store_prev_next, store_next_next]

/-- The back links after `unlink`, when `ptr` is not its own predecessor. -/
theorem unlink_prev (node : P → Node T P) (y : P) (hq : (node y).prev ≠ y) (z : P) :
    (unlink node y z).prev = if z = (node y).next then (node y).prev else (node z).prev := by
  unfold unlink
  simp only [store_prev_prev, store_next_prev, store_next_next, if_neg (Ne.symm hq)]

/-- The values after `unlink`. -/
theorem unlink_value (node : P → Node T P) (y z : P) :
    (unlink node y z).value = (node z).value := by
  unfold unlink
  simp only [store_prev_value, store_next_value]

/-- Linking a new node `p` before the end `y` of a chain extends the chain by `p`. -/
theorem linked_link_before (node : P → Node T P) (y p : P) (v : T) (hpy : p ≠ y) :
    ∀ (xs : List P) (a : P), Linked node a xs y → (a :: xs).Nodup → p ∉ a :: xs →
      y ∉ xs → Linked (link_before node y p v) a (xs ++ [p]) y := by
  intro xs
  induction xs with
  | nil =>
    intro a h _ hp _
    obtain ⟨h1, h2⟩ := h
    have hpa : p ≠ a := by simpa using hp
    have hq : p ≠ (node y).prev := by rw [h2]; exact hpa
    refine ⟨?_, ?_, ?_, ?_⟩
    · rw [link_before_next node y p v hpy hq, h2]
      simp [Ne.symm hpa]
    · rw [link_before_prev node y p v hpy, h2]
      simp [hpy]
    · rw [link_before_next node y p v hpy hq]
      simp
    · rw [link_before_prev node y p v hpy]
      simp
  | cons x xs ih =>
    intro a h hnd hp hy
    obtain ⟨h1, h2, h3⟩ := h
    have hqmem : (node y).prev ∈ x :: xs := linked_prev_mem xs x y h3
    have hq : p ≠ (node y).prev := by
      intro e
      exact hp (List.mem_cons_of_mem _ (e ▸ hqmem))
    have hax : a ∉ x :: xs := (List.nodup_cons.mp hnd).1
    have hpa : p ≠ a := fun e => hp (e ▸ List.mem_cons_self _ _)
    have hpx : p ∉ x :: xs := fun hm => hp (List.mem_cons_of_mem _ hm)
    refine ⟨?_, ?_, ih x h3 (List.nodup_cons.mp hnd).2 hpx (fun hm => hy (List.mem_cons_of_mem _ hm))⟩
    · rw [link_before_next node y p v hpy hq]
      have haq : a ≠ (node y).prev := fun e => hax (e ▸ hqmem)
      simp [Ne.symm hpa, haq, h1]
    · rw [link_before_prev node y p v hpy]
      have hxy : x ≠ y := fun e => hy (e ▸ List.mem_cons_self _ _)
      have hxp : x ≠ p := fun e => hpx (e ▸ List.mem_cons_self _ _)
      simp [hxy, hxp, h2]

/-- Linking a new node before the position that follows `xs` in a ring puts it between
`xs` and the rest. -/
theorem ring_link_before (node : P → Node T P) (fake : P) (xs ys : List P) (ptr p : P)
    (v : T) (hr : Ring node fake (xs ++ ys)) (hpos : (ys ++ [fake]).head? = some ptr)
    (hp : p ∉ fake :: (xs ++ ys)) :
    Ring (link_before node ptr p v) fake (xs ++ p :: ys) := by
  obtain ⟨hl, hnd⟩ := hr
  have hpf : p ≠ fake := fun e => hp (e ▸ List.mem_cons_self _ _)
  have hpxs : p ∉ xs := fun hm => hp (List.mem_cons_of_mem _ (List.mem_append_left _ hm))
  have hpys : p ∉ ys := fun hm => hp (List.mem_cons_of_mem _ (List.mem_append_right _ hm))
  have hnd1 : (fake :: (xs ++ p :: ys)).Nodup := by
    have h0 : (p :: fake :: (xs ++ ys)).Nodup := List.nodup_cons.mpr ⟨hp, hnd⟩
    have hperm : (fake :: (xs ++ p :: ys)).Perm (p :: fake :: (xs ++ ys)) :=
      ((@List.perm_middle _ p xs ys).cons fake).trans
        (List.Perm.swap p fake (xs ++ ys))
    exact hperm.nodup_iff.mpr h0
  refine ⟨?_, hnd1⟩
  have hfxs : (fake :: xs).Nodup := by
    have := hnd
    rw [← List.cons_append] at this
    exact (List.nodup_append.mp this).1
  cases ys with
  | nil =>
    simp only [List.nil_append, List.head?_cons, Option.some.injEq] at hpos
    subst hpos
    rw [List.append_nil] at hl hp
    exact linked_link_before node fake p v hpf xs fake hl hfxs hp
      (List.nodup_cons.mp hfxs).1
  | cons y ys =>
    simp only [List.cons_append, List.head?_cons, Option.some.injEq] at hpos
    subst hpos
    obtain ⟨hl1, hl2⟩ := (linked_append node xs fake y ys fake).mp hl
    have hdisj : ∀ z, z ∈ fake :: xs → z ∈ y :: ys → False := by
      intro z hz1 hz2
      have := hnd
      rw [← List.cons_append] at this
      exact (List.nodup_append.mp this).2.2 hz1 hz2
    have hyxs : y ∉ xs := fun hm => hdisj y (List.mem_cons_of_mem _ hm) (List.mem_cons_self _ _)
    have hyf : y ≠ fake := fun e => hdisj fake (List.mem_cons_self _ _) (e ▸ List.mem_cons_self _ _)
    have hpy : p ≠ y := fun e => hpys (e ▸ List.mem_cons_self _ _)
    have hpfx : p ∉ fake :: xs := by
      simp only [List.mem_cons, not_or]
      exact ⟨hpf, hpxs⟩
    have hqmem : (node y).prev ∈ fake :: xs := linked_prev_mem xs fake y hl1
    have hq : p ≠ (node y).prev := fun e => hpfx (e ▸ hqmem)
    have hynd : (y :: ys).Nodup := by
      have := hnd
      rw [← List.cons_append] at this
      exact (List.nodup_append.mp this).2.1
    have hA := linked_link_before node y p v hpy xs fake hl1 hfxs hpfx hyxs
    have hB : Linked (link_before node y p v) y ys fake := by
      refine linked_frame ys y fake ?_ ?_ hl2
      · intro z hz
        rw [link_before_next node y p v hpy hq]
        have hzp : z ≠ p := fun e => hpys (e ▸ hz)
        have hzq : z ≠ (node y).prev := fun e => hdisj z (e ▸ hqmem) hz
        simp [hzp, hzq]
      · intro z hz
        rw [link_before_prev node y p v hpy]
        have hzy : z ≠ y := by
          rcases List.mem_append.mp hz with hm | hm
          · exact fun e => (List.nodup_cons.mp hynd).1 (e ▸ hm)
          · simp only [List.mem_singleton] at hm
            exact hm ▸ (Ne.symm hyf)
        have hzp : z ≠ p := by
          rcases List.mem_append.mp hz with hm | hm
          · exact fun e => hpys (e ▸ List.mem_cons_of_mem _ hm)
          · simp only [List.mem_singleton] at hm
            exact hm ▸ (Ne.symm hpf)
        simp [hzy, hzp]
    have := (linked_append (link_before node y p v) (xs ++ [p]) fake y ys fake).mpr ⟨hA, hB⟩
    simpa using this

/-- Unlinking the node `y` that joins two chains leaves the chain through the rest. -/
theorem linked_unlink (node : P → Node T P) (y : P) (ys : List P) (b : P)
    (h2 : Linked node y ys b) (hynd : (y :: ys).Nodup) (hbys : b ∉ ys) :
    ∀ (xs : List P) (a : P), Linked node a xs y → (a :: xs).Nodup →
      (∀ z, z ∈ a :: xs → z ∈ y :: ys → False) → b ∉ xs →
      Linked (unlink node y) a (xs ++ ys) b := by
  have hrhead : (ys ++ [b]).head? = some (node y).next := linked_next_head ys y b h2
  have hrmem : (node y).next ∈ ys ++ [b] := by
    have := List.mem_of_mem_head? hrhead
    exact this
  intro xs
  induction xs with
  | nil =>
    intro a h1 _ hdisj _
    obtain ⟨h1a, h1b⟩ := h1
    have hq : (node y).prev ≠ y := by
      rw [h1b]
      exact fun e => hdisj a (List.mem_cons_self _ _) (e ▸ List.mem_cons_self _ _)
    cases ys with
    | nil =>
      obtain ⟨h2a, h2b⟩ := h2
      refine ⟨?_, ?_⟩
      · rw [unlink_next, h1b, h2a]
        simp
      · rw [unlink_prev node y hq, h2a, h1b]
        simp
    | cons y1 ys =>
      obtain ⟨h2a, h2b, h2c⟩ := h2
      have hay : ∀ z ∈ y1 :: ys, z ≠ a := by
        intro z hz e
        exact hdisj a (List.mem_cons_self _ _) (List.mem_cons_of_mem _ (e ▸ hz))
      refine ⟨?_, ?_, ?_⟩
      · rw [unlink_next, h1b, h2a]
        simp
      · rw [unlink_prev node y hq, h2a, h1b]
        simp
      · refine linked_frame ys y1 b ?_ ?_ h2c
        · intro z hz
          rw [unlink_next, h1b]
          simp [hay z hz]
        · intro z hz
          rw [unlink_prev node y hq, h2a]
          have hzy1 : z ≠ y1 := by
            rcases List.mem_append.mp hz with hm | hm
            · exact fun e => (List.nodup_cons.mp (List.nodup_cons.mp hynd).2).1 (e ▸ hm)
            · simp only [List.mem_singleton] at hm
              exact fun e => hbys (by rw [← hm, e]; exact List.mem_cons_self _ _)
          simp [hzy1]
  | cons x xs ih =>
    intro a h1 hnd hdisj hb
    obtain ⟨h1a, h1b, h1c⟩ := h1
    have hqmem : (node y).prev ∈ x :: xs := linked_prev_mem xs x y h1c
    have hq : (node y).prev ≠ y := fun e =>
      hdisj y (List.mem_cons_of_mem _ (e ▸ hqmem)) (List.mem_cons_self _ _)
    have hax : a ∉ x :: xs := (List.nodup_cons.mp hnd).1
    refine ⟨?_, ?_, ih x h1c (List.nodup_cons.mp hnd).2
      (fun z hz1 hz2 => hdisj z (List.mem_cons_of_mem _ hz1) hz2)
      (fun hm => hb (List.mem_cons_of_mem _ hm))⟩
    · rw [unlink_next]
      have haq : a ≠ (node y).prev := fun e => hax (e ▸ hqmem)
      simp [haq, h1a]
    · rw [unlink_prev node y hq]
      have hxr : x ≠ (node y).next := by
        intro e
        rcases List.mem_append.mp hrmem with hm | hm
        · exact hdisj x (List.mem_cons_of_mem _ (List.mem_cons_self _ _))
            (List.mem_cons_of_mem _ (e ▸ hm))
        · simp only [List.mem_singleton] at hm
          exact hb (by rw [← hm, ← e]; exact List.mem_cons_self _ _)
      simp [hxr, h1b]

/-- Unlinking a value node of a ring leaves the ring of the other nodes. -/
theorem ring_unlink (node : P → Node T P) (fake : P) (xs : List P) (y : P) (ys : List P)
    (hr : Ring node fake (xs ++ y :: ys)) : Ring (unlink node y) fake (xs ++ ys) := by
  obtain ⟨hl, hnd⟩ := hr
  obtain ⟨hl1, hl2⟩ := (linked_append node xs fake y ys fake).mp hl
  have hnd1 : ((fake :: xs) ++ (y :: ys)).Nodup := by simpa using hnd
  obtain ⟨hA, hB, hdisj⟩ := List.nodup_append.mp hnd1
  have hfys : fake ∉ ys := fun hm =>
    hdisj (List.mem_cons_self _ _) (List.mem_cons_of_mem _ hm)
  refine ⟨linked_unlink node y ys fake hl2 hB hfys xs fake hl1 hA
    (fun z hz1 hz2 => hdisj hz1 hz2) (List.nodup_cons.mp hA).1, ?_⟩
  have hsub : (fake :: (xs ++ ys)).Sublist (fake :: (xs ++ y :: ys)) :=
    ((List.Sublist.refl xs).append (List.sublist_cons_self y ys)).cons₂ fake
  exact hnd.sublist hsub

/-- Iterating from the node after `a` up to the end `b` of a chain visits exactly the
inner nodes, provided the fuel exceeds their number. -/
theorem iterate_of_linked (node : P → Node T P) (b : P) :
    ∀ (ns : List P) (a : P) (fuel : Nat), Linked node a ns b → b ∉ ns → ns.length < fuel →
      iterate node { ptr := b } fuel { ptr := (node a).next }
        = some (ns.map (fun n => { ptr := n })) := by
  intro ns
  induction ns with
  | nil =>
    intro a fuel h _ hf
    obtain ⟨k, rfl⟩ : ∃ k, fuel = k + 1 := ⟨fuel - 1, by simp at hf; omega⟩
    simp [iterate, h.1]
  | cons n ns ih =>
    intro a fuel h hb hf
    obtain ⟨k, rfl⟩ : ∃ k, fuel = k + 1 := ⟨fuel - 1, by simp at hf; omega⟩
    obtain ⟨h1, h2, h3⟩ := h
    have hnb : n ≠ b := fun e => hb (e ▸ List.mem_cons_self _ _)
    have hk : ns.length < k := by simp at hf; omega
    have := ih n k h3 (fun hm => hb (List.mem_cons_of_mem _ hm)) hk
    simp [iterate, h1, hnb, common_iterator.inc, this]

/-- Walking from the node after `a` to the end `b` of a chain counts the inner nodes. -/
theorem ringCount_of_linked (node : P → Node T P) (b : P) :
    ∀ (ns : List P) (a : P) (fuel : Nat), Linked node a ns b → b ∉ ns → ns.length < fuel →
      ringCount node b fuel (node a).next = some ns.length := by
  intro ns
  induction ns with
  | nil =>
    intro a fuel h _ hf
    obtain ⟨k, rfl⟩ : ∃ k, fuel = k + 1 := ⟨fuel - 1, by simp at hf; omega⟩
    simp [ringCount, h.1]
  | cons n ns ih =>
    intro a fuel h hb hf
    obtain ⟨k, rfl⟩ : ∃ k, fuel = k + 1 := ⟨fuel - 1, by simp at hf; omega⟩
    obtain ⟨h1, h2, h3⟩ := h
    have hnb : n ≠ b := fun e => hb (e ▸ List.mem_cons_self _ _)
    have hk : ns.length < k := by simp at hf; omega
    have := ih n k h3 (fun hm => hb (List.mem_cons_of_mem _ hm)) hk
    simp [ringCount, h1, hnb, this]

/-- Forward iteration over a ring yields the values of its nodes in order. -/
theorem forward_of_ring (l : LinkedList P) (h : Heap T A P) (ns : List P)
    (hr : Ring h.node l.fake ns) (fuel : Nat) (hf : ns.length < fuel) :
    forward l h fuel = some (values h ns) := by
  have hb : l.fake ∉ ns := (List.nodup_cons.mp hr.2).1
  have := iterate_of_linked h.node l.fake ns l.fake fuel hr.1 hb hf
  simp [forward, begin, end_, this, values, common_iterator.deref, Function.comp_def]

/-- A freshly constructed list is well formed and empty. -/
theorem wf_ctor {al : NodeAllocator A P} {inv : A → Prop} {live : A → P → Prop}
    (law : Lawful al inv live) (h0 : Heap T A P) (l : LinkedList P) (h : Heap T A P)
    (hinv : inv h0.alloc) (hc : ctor al h0 = some (l, h)) : WF inv live l h [] := by
  unfold ctor at hc
  cases ha : al.allocate h0.alloc 1 with
  | none => simp [ha] at hc
  | some r =>
    obtain ⟨fake, a1⟩ := r
    simp only [ha, Option.some.injEq, Prod.mk.injEq] at hc
    obtain ⟨rfl, rfl⟩ := hc
    refine ⟨⟨⟨?_, ?_⟩, by simp⟩, rfl, law.allocate_inv _ _ _ hinv ha, ?_⟩
    · simp [store_prev_next, store_next_next]
    · simp [store_prev_prev]
    · intro p hp
      simp only [List.mem_singleton] at hp
      exact (law.allocate_live _ _ _ hinv ha p).mpr (Or.inl hp)

/-- What `insert` returns once the allocation has succeeded. -/
theorem insert_eq {al : NodeAllocator A P} (l : LinkedList P) (it : common_iterator P)
    (v : T) (h : Heap T A P) (p : P) (a1 : A) (ha : al.allocate h.alloc 1 = some (p, a1)) :
    insert al l it v h
      = some ({ l with _size := l._size + 1 },
          { node := link_before h.node it.ptr p v, alloc := a1 }) := by
  simp [insert, ha]

/-- When `insert` returns, the allocation has succeeded. -/
theorem insert_some {al : NodeAllocator A P} {l : LinkedList P} {it : common_iterator P}
    {v : T} {h : Heap T A P} {l1 : LinkedList P} {h1 : Heap T A P}
    (hi : insert al l it v h = some (l1, h1)) :
    ∃ p a1, al.allocate h.alloc 1 = some (p, a1) ∧
      l1 = { l with _size := l._size + 1 } ∧
      h1 = { node := link_before h.node it.ptr p v, alloc := a1 } := by
  unfold insert at hi
  cases ha : al.allocate h.alloc 1 with
  | none => simp [ha] at hi
  | some r =>
    obtain ⟨p, a1⟩ := r
    simp only [ha, Option.some.injEq, Prod.mk.injEq] at hi
    exact ⟨p, a1, rfl, hi.1.symm, hi.2.symm⟩

/-- Inserting before the position that follows `xs` keeps the list well formed, with
the new node between `xs` and the rest, and puts the value there. -/
theorem wf_insert {al : NodeAllocator A P} {inv : A → Prop} {live : A → P → Prop}
    (law : Lawful al inv live) (l : LinkedList P) (h : Heap T A P) (xs ys : List P)
    (ptr : P) (v : T) (p : P) (a1 : A) (hwf : WF inv live l h (xs ++ ys))
    (hpos : (ys ++ [l.fake]).head? = some ptr)
    (ha : al.allocate h.alloc 1 = some (p, a1)) :
    WF inv live { l with _size := l._size + 1 }
        ({ node := link_before h.node ptr p v, alloc := a1 } : Heap T A P)
        (xs ++ p :: ys) ∧
      values ({ node := link_before h.node ptr p v, alloc := a1 } : Heap T A P)
          (xs ++ p :: ys)
        = values h xs ++ v :: values h ys := by
  obtain ⟨hring, hsize, hinv, hlive⟩ := hwf
  have hfresh : p ∉ l.fake :: (xs ++ ys) := fun hm =>
    law.allocate_fresh _ _ _ hinv ha (hlive p hm)
  refine ⟨⟨ring_link_before h.node l.fake xs ys ptr p v hring hpos hfresh, ?_,
    law.allocate_inv _ _ _ hinv ha, ?_⟩, ?_⟩
  · simp only [hsize, List.length_append, List.length_cons]
    omega
  · intro z hz
    refine (law.allocate_live _ _ _ hinv ha z).mpr ?_
    by_cases hzp : z = p
    · exact Or.inl hzp
    · right
      apply hlive
      simp only [List.mem_cons, List.mem_append] at hz ⊢
      tauto
  · have hval : ∀ zs : List P, p ∉ zs →
        values ({ node := link_before h.node ptr p v, alloc := a1 } : Heap T A P) zs
          = values h zs := by
      intro zs hzs
      simp only [values]
      apply List.map_congr_left
      intro z hz
      have hzp : z ≠ p := fun e => hzs (e ▸ hz)
      simp [link_before_value, hzp]
    have hpxs : p ∉ xs := fun hm =>
      hfresh (List.mem_cons_of_mem _ (List.mem_append_left _ hm))
    have hpys : p ∉ ys := fun hm =>
      hfresh (List.mem_cons_of_mem _ (List.mem_append_right _ hm))
    have e1 := hval xs hpxs
    have e2 := hval ys hpys
    simp only [values, List.map_append, List.map_cons] at e1 e2 ⊢
    rw [e1, e2]
    simp [link_before_value]

/-- Erasing the value node `y` keeps the list well formed, without `y`, gives the
storage of `y` back, and leaves the other values as they were. -/
theorem wf_erase {al : NodeAllocator A P} {inv : A → Prop} {live : A → P → Prop}
    (law : Lawful al inv live) (l : LinkedList P) (h : Heap T A P) (xs : List P) (y : P)
    (ys : List P) (hwf : WF inv live l h (xs ++ y :: ys)) :
    WF inv live (erase al l { ptr := y } h).1 (erase al l { ptr := y } h).2 (xs ++ ys) ∧
      values (erase al l { ptr := y } h).2 (xs ++ ys) = values h xs ++ values h ys ∧
      (erase al l { ptr := y } h).1._size + 1 = l._size := by
  obtain ⟨hring, hsize, hinv, hlive⟩ := hwf
  have hylive : live h.alloc y := hlive y (by simp)
  have hnd : (l.fake :: (xs ++ y :: ys)).Nodup := hring.2
  refine ⟨⟨ring_unlink h.node l.fake xs y ys hring, ?_, law.deallocate_inv _ _ hinv hylive, ?_⟩,
    ?_, ?_⟩
  · have hpos : l._size ≠ 0 := by
      rw [hsize]
      simp
    simp only [erase, hpos, if_false]
    rw [hsize]
    simp only [List.length_append, List.length_cons]
    omega
  · intro z hz
    refine (law.deallocate_live _ _ hinv hylive z).mpr ⟨hlive z ?_, ?_⟩
    · simp only [List.mem_cons, List.mem_append] at hz ⊢
      tauto
    · intro e
      subst e
      have hperm : (l.fake :: (xs ++ z :: ys)).Perm (z :: l.fake :: (xs ++ ys)) :=
        ((@List.perm_middle _ z xs ys).cons l.fake).trans
          (List.Perm.swap z l.fake (xs ++ ys))
      exact (List.nodup_cons.mp (hperm.nodup_iff.mp hnd)).1 hz
  · simp [erase, values, unlink_value]
  · have hpos : l._size ≠ 0 := by
      rw [hsize]
      simp
    simp only [erase, hpos, if_false]
    omega

/-- Every list state reached from construction through the public operations is well
formed for some sequence of value nodes. -/
theorem reachable_wf {al : NodeAllocator A P} {inv : A → Prop} {live : A → P → Prop}
    (law : Lawful al inv live) {l : LinkedList P} {h : Heap T A P}
    (hr : Reachable al inv l h) : ∃ ns, WF inv live l h ns := by
  induction hr with
  | ctor hinv hc => exact ⟨[], wf_ctor law _ _ _ hinv hc⟩
  | @insert l h it v l1 h1 _ hpos hi ih =>
    obtain ⟨ns, hwf⟩ := ih
    obtain ⟨p, a1, ha, rfl, rfl⟩ := insert_some hi
    rcases hpos with rfl | hd
    · refine ⟨ns ++ [p], (wf_insert law l h ns [] _ v p a1 (by simpa using hwf) ?_ ha).1⟩
      simp [end_]
    · obtain ⟨i, hlt, rfl⟩ := dereferenceable_index l h ns hwf.1 it hd
      have hp := advance_of_linked h.node l.fake i ns l.fake hwf.1.1 (Nat.le_of_lt hlt)
      exact ⟨ns.take i ++ p :: ns.drop i,
        (wf_insert law l h (ns.take i) (ns.drop i) _ v p a1
          (by simpa using hwf) hp ha).1⟩
  | @erase l h it _ hd ih =>
    obtain ⟨ns, hwf⟩ := ih
    obtain ⟨i, hi, rfl⟩ := dereferenceable_index l h ns hwf.1 it hd
    have hp := advance_of_linked h.node l.fake i ns l.fake hwf.1.1 (Nat.le_of_lt hi)
    rw [List.drop_eq_getElem_cons hi] at hp
    simp only [List.cons_append, List.head?_cons, Option.some.injEq] at hp
    have hsplit : ns = ns.take i ++ ns[i] :: ns.drop (i + 1) := by
      rw [← List.drop_eq_getElem_cons hi, List.take_append_drop]
    have hit : common_iterator.advance h.node i (begin l h) = { ptr := ns[i] } := by
      cases hadv : common_iterator.advance h.node i (begin l h) with
      | mk q =>
        simp only [begin] at hadv
        rw [hadv] at hp
        simp [hp]
    rw [hit]
    refine ⟨ns.take i ++ ns.drop (i + 1), (wf_erase law l h _ ns[i] _ ?_).1⟩
    rw [← hsplit]
    exact hwf
  | @push_back l h v l1 h1 _ hi ih =>
    obtain ⟨ns, hwf⟩ := ih
    obtain ⟨p, a1, ha, rfl, rfl⟩ := insert_some hi
    refine ⟨ns ++ [p], (wf_insert law l h ns [] _ v p a1 (by simpa using hwf) ?_ ha).1⟩
    simp [end_]
  | @push_front l h v l1 h1 _ hi ih =>
    obtain ⟨ns, hwf⟩ := ih
    obtain ⟨p, a1, ha, rfl, rfl⟩ := insert_some hi
    refine ⟨p :: ns, (wf_insert law l h [] ns _ v p a1 (by simpa using hwf) ?_ ha).1⟩
    simpa [begin] using linked_next_head ns l.fake l.fake hwf.1.1
  | @pop_back l h _ hne ih =>
    obtain ⟨ns, hwf⟩ := ih
    have hlast := linked_prev_last ns l.fake l.fake hwf.1.1
    rcases List.eq_nil_or_concat ns with rfl | ⟨xs, y, rfl⟩
    · exfalso
      apply hne
      simp only [List.getLast?_singleton, Option.some.injEq] at hlast
      simp [common_iterator.dec, end_, ← hlast]
    · rw [List.concat_eq_append] at hlast hwf
      have hy : (h.node l.fake).prev = y := by
        rw [← List.cons_append, List.getLast?_concat] at hlast
        exact (Option.some.inj hlast).symm
      have hit : common_iterator.dec h.node (end_ l) = { ptr := y } := by
        simp [common_iterator.dec, end_, hy]
      refine ⟨xs ++ [], ?_⟩
      unfold pop_back
      rw [hit]
      exact (wf_erase law l h xs y [] hwf).1
  | @pop_front l h _ hne ih =>
    obtain ⟨ns, hwf⟩ := ih
    have hhead := linked_next_head ns l.fake l.fake hwf.1.1
    cases ns with
    | nil =>
      exfalso
      apply hne
      simp only [List.nil_append, List.head?_cons, Option.some.injEq] at hhead
      simp [begin, end_, ← hhead]
    | cons y ys =>
      simp only [List.cons_append, List.head?_cons, Option.some.injEq] at hhead
      have hit : begin l h = { ptr := y } := by
        simp [begin, hhead]
      refine ⟨[] ++ ys, ?_⟩
      unfold pop_front
      rw [hit]
      exact (wf_erase law l h [] y ys (by simpa using hwf)).1

end LinkedList

namespace LinkedList

variable {T A P : Type} [DecidableEq P]

/-- C8 (list invariant): in every list state reached from an empty list by `insert`,
`erase`, `push_back`, `push_front`, `pop_back` and `pop_front`, each used within its
precondition, walking the `next` links from the sentinel once round the ring passes
exactly `size()` value nodes before it is back at the sentinel, and forward iteration
from `begin()` to `end()` visits exactly `size()` elements; both walks finish within any
fuel above `size()`. -/
theorem size_eq_ring_count {al : NodeAllocator A P} {inv : A → Prop} {live : A → P → Prop}
    (law : Lawful al inv live) (l : LinkedList P) (h : Heap T A P)
    (hr : Reachable al inv l h) (fuel : Nat) (hf : l.size < fuel) :
    ringCount h.node l.fake fuel (h.node l.fake).next = some l.size ∧
      ∃ xs, forward l h fuel = some xs ∧ xs.length = l.size := by
  obtain ⟨ns, hring, hsize, -, -⟩ := reachable_wf law hr
  have hb : l.fake ∉ ns := (List.nodup_cons.mp hring.2).1
  have hf1 : ns.length < fuel := by
    rw [← hsize]
    exact hf
  refine ⟨?_, values h ns, forward_of_ring l h ns hring fuel hf1, ?_⟩
  · rw [size, hsize]
    exact ringCount_of_linked h.node l.fake ns l.fake fuel hring.1 hb hf1
  · simp [values, size, hsize]

/-- C9 (insert): for a well-formed list with value nodes `ns` and every index
`i <= |ns|`, the iterator reached from `begin()` by `i` increments refers to `ns[i]`, or
is `end()` when `i = |ns|`; once the allocation has returned storage `p`, `insert` at
that iterator returns a well-formed list whose nodes are `ns[0..i) ++ [p] ++ ns[i..)`,
whose forward sequence is `xs[0..i) ++ [v] ++ xs[i..)` for the old forward sequence
`xs`, and whose `size()` is larger by exactly 1. -/
theorem insert_spec {al : NodeAllocator A P} {inv : A → Prop} {live : A → P → Prop}
    (law : Lawful al inv live) (l : LinkedList P) (h : Heap T A P) (ns : List P) (i : Nat)
    (v : T) (p : P) (a1 : A) (hwf : WF inv live l h ns) (hi : i ≤ ns.length)
    (halloc : al.allocate h.alloc 1 = some (p, a1)) :
    (ns ++ [l.fake])[i]? = some (common_iterator.advance h.node i (begin l h)).ptr ∧
    (∀ fuel, ns.length < fuel → forward l h fuel = some (values h ns)) ∧
    ∃ l1 h1,
      insert al l (common_iterator.advance h.node i (begin l h)) v h = some (l1, h1) ∧
      WF inv live l1 h1 (ns.take i ++ p :: ns.drop i) ∧
      (∀ fuel, ns.length + 1 < fuel →
        forward l1 h1 fuel = some ((values h ns).take i ++ v :: (values h ns).drop i)) ∧
      l1.size = l.size + 1 := by
  have hp := advance_of_linked h.node l.fake i ns l.fake hwf.1.1 hi
  have hsplit : ns.take i ++ ns.drop i = ns := List.take_append_drop i ns
  have hwf1 : WF inv live l h (ns.take i ++ ns.drop i) := by
    rw [hsplit]
    exact hwf
  obtain ⟨hwf2, hval⟩ := wf_insert law l h (ns.take i) (ns.drop i)
    (common_iterator.advance h.node i (begin l h)).ptr v p a1 hwf1 hp halloc
  refine ⟨?_, fun fuel hf => forward_of_ring l h ns hwf.1 fuel hf, _, _,
    insert_eq l _ v h p a1 halloc, hwf2, ?_, rfl⟩
  · have e : (ns ++ [l.fake])[i]? = (ns.drop i ++ [l.fake]).head? := by
      rw [← List.drop_append_of_le_length hi, List.head?_drop]
    rw [e, hp]
    rfl
  · intro fuel hf
    rw [forward_of_ring _ _ _ hwf2.1 fuel (by
      simp only [List.length_append, List.length_cons, List.length_take, List.length_drop]
      omega), hval]
    simp [values]

/-- C10 (erase): for a well-formed list with value nodes `ns` and every index
`i < |ns|`, the iterator reached from `begin()` by `i` increments refers to the node
`y = ns[i]`, and `erase` at it returns a well-formed list whose nodes are `ns` without
`y`, whose forward sequence is the old one with its `i`-th element removed, and whose
`size()` is smaller by exactly 1; the allocator receives exactly one `deallocate`, for
`y`, after which `y` and nothing else has stopped being live. -/
theorem erase_spec {al : NodeAllocator A P} {inv : A → Prop} {live : A → P → Prop}
    (law : Lawful al inv live) (l : LinkedList P) (h : Heap T A P) (ns : List P) (i : Nat)
    (hwf : WF inv live l h ns) (hi : i < ns.length) :
    (∀ fuel, ns.length < fuel → forward l h fuel = some (values h ns)) ∧
    ∃ y l1 h1, ns[i]? = some y ∧
      (common_iterator.advance h.node i (begin l h)).ptr = y ∧
      erase al l (common_iterator.advance h.node i (begin l h)) h = (l1, h1) ∧
      WF inv live l1 h1 (ns.eraseIdx i) ∧
      (∀ fuel, ns.length - 1 < fuel →
        forward l1 h1 fuel = some ((values h ns).eraseIdx i)) ∧
      l1.size + 1 = l.size ∧
      h1.alloc = al.deallocate h.alloc y 1 ∧
      (∀ q, live h1.alloc q ↔ (live h.alloc q ∧ q ≠ y)) := by
  have hp := advance_of_linked h.node l.fake i ns l.fake hwf.1.1 (Nat.le_of_lt hi)
  rw [List.drop_eq_getElem_cons hi] at hp
  simp only [List.cons_append, List.head?_cons, Option.some.injEq] at hp
  have hsplit : ns = ns.take i ++ ns[i] :: ns.drop (i + 1) := by
    rw [← List.drop_eq_getElem_cons hi, List.take_append_drop]
  have hit : common_iterator.advance h.node i (begin l h) = { ptr := ns[i] } := by
    cases hadv : common_iterator.advance h.node i (begin l h) with
    | mk q =>
      simp only [begin] at hadv
      rw [hadv] at hp
      simp [hp]
  have hwf1 : WF inv live l h (ns.take i ++ ns[i] :: ns.drop (i + 1)) := by
    rw [← hsplit]
    exact hwf
  obtain ⟨hwf2, hval, hsz⟩ := wf_erase law l h (ns.take i) ns[i] (ns.drop (i + 1)) hwf1
  have hlive : live h.alloc ns[i] := hwf.2.2.2 _ (List.mem_cons_of_mem _ (List.getElem_mem hi))
  refine ⟨fun fuel hf => forward_of_ring l h ns hwf.1 fuel hf, ns[i], _, _,
    List.getElem?_eq_getElem hi, by rw [hit], by rw [hit], ?_, ?_, hsz, rfl, ?_⟩
  · rw [List.eraseIdx_eq_take_drop_succ]
    exact hwf2
  · intro fuel hf
    rw [forward_of_ring _ _ _ hwf2.1 fuel (by
      simp only [List.length_append, List.length_take, List.length_drop]
      omega), hval, List.eraseIdx_eq_take_drop_succ]
    simp [values]
  · intro q
    exact law.deallocate_live _ _ hwf.2.2.1 hlive q

end LinkedList

namespace Example

/-- Constructing a list on the initial memory gives `list1` in `heap1`. -/
theorem ctor_heap0 :
    LinkedList.ctor (FastAllocator.nodeAllocator 24) heap0 = some (list1, heap1) := by
  rfl

/-- `push_back(5)` on `list1` gives `list2` in `heap2`. -/
theorem push_back_list1 :
    LinkedList.push_back (FastAllocator.nodeAllocator 24) list1 5 heap1
      = some (list2, heap2) := by
  rfl

/-- The pool of the initial memory is sound. -/
theorem sound_heap0 : (FixedAllocator.get_instance heap0.alloc.fixed24).Sound :=
  FixedAllocator.sound_ctor

/-- The one-element example list is well formed. -/
theorem wf_list2 :
    LinkedList.WF (fun g => (FixedAllocator.get_instance g.fixed24).Sound)
      (fun g p => (FixedAllocator.get_instance g.fixed24).Live p)
      list2 heap2 [Ptr.chunk 24 0 1] := by
  have h1 := LinkedList.wf_ctor FastAllocator.lawful24 heap0 list1 heap1 sound_heap0
    ctor_heap0
  exact (LinkedList.wf_insert FastAllocator.lawful24 list1 heap1 [] [] (Ptr.chunk 24 0 0) 5
    (Ptr.chunk 24 0 1) heap2.alloc h1 rfl rfl).1

end Example

namespace LinkedList

/-- Witness for C8: the list built by construction and `push_back(5)` on 24-byte
nodes served by `FastAllocator`. -/
theorem size_eq_ring_count_witness :
    Reachable (FastAllocator.nodeAllocator 24)
        (fun g => (FixedAllocator.get_instance g.fixed24).Sound) Example.list2 Example.heap2 ∧
      Example.list2.size < 2 ∧
      (ringCount Example.heap2.node Example.list2.fake 2
          (Example.heap2.node Example.list2.fake).next = some Example.list2.size ∧
        ∃ xs, forward Example.list2 Example.heap2 2 = some xs ∧
          xs.length = Example.list2.size) := by
  have hr : Reachable (FastAllocator.nodeAllocator 24)
      (fun g => (FixedAllocator.get_instance g.fixed24).Sound) Example.list2 Example.heap2 :=
    Reachable.push_back (Reachable.ctor Example.sound_heap0 Example.ctor_heap0)
      Example.push_back_list1
  exact ⟨hr, by decide, size_eq_ring_count FastAllocator.lawful24 _ _ hr 2 (by decide)⟩

/-- Witness for C9: inserting 3 at index 0 of the example list holding `[5]`. -/
theorem insert_spec_witness :
    WF (fun g => (FixedAllocator.get_instance g.fixed24).Sound)
        (fun g p => (FixedAllocator.get_instance g.fixed24).Live p)
        Example.list2 Example.heap2 [Ptr.chunk 24 0 1] ∧
      0 ≤ [Ptr.chunk 24 0 1].length ∧
      (FastAllocator.nodeAllocator 24).allocate Example.heap2.alloc 1
        = some (Ptr.chunk 24 0 2,
            { Globals.initial with
              fixed24 := some { cur_pos := 3, pools := [0], reused := [] } }) ∧
      (([Ptr.chunk 24 0 1] ++ [Example.list2.fake])[0]?
          = some (common_iterator.advance Example.heap2.node 0
              (begin Example.list2 Example.heap2)).ptr ∧
        (∀ fuel, [Ptr.chunk 24 0 1].length < fuel →
          forward Example.list2 Example.heap2 fuel
            = some (values Example.heap2 [Ptr.chunk 24 0 1])) ∧
        ∃ l1 h1,
          insert (FastAllocator.nodeAllocator 24) Example.list2
              (common_iterator.advance Example.heap2.node 0
                (begin Example.list2 Example.heap2)) 3 Example.heap2 = some (l1, h1) ∧
          WF (fun g => (FixedAllocator.get_instance g.fixed24).Sound)
            (fun g p => (FixedAllocator.get_instance g.fixed24).Live p) l1 h1
            ([Ptr.chunk 24 0 1].take 0 ++ Ptr.chunk 24 0 2 :: [Ptr.chunk 24 0 1].drop 0) ∧
          (∀ fuel, [Ptr.chunk 24 0 1].length + 1 < fuel →
            forward l1 h1 fuel
              = some ((values Example.heap2 [Ptr.chunk 24 0 1]).take 0
                  ++ 3 :: (values Example.heap2 [Ptr.chunk 24 0 1]).drop 0)) ∧
          l1.size = Example.list2.size + 1) :=
  ⟨Example.wf_list2, Nat.zero_le _, rfl,
    insert_spec FastAllocator.lawful24 Example.list2 Example.heap2 [Ptr.chunk 24 0 1] 0 3
      (Ptr.chunk 24 0 2) _ Example.wf_list2 (Nat.zero_le _) rfl⟩

/-- Witness for C10: erasing index 0 of the example list holding `[5]`. -/
theorem erase_spec_witness :
    WF (fun g => (FixedAllocator.get_instance g.fixed24).Sound)
        (fun g p => (FixedAllocator.get_instance g.fixed24).Live p)
        Example.list2 Example.heap2 [Ptr.chunk 24 0 1] ∧
      0 < [Ptr.chunk 24 0 1].length ∧
      ((∀ fuel, [Ptr.chunk 24 0 1].length < fuel →
          forward Example.list2 Example.heap2 fuel
            = some (values Example.heap2 [Ptr.chunk 24 0 1])) ∧
        ∃ y l1 h1, [Ptr.chunk 24 0 1][0]? = some y ∧
          (common_iterator.advance Example.heap2.node 0
            (begin Example.list2 Example.heap2)).ptr = y ∧
          erase (FastAllocator.nodeAllocator 24) Example.list2
              (common_iterator.advance Example.heap2.node 0
                (begin Example.list2 Example.heap2)) Example.heap2 = (l1, h1) ∧
          WF (fun g => (FixedAllocator.get_instance g.fixed24).Sound)
            (fun g p => (FixedAllocator.get_instance g.fixed24).Live p) l1 h1
            ([Ptr.chunk 24 0 1].eraseIdx 0) ∧
          (∀ fuel, [Ptr.chunk 24 0 1].length - 1 < fuel →
            forward l1 h1 fuel
              = some ((values Example.heap2 [Ptr.chunk 24 0 1]).eraseIdx 0)) ∧
          l1.size + 1 = Example.list2.size ∧
          h1.alloc = (FastAllocator.nodeAllocator 24).deallocate Example.heap2.alloc y 1 ∧
          (∀ q, (FixedAllocator.get_instance h1.alloc.fixed24).Live q
            ↔ ((FixedAllocator.get_instance Example.heap2.alloc.fixed24).Live q ∧ q ≠ y))) :=
  ⟨Example.wf_list2, Nat.zero_lt_one,
    erase_spec FastAllocator.lawful24 Example.list2 Example.heap2 [Ptr.chunk 24 0 1] 0
      Example.wf_list2 Nat.zero_lt_one⟩

end LinkedList

namespace FixedAllocator

variable {chunkSize : Nat}

/-- A bookkept history is a history. -/
theorem history_reach {s : FixedAllocator chunkSize} {live issued : List Ptr} {peak : Nat}
    (h : History s live issued peak) : Reach s live := by
  induction h with
  | ctor => exact Reach.ctor
  | allocate _ ha ih => exact Reach.allocate ih ha
  | deallocate _ hp ih => exact Reach.deallocate ih hp

/-- Bookkeeping invariant: the carved slots are the live chunks plus the free list, the
addresses ever issued are exactly those, and the peak is their number. -/
theorem history_inv {s : FixedAllocator chunkSize} {live issued : List Ptr} {peak : Nat}
    (h : History s live issued peak) :
    footprint s = live.length + s.reused.length ∧
      (∀ a, a ∈ issued ↔ a ∈ live ++ s.reused) ∧ peak = footprint s := by
  induction h with
  | ctor => simp [footprint, ctor, new_pool, new_Pool_array]
  | @allocate s live issued peak p s1 hh ha ih =>
    obtain ⟨ih1, ih2, ih3⟩ := ih
    obtain ⟨hrange, hne, hcur, -, -⟩ := reach_inv (history_reach hh)
    have hlen : 0 < s.pools.length := List.length_pos.mpr hne
    rcases allocate_cases ha with ⟨r, hr, rfl⟩ | ⟨hr, hc, rfl, rfl⟩ |
      ⟨hr, hc, ⟨slab, hlast, rfl⟩, rfl⟩
    · have e : footprint ({ s with reused := r } : FixedAllocator chunkSize) = footprint s := rfl
      rw [hr] at ih1 ih2
      simp only [List.length_append, List.length_singleton] at ih1
      refine ⟨?_, ?_, ?_⟩
      · rw [e, ih1]
        simp only [List.length_cons]
        omega
      · intro a
        have := ih2 a
        simp only [List.mem_cons, List.mem_append, List.mem_singleton] at this ⊢
        tauto
      · rw [e, ih3, ih1]
        omega
    · rw [hr] at ih1 ih2
      simp only [footprint, size, hc, List.length_nil, Nat.add_zero] at ih1 ih3
      have hc1 : s.cur_pos = 2048 := hc
      refine ⟨?_, ?_, ?_⟩
      · simp only [footprint, size, List.length_append, List.length_singleton,
          List.length_cons, List.length_nil]
        omega
      · intro a
        have := ih2 a
        simp only [List.mem_cons, List.mem_append, List.append_nil, List.not_mem_nil,
          or_false] at this ⊢
        tauto
      · simp only [footprint, size, List.length_append, List.length_singleton]
        omega
    · have hlt : s.cur_pos < 2048 := lt_of_le_of_ne hcur hc
      have hmod : (s.cur_pos + 1) % SIZE_T_MOD = s.cur_pos + 1 := by
        apply Nat.mod_eq_of_lt
        simp only [SIZE_T_MOD]
        omega
      rw [hr] at ih1 ih2
      simp only [footprint, size, List.length_nil, Nat.add_zero] at ih1 ih3
      refine ⟨?_, ?_, ?_⟩
      · simp only [footprint, size, hmod, hr, List.length_cons, List.length_nil]
        omega
      · intro a
        have := ih2 a
        simp only [List.mem_cons, List.mem_append, List.append_nil, hr, List.not_mem_nil,
          or_false] at this ⊢
        tauto
      · simp only [footprint, size, hmod]
        omega
  | @deallocate s live issued peak p hh hp ih =>
    obtain ⟨ih1, ih2, ih3⟩ := ih
    have hperm : (live.erase p ++ (s.reused ++ [p])).Perm (live ++ s.reused) := by
      have h1 : (live.erase p ++ (s.reused ++ [p])).Perm
          (p :: (live.erase p ++ s.reused)) := by
        rw [← List.append_assoc]
        exact List.perm_append_singleton _ _
      exact h1.trans ((List.perm_cons_erase hp).symm.append_right s.reused)
    have e : footprint (deallocate s p) = footprint s := rfl
    refine ⟨?_, ?_, ?_⟩
    · rw [e, ih1]
      have := hperm.length_eq
      simpa [deallocate] using this.symm
    · intro a
      rw [ih2 a]
      exact (hperm.mem_iff).symm
    · rw [e, ih3]

/-- C19 (footprint equals peak use): after any sequence of `allocate`/`deallocate`
calls on a freshly constructed pool in which every `deallocate` is given a live address,
the number of slots carved so far, `2048 * (slabCount - 1) + cursor`, is the number of
live chunks plus the length of the free list; the number of distinct addresses ever
issued is that same number, and it equals the largest number of chunks that were live
at the same time. -/
theorem footprint_eq_peak (s : FixedAllocator chunkSize) (live issued : List Ptr)
    (peak : Nat) (h : History s live issued peak) :
    2048 * (s.pools.length - 1) + s.cur_pos = live.length + s.reused.length ∧
      issued.dedup.length = 2048 * (s.pools.length - 1) + s.cur_pos ∧
      issued.dedup.length = peak := by
  obtain ⟨h1, h2, h3⟩ := history_inv h
  have hnd : (live ++ s.reused).Nodup := (reach_inv (history_reach h)).2.2.2.2
  have hperm : issued.dedup.Perm (live ++ s.reused) :=
    (List.perm_ext_iff_of_nodup (List.nodup_dedup issued) hnd).mpr
      (fun a => by rw [List.mem_dedup, h2 a])
  have hlen : issued.dedup.length = live.length + s.reused.length := by
    rw [hperm.length_eq, List.length_append]
  have hf : footprint s = 2048 * (s.pools.length - 1) + s.cur_pos := rfl
  rw [← hf]
  exact ⟨h1, by rw [hlen, h1], by rw [hlen, h3, h1]⟩

/-- Witness for C19: two `allocate` calls, a `deallocate` of the first address, and an
`allocate` that reuses it: two distinct addresses issued, peak two. -/
theorem footprint_eq_peak_witness :
    History ({ cur_pos := 2, pools := [0], reused := [] } : FixedAllocator 8)
        [Ptr.chunk 8 0 0, Ptr.chunk 8 0 1]
        [Ptr.chunk 8 0 0, Ptr.chunk 8 0 1, Ptr.chunk 8 0 0] 2 ∧
      (2048 * (([0] : List Nat).length - 1) + 2
          = [Ptr.chunk 8 0 0, Ptr.chunk 8 0 1].length + ([] : List Ptr).length ∧
        [Ptr.chunk 8 0 0, Ptr.chunk 8 0 1, Ptr.chunk 8 0 0].dedup.length
          = 2048 * (([0] : List Nat).length - 1) + 2 ∧
        [Ptr.chunk 8 0 0, Ptr.chunk 8 0 1, Ptr.chunk 8 0 0].dedup.length = 2) := by
  have h1 : allocate (ctor : FixedAllocator 8)
      = some (Ptr.chunk 8 0 0, { cur_pos := 1, pools := [0], reused := [] }) := by decide
  have h2 : allocate ({ cur_pos := 1, pools := [0], reused := [] } : FixedAllocator 8)
      = some (Ptr.chunk 8 0 1, { cur_pos := 2, pools := [0], reused := [] }) := by decide
  have h3 : allocate (deallocate
        ({ cur_pos := 2, pools := [0], reused := [] } : FixedAllocator 8) (Ptr.chunk 8 0 0))
      = some (Ptr.chunk 8 0 0, { cur_pos := 2, pools := [0], reused := [] }) := by decide
  have hh : History ({ cur_pos := 2, pools := [0], reused := [] } : FixedAllocator 8)
      [Ptr.chunk 8 0 0, Ptr.chunk 8 0 1]
      [Ptr.chunk 8 0 0, Ptr.chunk 8 0 1, Ptr.chunk 8 0 0] 2 :=
    History.allocate
      (History.deallocate (History.allocate (History.allocate History.ctor h1) h2)
        (by decide)) h3
  exact ⟨hh, footprint_eq_peak _ _ _ _ hh⟩

end FixedAllocator

namespace FastAllocator

/-- C20 (routing agreement): for every element size, count, pointer and state,
`allocate(count)` and `deallocate(ptr, count)` take the same branch - both the
`FixedAllocator<4>` branch, or both the `<8>`, `<16>`, `<20>` or `<24>` branch, or both
the `std::allocator` branch - as decided by the `size_t` product `sizeof(T) * count`;
and a chunk obtained from a pool goes back to that very pool: giving the result of
`allocate(count)` to `deallocate(ptr, count)` and calling `allocate(count)` again
returns the same chunk and the same state. -/
theorem routing_agreement (sizeofT count : Nat) (ptr : Ptr) (g : Globals) :
    ((sizeofT * count % SIZE_T_MOD = 4 ∧
        allocate sizeofT count g
          = (match (FixedAllocator.get_instance g.fixed4).allocate with
            | some (p, a) => some (p, { g with fixed4 := some a })
            | none => none) ∧
        deallocate sizeofT ptr count g
          = { g with
              fixed4 := some ((FixedAllocator.get_instance g.fixed4).deallocate ptr) }) ∨
      (sizeofT * count % SIZE_T_MOD = 8 ∧
        allocate sizeofT count g
          = (match (FixedAllocator.get_instance g.fixed8).allocate with
            | some (p, a) => some (p, { g with fixed8 := some a })
            | none => none) ∧
        deallocate sizeofT ptr count g
          = { g with
              fixed8 := some ((FixedAllocator.get_instance g.fixed8).deallocate ptr) }) ∨
      (sizeofT * count % SIZE_T_MOD = 16 ∧
        allocate sizeofT count g
          = (match (FixedAllocator.get_instance g.fixed16).allocate with
            | some (p, a) => some (p, { g with fixed16 := some a })
            | none => none) ∧
        deallocate sizeofT ptr count g
          = { g with
              fixed16 := some ((FixedAllocator.get_instance g.fixed16).deallocate ptr) }) ∨
      (sizeofT * count % SIZE_T_MOD = 20 ∧
        allocate sizeofT count g
          = (match (FixedAllocator.get_instance g.fixed20).allocate with
            | some (p, a) => some (p, { g with fixed20 := some a })
            | none => none) ∧
        deallocate sizeofT ptr count g
          = { g with
              fixed20 := some ((FixedAllocator.get_instance g.fixed20).deallocate ptr) }) ∨
      (sizeofT * count % SIZE_T_MOD = 24 ∧
        allocate sizeofT count g
          = (match (FixedAllocator.get_instance g.fixed24).allocate with
            | some (p, a) => some (p, { g with fixed24 := some a })
            | none => none) ∧
        deallocate sizeofT ptr count g
          = { g with
              fixed24 := some ((FixedAllocator.get_instance g.fixed24).deallocate ptr) }) ∨
      (sizeofT * count % SIZE_T_MOD ∉ [4, 8, 16, 20, 24] ∧
        allocate sizeofT count g = some (std_allocate sizeofT count g) ∧
        deallocate sizeofT ptr count g = std_deallocate sizeofT ptr count g)) ∧
    (sizeofT * count % SIZE_T_MOD ∈ [4, 8, 16, 20, 24] →
      ∀ p g1, allocate sizeofT count g = some (p, g1) →
        allocate sizeofT count (deallocate sizeofT p count g1) = some (p, g1)) := by
  constructor
  · by_cases h4 : sizeofT * count % SIZE_T_MOD = 4
    · left
      exact ⟨h4, by simp [allocate, h4], by simp [deallocate, h4]⟩
    right
    by_cases h8 : sizeofT * count % SIZE_T_MOD = 8
    · left
      exact ⟨h8, by simp [allocate, h8], by simp [deallocate, h8]⟩
    right
    by_cases h16 : sizeofT * count % SIZE_T_MOD = 16
    · left
      exact ⟨h16, by simp [allocate, h16], by simp [deallocate, h16]⟩
    right
    by_cases h20 : sizeofT * count % SIZE_T_MOD = 20
    · left
      exact ⟨h20, by simp [allocate, h20], by simp [deallocate, h20]⟩
    right
    by_cases h24 : sizeofT * count % SIZE_T_MOD = 24
    · left
      exact ⟨h24, by simp [allocate, h24], by simp [deallocate, h24]⟩
    right
    exact ⟨by simp [h4, h8, h16, h20, h24], by simp [allocate, h4, h8, h16, h20, h24],
      by simp [deallocate, h4, h8, h16, h20, h24]⟩
  · intro hmem p g1 ha
    simp only [List.mem_cons, List.mem_singleton, List.not_mem_nil, or_false] at hmem
    have hpop : ∀ {c : Nat} (a : FixedAllocator c),
        (a.deallocate p).allocate = some (p, a) := by
      intro c a
      simp [FixedAllocator.allocate, FixedAllocator.deallocate]
    rcases hmem with h | h | h | h | h
    all_goals
      simp only [allocate, h] at ha
      norm_num at ha
      split at ha
      · simp only [Option.some.injEq, Prod.mk.injEq] at ha
        obtain ⟨rfl, rfl⟩ := ha
        simp [allocate, deallocate, h, FixedAllocator.get_instance, hpop]
      · exact absurd ha (by simp)

end FastAllocator

namespace LinkedList

variable {T A P : Type}

/-- Along a chain every `next` link leads to the next node of the chain, whose `prev`
link leads back. -/
theorem linked_next_all {node : P → Node T P} (ns : List P) (a b : P)
    (h : Linked node a ns b) :
    ∀ x ∈ a :: ns, (node x).next ∈ ns ++ [b] ∧ (node (node x).next).prev = x := by
  induction ns generalizing a with
  | nil =>
    intro x hx
    simp only [List.mem_singleton] at hx
    subst hx
    simp [h.1, h.2]
  | cons n ns ih =>
    intro x hx
    obtain ⟨h1, h2, h3⟩ := h
    rcases List.mem_cons.mp hx with rfl | hx
    · simp [h1, h2]
    · obtain ⟨e1, e2⟩ := ih n h3 x hx
      exact ⟨List.mem_cons_of_mem _ e1, e2⟩

/-- Along a chain every `prev` link leads to the node before, whose `next` link leads
back. -/
theorem linked_prev_all {node : P → Node T P} (ns : List P) (a b : P)
    (h : Linked node a ns b) :
    ∀ y ∈ ns ++ [b], (node y).prev ∈ a :: ns ∧ (node (node y).prev).next = y := by
  induction ns generalizing a with
  | nil =>
    intro y hy
    simp only [List.nil_append, List.mem_singleton] at hy
    subst hy
    simp [h.1, h.2]
  | cons n ns ih =>
    intro y hy
    obtain ⟨h1, h2, h3⟩ := h
    rcases List.mem_cons.mp hy with rfl | hy
    · simp [h1, h2]
    · obtain ⟨e1, e2⟩ := ih n h3 y hy
      exact ⟨List.mem_cons_of_mem _ e1, e2⟩

/-- A ring is closed under `next` and `prev`, and the two links are inverse to each
other on it. -/
theorem ring_closed {node : P → Node T P} {fake : P} {ns : List P}
    (hr : Ring node fake ns) (x : P) (hx : x ∈ fake :: ns) :
    (node x).next ∈ fake :: ns ∧ (node x).prev ∈ fake :: ns ∧
      (node (node x).next).prev = x ∧ (node (node x).prev).next = x := by
  have hx2 : x ∈ ns ++ [fake] := by
    simp only [List.mem_cons, List.mem_append, List.mem_singleton] at hx ⊢
    tauto
  obtain ⟨e1, e2⟩ := linked_next_all ns fake fake hr.1 x hx
  obtain ⟨e3, e4⟩ := linked_prev_all ns fake fake hr.1 x hx2
  refine ⟨?_, e3, e2, e4⟩
  simp only [List.mem_cons, List.mem_append, List.mem_singleton] at e1 ⊢
  tauto

/-- Two chains through the same nodes have the same links. -/
theorem linked_unique {node1 node2 : P → Node T P} (ns : List P) (a b : P)
    (h1 : Linked node1 a ns b) (h2 : Linked node2 a ns b) :
    (∀ x ∈ a :: ns, (node1 x).next = (node2 x).next) ∧
      (∀ y ∈ ns ++ [b], (node1 y).prev = (node2 y).prev) := by
  induction ns generalizing a with
  | nil =>
    constructor
    · intro x hx
      simp only [List.mem_singleton] at hx
      subst hx
      rw [h1.1, h2.1]
    · intro y hy
      simp only [List.nil_append, List.mem_singleton] at hy
      subst hy
      rw [h1.2, h2.2]
  | cons n ns ih =>
    obtain ⟨e1, e2⟩ := ih n h1.2.2 h2.2.2
    constructor
    · intro x hx
      rcases List.mem_cons.mp hx with rfl | hx
      · rw [h1.1, h2.1]
      · exact e1 x hx
    · intro y hy
      rcases List.mem_cons.mp hy with rfl | hy
      · rw [h1.2.1, h2.2.1]
      · exact e2 y hy

/-- Validity of a list only depends on the nodes of its ring and on their being live. -/
theorem wf_of_same {inv : A → Prop} {live : A → P → Prop} (b : LinkedList P)
    (h h1 : Heap T A P) (nsb : List P) (hwf : WF inv live b h nsb) (hinv : inv h1.alloc)
    (hsame : ∀ z ∈ b.fake :: nsb, h1.node z = h.node z ∧ live h1.alloc z) :
    WF inv live b h1 nsb ∧ values h1 nsb = values h nsb := by
  obtain ⟨hring, hsize, -, -⟩ := hwf
  refine ⟨⟨⟨?_, hring.2⟩, hsize, hinv, fun z hz => (hsame z hz).2⟩, ?_⟩
  · refine linked_frame nsb b.fake b.fake ?_ ?_ hring.1
    · intro x hx
      rw [(hsame x hx).1]
    · intro x hx
      have hx2 : x ∈ b.fake :: nsb := by
        simp only [List.mem_cons, List.mem_append, List.mem_singleton] at hx ⊢
        tauto
      rw [(hsame x hx2).1]
  · simp only [values]
    apply List.map_congr_left
    intro z hz
    rw [(hsame z (List.mem_cons_of_mem _ hz)).1]

variable [DecidableEq P]

/-- `link_before` only stores into the new node, `ptr` and the node before `ptr`. -/
theorem link_before_other (node : P → Node T P) (y p : P) (v : T) (z : P) (hzp : z ≠ p)
    (hzq : z ≠ (node y).prev) (hzy : z ≠ y) : link_before node y p v z = node z := by
  have h1 : (Function.update node p
      ({ value := v, next := y, prev := (node y).prev } : Node T P) y).prev
        = (node y).prev := by
    by_cases hyp : y = p
    · subst hyp
      simp
    · rw [Function.update_noteq hyp]
  unfold link_before
  simp only [h1, store_prev, store_next]
  rw [Function.update_noteq hzy, Function.update_noteq hzq, Function.update_noteq hzp]

/-- `unlink` only stores into the nodes before and after `ptr`. -/
theorem unlink_other (node : P → Node T P) (y z : P) (hzq : z ≠ (node y).prev)
    (hzr : z ≠ (node y).next) : unlink node y z = node z := by
  have h1 : (store_next node (node y).prev (node y).next y).next = (node y).next := by
    rw [store_next_next]
    split_ifs <;> rfl
  unfold unlink
  rw [h1]
  simp only [store_prev, store_next]
  rw [Function.update_noteq hzr, Function.update_noteq hzq]

/-- What one public operation does to a well-formed list: it links a new node before
some position, or it unlinks one value node. -/
theorem step_cases {al : NodeAllocator A P} {inv : A → Prop} {live : A → P → Prop}
    {l : LinkedList P} {h : Heap T A P} {ns : List P} {l1 : LinkedList P} {h1 : Heap T A P}
    (hwf : WF inv live l h ns) (hs : Step al l h l1 h1) :
    (∃ xs ys ptr v p a1, ns = xs ++ ys ∧ (ys ++ [l.fake]).head? = some ptr ∧
      al.allocate h.alloc 1 = some (p, a1) ∧ l1 = { l with _size := l._size + 1 } ∧
      h1 = { node := link_before h.node ptr p v, alloc := a1 }) ∨
    (∃ xs y ys, ns = xs ++ y :: ys ∧ l1 = (erase al l { ptr := y } h).1 ∧
      h1 = (erase al l { ptr := y } h).2) := by
  cases hs with
  | @insert it v _ _ hpos hi =>
    left
    obtain ⟨p, a1, ha, rfl, rfl⟩ := insert_some hi
    rcases hpos with rfl | hd
    · exact ⟨ns, [], l.fake, v, p, a1, by simp, by simp, ha, rfl, rfl⟩
    · obtain ⟨i, hlt, rfl⟩ := dereferenceable_index l h ns hwf.1 it hd
      have hp := advance_of_linked h.node l.fake i ns l.fake hwf.1.1 (Nat.le_of_lt hlt)
      exact ⟨ns.take i, ns.drop i, _, v, p, a1, (List.take_append_drop i ns).symm, hp, ha,
        rfl, rfl⟩
  | @erase it hd =>
    right
    obtain ⟨i, hi, rfl⟩ := dereferenceable_index l h ns hwf.1 it hd
    have hp := advance_of_linked h.node l.fake i ns l.fake hwf.1.1 (Nat.le_of_lt hi)
    rw [List.drop_eq_getElem_cons hi] at hp
    simp only [List.cons_append, List.head?_cons, Option.some.injEq] at hp
    have hsplit : ns = ns.take i ++ ns[i] :: ns.drop (i + 1) := by
      rw [← List.drop_eq_getElem_cons hi, List.take_append_drop]
    have hit : common_iterator.advance h.node i (begin l h) = { ptr := ns[i] } := by
      cases hadv : common_iterator.advance h.node i (begin l h) with
      | mk q =>
        simp only [begin] at hadv
        rw [hadv] at hp
        simp [hp]
    rw [hit]
    exact ⟨_, _, _, hsplit, rfl, rfl⟩
  | @push_back v _ _ hi =>
    left
    obtain ⟨p, a1, ha, rfl, rfl⟩ := insert_some hi
    exact ⟨ns, [], l.fake, v, p, a1, by simp, by simp, ha, rfl, rfl⟩
  | @push_front v _ _ hi =>
    left
    obtain ⟨p, a1, ha, rfl, rfl⟩ := insert_some hi
    refine ⟨[], ns, _, v, p, a1, by simp, ?_, ha, rfl, rfl⟩
    simpa [begin] using linked_next_head ns l.fake l.fake hwf.1.1
  | pop_back hne =>
    right
    have hlast := linked_prev_last ns l.fake l.fake hwf.1.1
    rcases List.eq_nil_or_concat ns with rfl | ⟨xs, y, rfl⟩
    · exfalso
      apply hne
      simp only [List.getLast?_singleton, Option.some.injEq] at hlast
      simp [common_iterator.dec, end_, ← hlast]
    · rw [List.concat_eq_append] at hlast ⊢
      have hy : (h.node l.fake).prev = y := by
        rw [← List.cons_append, List.getLast?_concat] at hlast
        exact (Option.some.inj hlast).symm
      have hit : common_iterator.dec h.node (end_ l) = { ptr := y } := by
        simp [common_iterator.dec, end_, hy]
      unfold pop_back
      rw [hit]
      exact ⟨xs, y, [], rfl, rfl, rfl⟩
  | pop_front hne =>
    right
    have hhead := linked_next_head ns l.fake l.fake hwf.1.1
    cases ns with
    | nil =>
      exfalso
      apply hne
      simp only [List.nil_append, List.head?_cons, Option.some.injEq] at hhead
      simp [begin, end_, ← hhead]
    | cons y ys =>
      simp only [List.cons_append, List.head?_cons, Option.some.injEq] at hhead
      have hit : begin l h = { ptr := y } := by
        simp [begin, hhead]
      unfold pop_front
      rw [hit]
      exact ⟨[], y, ys, rfl, rfl, rfl⟩

/-- Frame of a public operation: the list stays well formed on the same sentinel, its
new nodes are old ones or storage that was not live, and live storage outside its ring
is neither written nor given back. -/
theorem step_frame {al : NodeAllocator A P} {inv : A → Prop} {live : A → P → Prop}
    (law : Lawful al inv live) {l : LinkedList P} {h : Heap T A P} {ns : List P}
    {l1 : LinkedList P} {h1 : Heap T A P}
    (hwf : WF inv live l h ns) (hs : Step al l h l1 h1) :
    ∃ ns1, WF inv live l1 h1 ns1 ∧ l1.fake = l.fake ∧
      (∀ x ∈ ns1, x ∈ ns ∨ ¬ live h.alloc x) ∧
      (∀ z, live h.alloc z → z ∉ l.fake :: ns → h1.node z = h.node z ∧ live h1.alloc z) := by
  rcases step_cases hwf hs with ⟨xs, ys, ptr, v, p, a1, rfl, hpos, ha, rfl, rfl⟩ |
    ⟨xs, y, ys, rfl, rfl, rfl⟩
  · have hfresh : ¬ live h.alloc p := law.allocate_fresh _ _ _ hwf.2.2.1 ha
    refine ⟨xs ++ p :: ys, (wf_insert law l h xs ys ptr v p a1 hwf hpos ha).1, rfl, ?_, ?_⟩
    · intro x hx
      simp only [List.mem_append, List.mem_cons] at hx ⊢
      rcases hx with hx | rfl | hx
      · exact Or.inl (Or.inl hx)
      · exact Or.inr hfresh
      · exact Or.inl (Or.inr hx)
    · intro z hz hzn
      have hptr : ptr ∈ l.fake :: (xs ++ ys) := by
        have := List.mem_of_mem_head? hpos
        simp only [List.mem_cons, List.mem_append, List.mem_singleton] at this ⊢
        tauto
      have hq := (ring_closed hwf.1 ptr hptr).2.1
      refine ⟨?_, (law.allocate_live _ _ _ hwf.2.2.1 ha z).mpr (Or.inr hz)⟩
      exact link_before_other h.node ptr p v z (fun e => hfresh (e ▸ hz))
        (fun e => hzn (e ▸ hq)) (fun e => hzn (e ▸ hptr))
  · have hy : y ∈ l.fake :: (xs ++ y :: ys) := by simp
    have hylive : live h.alloc y := hwf.2.2.2 y hy
    obtain ⟨hr, hq, -, -⟩ := ring_closed hwf.1 y hy
    refine ⟨xs ++ ys, (wf_erase law l h xs y ys hwf).1, rfl, ?_, ?_⟩
    · intro x hx
      left
      simp only [List.mem_append, List.mem_cons] at hx ⊢
      tauto
    · intro z hz hzn
      refine ⟨?_, ?_⟩
      · exact unlink_other h.node y z (fun e => hzn (e ▸ hq)) (fun e => hzn (e ▸ hr))
      · exact (law.deallocate_live _ _ hwf.2.2.1 hylive z).mpr
          ⟨hz, fun e => hzn (e ▸ hy)⟩

/-- A sequence of operations on one list leaves another, disjoint list as it is. -/
theorem steps_frame {al : NodeAllocator A P} {inv : A → Prop} {live : A → P → Prop}
    (law : Lawful al inv live) {a : LinkedList P} {h : Heap T A P} {nsa : List P}
    {a1 : LinkedList P} {h1 : Heap T A P} (b : LinkedList P) (nsb : List P)
    (hwfa : WF inv live a h nsa) (hwfb : WF inv live b h nsb) (hap : Apart a b nsa nsb)
    (hs : Steps al a h a1 h1) :
    ∃ nsa1, WF inv live a1 h1 nsa1 ∧ WF inv live b h1 nsb ∧ Apart a1 b nsa1 nsb ∧
      values h1 nsb = values h nsb := by
  induction hs with
  | refl => exact ⟨nsa, hwfa, hwfb, hap, rfl⟩
  | @tail l1 h1 l2 h2 _ hstep ih =>
    obtain ⟨ns1, hw1, hwb1, hap1, hv1⟩ := ih
    obtain ⟨ns2, hw2, hfake, hmem, hframe⟩ := step_frame law hw1 hstep
    have hsame : ∀ z ∈ b.fake :: nsb, h2.node z = h1.node z ∧ live h2.alloc z := by
      intro z hz
      exact hframe z (hwb1.2.2.2 z hz) (fun hm => hap1 z hm hz)
    obtain ⟨hwb2, hv2⟩ := wf_of_same b h1 h2 nsb hwb1 hw2.2.2.1 hsame
    refine ⟨ns2, hw2, hwb2, ?_, by rw [hv2, hv1]⟩
    intro x hx hxb
    rcases List.mem_cons.mp hx with rfl | hx
    · rw [hfake] at hxb
      exact hap1 _ (List.mem_cons_self _ _) hxb
    · rcases hmem x hx with hm | hnl
      · exact hap1 x (List.mem_cons_of_mem _ hm) hxb
      · exact hnl (hwb1.2.2.2 x hxb)

/-- A public operation on a reachable list state gives a reachable list state. -/
theorem reachable_step {al : NodeAllocator A P} {inv : A → Prop} {l : LinkedList P}
    {h : Heap T A P} {l1 : LinkedList P} {h1 : Heap T A P}
    (hr : Reachable al inv l h) (hs : Step al l h l1 h1) : Reachable al inv l1 h1 := by
  cases hs with
  | insert hpos hi => exact Reachable.insert hr hpos hi
  | erase hd => exact Reachable.erase hr hd
  | push_back hi => exact Reachable.push_back hr hi
  | push_front hi => exact Reachable.push_front hr hi
  | pop_back hne => exact Reachable.pop_back hr hne
  | pop_front hne => exact Reachable.pop_front hr hne

end LinkedList

namespace LinkedList

variable {T A P : Type}

/-- A dereferenceable iterator of a well-formed list points at one of its value
nodes. -/
theorem erase_cases {inv : A → Prop} {live : A → P → Prop} {l : LinkedList P}
    {h : Heap T A P} {ns : List P} {it : common_iterator P}
    (hwf : WF inv live l h ns) (hd : Dereferenceable l h it) :
    ∃ xs y ys, ns = xs ++ y :: ys ∧ it = { ptr := y } := by
  obtain ⟨i, hi, rfl⟩ := dereferenceable_index l h ns hwf.1 it hd
  have hp := advance_of_linked h.node l.fake i ns l.fake hwf.1.1 (Nat.le_of_lt hi)
  rw [List.drop_eq_getElem_cons hi] at hp
  simp only [List.cons_append, List.head?_cons, Option.some.injEq] at hp
  have hsplit : ns = ns.take i ++ ns[i] :: ns.drop (i + 1) := by
    rw [← List.drop_eq_getElem_cons hi, List.take_append_drop]
  refine ⟨_, _, _, hsplit, ?_⟩
  cases hadv : common_iterator.advance h.node i (begin l h) with
  | mk q =>
    simp only [begin] at hadv
    rw [hadv] at hp
    simp [hp]

/-- A well-formed list is empty exactly when `begin() == end()`, exactly when its
sentinel is linked to itself. -/
theorem wf_empty_iff {inv : A → Prop} {live : A → P → Prop} {l : LinkedList P}
    {h : Heap T A P} {ns : List P} (hwf : WF inv live l h ns) :
    (begin l h = end_ l ↔ ns = []) ∧
      (ns = [] ↔ ((h.node l.fake).next = l.fake ∧ (h.node l.fake).prev = l.fake)) := by
  have hhead := linked_next_head ns l.fake l.fake hwf.1.1
  have hnd := hwf.1.2
  cases ns with
  | nil =>
    have h1 := hwf.1.1
    simp only [Linked] at h1
    simp [begin, end_, h1.1, h1.2]
  | cons y ys =>
    simp only [List.cons_append, List.head?_cons, Option.some.injEq] at hhead
    have hyf : y ≠ l.fake := by
      intro e
      simp [e] at hnd
    simp only [begin, end_, ← hhead, common_iterator.mk.injEq, hyf, false_and]
    simp

variable [DecidableEq P]

/-- On a well-formed list ending in `y`, `pop_back` erases `y`. -/
theorem pop_back_eq {inv : A → Prop} {live : A → P → Prop} (al : NodeAllocator A P)
    (l : LinkedList P) (h : Heap T A P) (xs : List P) (y : P)
    (hwf : WF inv live l h (xs ++ [y])) :
    pop_back al l h = erase al l { ptr := y } h := by
  have hlast := linked_prev_last (xs ++ [y]) l.fake l.fake hwf.1.1
  rw [← List.cons_append, List.getLast?_concat] at hlast
  have hy : (h.node l.fake).prev = y := (Option.some.inj hlast).symm
  simp [pop_back, common_iterator.dec, end_, hy]

/-- On a well-formed list starting with `y`, `pop_front` erases `y`. -/
theorem pop_front_eq {inv : A → Prop} {live : A → P → Prop} (al : NodeAllocator A P)
    (l : LinkedList P) (h : Heap T A P) (y : P) (ys : List P)
    (hwf : WF inv live l h (y :: ys)) :
    pop_front al l h = erase al l { ptr := y } h := by
  have hhead := linked_next_head (y :: ys) l.fake l.fake hwf.1.1
  simp only [List.cons_append, List.head?_cons, Option.some.injEq] at hhead
  simp [pop_front, begin, ← hhead]

/-- C11 (end operations): for a well-formed list with forward sequence `xs`, once the
allocation has returned storage, `push_back(v)` yields `xs ++ [v]` and `push_front(v)`
yields `[v] ++ xs`, each with `size()` larger by 1; for a non-empty list `pop_back()`
yields `xs` without its last element and `pop_front()` yields `xs` without its first,
each with `size()` smaller by 1; and the scenario construct, `push_back(1)`,
`push_back(2)`, `push_front(0)` reads `[0, 1, 2]` with `size() == 3`, then after
`pop_back()` reads `[0, 1]` with `size() == 2`. -/
theorem end_operations {al : NodeAllocator A P} {inv : A → Prop} {live : A → P → Prop}
    (law : Lawful al inv live) (l : LinkedList P) (h : Heap T A P) (ns : List P) (v : T)
    (p : P) (a1 : A) (hwf : WF inv live l h ns)
    (halloc : al.allocate h.alloc 1 = some (p, a1)) :
    (∀ fuel, ns.length < fuel → forward l h fuel = some (values h ns)) ∧
    (∃ l1 h1, push_back al l v h = some (l1, h1) ∧ WF inv live l1 h1 (ns ++ [p]) ∧
      (∀ fuel, ns.length + 1 < fuel → forward l1 h1 fuel = some (values h ns ++ [v])) ∧
      l1.size = l.size + 1) ∧
    (∃ l1 h1, push_front al l v h = some (l1, h1) ∧ WF inv live l1 h1 (p :: ns) ∧
      (∀ fuel, ns.length + 1 < fuel → forward l1 h1 fuel = some (v :: values h ns)) ∧
      l1.size = l.size + 1) ∧
    (ns ≠ [] →
      WF inv live (pop_back al l h).1 (pop_back al l h).2 ns.dropLast ∧
      (∀ fuel, ns.length - 1 < fuel →
        forward (pop_back al l h).1 (pop_back al l h).2 fuel
          = some (values h ns).dropLast) ∧
      (pop_back al l h).1.size + 1 = l.size) ∧
    (ns ≠ [] →
      WF inv live (pop_front al l h).1 (pop_front al l h).2 ns.tail ∧
      (∀ fuel, ns.length - 1 < fuel →
        forward (pop_front al l h).1 (pop_front al l h).2 fuel
          = some (values h ns).tail) ∧
      (pop_front al l h).1.size + 1 = l.size) ∧
    Example.scenario = some (some [0, 1, 2], 3, some [0, 1], 2) := by
  refine ⟨fun fuel hf => forward_of_ring l h ns hwf.1 fuel hf, ?_, ?_, ?_, ?_, rfl⟩
  · obtain ⟨hw, hv⟩ := wf_insert law l h ns [] (end_ l).ptr v p a1 (by simpa using hwf)
      (by simp [end_]) halloc
    refine ⟨_, _, insert_eq l (end_ l) v h p a1 halloc, hw, ?_, rfl⟩
    intro fuel hf
    rw [forward_of_ring _ _ _ hw.1 fuel (by simpa using hf), hv]
    simp [values]
  · have hpos : (ns ++ [l.fake]).head? = some (begin l h).ptr := by
      simpa [begin] using linked_next_head ns l.fake l.fake hwf.1.1
    obtain ⟨hw, hv⟩ := wf_insert law l h [] ns (begin l h).ptr v p a1 (by simpa using hwf)
      hpos halloc
    refine ⟨_, _, insert_eq l (begin l h) v h p a1 halloc, hw, ?_, rfl⟩
    intro fuel hf
    rw [forward_of_ring _ _ _ hw.1 fuel (by simpa using hf), hv]
    simp [values]
  · intro hne
    rcases List.eq_nil_or_concat ns with rfl | ⟨xs, y, rfl⟩
    · exact absurd rfl hne
    · rw [List.concat_eq_append] at hwf ⊢
      rw [pop_back_eq al l h xs y hwf]
      obtain ⟨hw, hv, hs⟩ := wf_erase law l h xs y [] hwf
      simp only [List.append_nil] at hw hv
      refine ⟨by simpa using hw, ?_, hs⟩
      intro fuel hf
      rw [forward_of_ring _ _ _ hw.1 fuel (by simpa using hf), hv]
      simp [values]
  · intro hne
    cases ns with
    | nil => exact absurd rfl hne
    | cons y ys =>
      rw [pop_front_eq al l h y ys hwf]
      obtain ⟨hw, hv, hs⟩ := wf_erase law l h [] y ys (by simpa using hwf)
      simp only [List.nil_append] at hw hv
      refine ⟨by simpa using hw, ?_, hs⟩
      intro fuel hf
      rw [forward_of_ring _ _ _ hw.1 fuel (by simpa using hf), hv]
      simp [values]

/-- `k` erasures remove `k` nodes of a well-formed list and leave it well formed. -/
theorem erasures_wf {al : NodeAllocator A P} {inv : A → Prop} {live : A → P → Prop}
    (law : Lawful al inv live) {k : Nat} {l : LinkedList P} {h : Heap T A P}
    {l1 : LinkedList P} {h1 : Heap T A P} (he : Erasures al k l h l1 h1) :
    ∀ ns, WF inv live l h ns → ∃ ns1, WF inv live l1 h1 ns1 ∧ ns1.length + k = ns.length := by
  induction he with
  | zero => exact fun ns hwf => ⟨ns, hwf, rfl⟩
  | @succ k l h it l1 h1 hd _ ih =>
    intro ns hwf
    obtain ⟨xs, y, ys, rfl, rfl⟩ := erase_cases hwf hd
    obtain ⟨ns1, hw1, hlen⟩ := ih (xs ++ ys) (wf_erase law l h xs y ys hwf).1
    refine ⟨ns1, hw1, ?_⟩
    simp only [List.length_append, List.length_cons] at hlen ⊢
    omega

/-- Every element of a well-formed list can be erased, one after the other. -/
theorem erasures_exist {al : NodeAllocator A P} {inv : A → Prop} {live : A → P → Prop}
    (law : Lawful al inv live) :
    ∀ (ns : List P) (l : LinkedList P) (h : Heap T A P), WF inv live l h ns →
      ∃ l1 h1, Erasures al ns.length l h l1 h1 := by
  intro ns
  induction ns with
  | nil => exact fun l h _ => ⟨l, h, Erasures.zero⟩
  | cons y ys ih =>
    intro l h hwf
    have hne : begin l h ≠ end_ l := by
      intro e
      have := (wf_empty_iff hwf).1.mp e
      simp at this
    have hd : Dereferenceable l h (begin l h) := by
      refine ⟨0, rfl, ?_⟩
      intro j hj
      have : j = 0 := Nat.le_zero.mp hj
      subst this
      exact hne
    have hb : begin l h = { ptr := y } := by
      have hhead := linked_next_head (y :: ys) l.fake l.fake hwf.1.1
      simp only [List.cons_append, List.head?_cons, Option.some.injEq] at hhead
      simp [begin, ← hhead]
    have hw := (wf_erase law l h [] y ys (by simpa using hwf)).1
    rw [← hb] at hw
    obtain ⟨l1, h1, he⟩ := ih _ _ (by simpa using hw)
    exact ⟨l1, h1, Erasures.succ hd he⟩

/-- C12 (empty state): in every list state reached from construction through the
public operations, `end()` is the sentinel; `begin() == end()` holds exactly when
`size() == 0`, which holds exactly when the `next` and `prev` links of the sentinel
both point to the sentinel; all `size()` elements can be erased one after the other,
and however that is done the list ends with `begin() == end()` and `size() == 0`. -/
theorem empty_state {al : NodeAllocator A P} {inv : A → Prop} {live : A → P → Prop}
    (law : Lawful al inv live) (l : LinkedList P) (h : Heap T A P)
    (hr : Reachable al inv l h) :
    (end_ l).ptr = l.fake ∧
    (begin l h = end_ l ↔ l.size = 0) ∧
    (l.size = 0 ↔ ((h.node l.fake).next = l.fake ∧ (h.node l.fake).prev = l.fake)) ∧
    (∃ l1 h1, Erasures al l.size l h l1 h1) ∧
    (∀ l1 h1, Erasures al l.size l h l1 h1 → begin l1 h1 = end_ l1 ∧ l1.size = 0) := by
  obtain ⟨ns, hwf⟩ := reachable_wf law hr
  have hsize : l.size = ns.length := hwf.2.1
  obtain ⟨e1, e2⟩ := wf_empty_iff hwf
  have hz : l.size = 0 ↔ ns = [] := by
    rw [hsize]
    exact List.length_eq_zero
  refine ⟨rfl, e1.trans hz.symm, hz.trans e2, ?_, ?_⟩
  · rw [hsize]
    exact erasures_exist law ns l h hwf
  · intro l1 h1 he
    obtain ⟨ns1, hw1, hlen⟩ := erasures_wf law he ns hwf
    have hnil : ns1 = [] := by
      apply List.length_eq_zero.mp
      omega
    subst hnil
    exact ⟨(wf_empty_iff hw1).1.mpr rfl, hw1.2.1⟩

end LinkedList

namespace LinkedList

variable {T A P : Type}

/-- Any number of increments from an iterator into a ring stays in the ring. -/
theorem advance_mem_ring {node : P → Node T P} {fake : P} {ns : List P}
    (hr : Ring node fake ns) :
    ∀ (k : Nat) (it : common_iterator P), it.ptr ∈ fake :: ns →
      (common_iterator.advance node k it).ptr ∈ fake :: ns := by
  intro k
  induction k with
  | zero => exact fun it hit => hit
  | succ k ih =>
    intro it hit
    exact ih (common_iterator.inc node it) (ring_closed hr it.ptr hit).1

variable [DecidableEq P]

/-- Walking `prev` links from the end `b` of a chain back to its start `n0` visits the
values of the chain in reverse order. -/
theorem walk_back_of_linked (node : P → Node T P) (n0 : P) :
    ∀ (ns : List P) (b : P) (fuel : Nat), Linked node n0 ns b → n0 ∉ ns ++ [b] →
      ns.length + 1 < fuel →
      walk_back node { ptr := n0 } fuel { ptr := b }
        = some ((n0 :: ns).reverse.map (fun n => (node n).value)) := by
  intro ns
  induction ns using List.reverseRecOn with
  | nil =>
    intro b fuel h hn hf
    obtain ⟨k, rfl⟩ : ∃ k, fuel = k + 2 := ⟨fuel - 2, by simp at hf; omega⟩
    have hbn : b ≠ n0 := by
      intro e
      simp [e] at hn
    simp [walk_back, hbn, common_iterator.dec, common_iterator.deref, h.2]
  | append_singleton xs y ih =>
    intro b fuel h hn hf
    obtain ⟨k, rfl⟩ : ∃ k, fuel = k + 1 := ⟨fuel - 1, by simp at hf; omega⟩
    obtain ⟨h1, h2⟩ := (linked_append node xs n0 y [] b).mp h
    have hbn : b ≠ n0 := by
      intro e
      simp [e] at hn
    have hk : xs.length + 1 < k := by
      simp only [List.length_append, List.length_singleton] at hf
      omega
    have hn1 : n0 ∉ xs ++ [y] := by
      intro hm
      apply hn
      simp only [List.mem_append, List.mem_singleton] at hm ⊢
      tauto
    have := ih y k h1 hn1 hk
    simp [walk_back, hbn, common_iterator.dec, common_iterator.deref, h2.2, this]

/-- Walking `prev` links from `end()` back to `begin()` of a ring visits its values in
reverse order. -/
theorem backward_of_ring (l : LinkedList P) (h : Heap T A P) (ns : List P)
    (hr : Ring h.node l.fake ns) (fuel : Nat) (hf : ns.length < fuel) :
    backward l h fuel = some (values h ns).reverse := by
  cases ns with
  | nil =>
    obtain ⟨k, rfl⟩ : ∃ k, fuel = k + 1 := ⟨fuel - 1, by simp at hf; omega⟩
    have h1 := hr.1
    simp only [Linked] at h1
    simp [backward, walk_back, begin, end_, h1.1, values]
  | cons n0 rest =>
    obtain ⟨h1, h2, h3⟩ := hr.1
    have hnd := hr.2
    have hn : n0 ∉ rest ++ [l.fake] := by
      intro hm
      simp only [List.nodup_cons, List.mem_cons, not_or] at hnd
      simp only [List.mem_append, List.mem_singleton] at hm
      rcases hm with hm | hm
      · exact hnd.2.1 hm
      · exact hnd.1.1 hm.symm
    have := walk_back_of_linked h.node n0 rest l.fake fuel h3 hn (by simpa using hf)
    simp only [backward, begin, end_, h1, this, values]
    simp

/-- Iterating reverse iterators from `rit` to `last` is walking `prev` links from the
wrapped iterator of `rit` back to that of `last`. -/
theorem riterate_eq_walk_back (node : P → Node T P) (first : common_iterator P) :
    ∀ (fuel : Nat) (it : common_iterator P),
      riterate node { current := first } fuel { current := it }
        = walk_back node first fuel it := by
  intro fuel
  induction fuel with
  | zero => intro it; rfl
  | succ k ih =>
    intro it
    by_cases e : it = first
    · subst e
      simp [riterate, walk_back]
    · have e2 : ({ current := it } : reverse_iterator P) ≠ { current := first } := by
        intro hc
        exact e (reverse_iterator.mk.inj hc)
      simp only [riterate, walk_back, e, e2, if_false, reverse_iterator.inc,
        reverse_iterator.deref, ih]

/-- C18 (ring symmetry): in every list state reached from construction through the
public operations, every node `x` met by following `next` links from the sentinel, the
sentinel included, satisfies `x.next.prev == x` and `x.prev.next == x`; and with `xs`
the forward sequence, walking `prev` links from `end()` back to `begin()`, as well as
iterating from `rbegin()` to `rend()`, visits exactly `xs` reversed. -/
theorem ring_symmetry {al : NodeAllocator A P} {inv : A → Prop} {live : A → P → Prop}
    (law : Lawful al inv live) (l : LinkedList P) (h : Heap T A P)
    (hr : Reachable al inv l h) :
    (∀ k,
      (h.node (h.node (common_iterator.advance h.node k (end_ l)).ptr).next).prev
          = (common_iterator.advance h.node k (end_ l)).ptr ∧
        (h.node (h.node (common_iterator.advance h.node k (end_ l)).ptr).prev).next
          = (common_iterator.advance h.node k (end_ l)).ptr) ∧
    (∀ fuel, l.size < fuel →
      ∃ xs, forward l h fuel = some xs ∧ backward l h fuel = some xs.reverse ∧
        reverse l h fuel = some xs.reverse) := by
  obtain ⟨ns, hwf⟩ := reachable_wf law hr
  constructor
  · intro k
    have hm := advance_mem_ring hwf.1 k (end_ l) (List.mem_cons_self _ _)
    exact (ring_closed hwf.1 _ hm).2.2
  · intro fuel hf
    have hf1 : ns.length < fuel := by
      rw [← hwf.2.1]
      exact hf
    refine ⟨values h ns, forward_of_ring l h ns hwf.1 fuel hf1,
      backward_of_ring l h ns hwf.1 fuel hf1, ?_⟩
    have := backward_of_ring l h ns hwf.1 fuel hf1
    simp only [backward, begin, end_] at this
    simp only [reverse, rend, rbegin, riterate_eq_walk_back, this]

end LinkedList

namespace AllocCall

variable {P : Type}

/-- Counting `allocate` calls distributes over concatenation of records. -/
theorem allocations_append (xs ys : List (AllocCall P)) :
    allocations (xs ++ ys) = allocations xs + allocations ys := by
  induction xs with
  | nil => simp [allocations]
  | cons c cs ih =>
    cases c with
    | allocate p =>
      show allocations (cs ++ ys) + 1 = allocations cs + 1 + allocations ys
      omega
    | deallocate p => exact ih

/-- Counting `deallocate` calls distributes over concatenation of records. -/
theorem deallocations_append (xs ys : List (AllocCall P)) :
    deallocations (xs ++ ys) = deallocations xs + deallocations ys := by
  induction xs with
  | nil => simp [deallocations]
  | cons c cs ih =>
    cases c with
    | allocate p => exact ih
    | deallocate p =>
      show deallocations (cs ++ ys) + 1 = deallocations cs + 1 + deallocations ys
      omega

/-- A record of `deallocate` calls only holds no `allocate` call. -/
theorem allocations_map_deallocate (ps : List P) :
    allocations (ps.map AllocCall.deallocate) = 0 := by
  induction ps with
  | nil => rfl
  | cons p ps ih => simp only [List.map_cons, allocations, ih]

/-- A record of `deallocate` calls only holds one call per address. -/
theorem deallocations_map_deallocate (ps : List P) :
    deallocations (ps.map AllocCall.deallocate) = ps.length := by
  induction ps with
  | nil => rfl
  | cons p ps ih => simp only [List.map_cons, deallocations, ih, List.length_cons]

end AllocCall

namespace NodeAllocator

variable {A P : Type}

/-- What a recorded `allocate` returns. -/
theorem logged_allocate {al : NodeAllocator A P} {s s1 : A × List (AllocCall P)} {p : P}
    {count : Nat} (h : al.logged.allocate s count = some (p, s1)) :
    ∃ a1, al.allocate s.1 count = some (p, a1) ∧ s1 = (a1, s.2 ++ [AllocCall.allocate p]) := by
  simp only [logged] at h
  cases ha : al.allocate s.1 count with
  | none => simp [ha] at h
  | some r =>
    obtain ⟨q, a1⟩ := r
    simp only [ha, Option.some.injEq, Prod.mk.injEq] at h
    obtain ⟨rfl, rfl⟩ := h
    exact ⟨a1, rfl, rfl⟩

/-- Recording the calls does not change what the allocator does: the contract carries
over. -/
theorem lawful_logged {al : NodeAllocator A P} {inv : A → Prop} {live : A → P → Prop}
    (law : Lawful al inv live) :
    Lawful al.logged (fun s => inv s.1) (fun s p => live s.1 p) := by
  refine ⟨?_, ?_, ?_, ?_, ?_⟩
  · intro s p s1 hinv h
    obtain ⟨a1, ha, rfl⟩ := logged_allocate h
    exact law.allocate_inv _ _ _ hinv ha
  · intro s p s1 hinv h
    obtain ⟨a1, ha, rfl⟩ := logged_allocate h
    exact law.allocate_fresh _ _ _ hinv ha
  · intro s p s1 hinv h
    obtain ⟨a1, ha, rfl⟩ := logged_allocate h
    exact law.allocate_live _ _ _ hinv ha
  · intro s p hinv hl
    exact law.deallocate_inv _ _ hinv hl
  · intro s p hinv hl
    exact law.deallocate_live _ _ hinv hl

/-- The record after a run of `deallocate` calls. -/
theorem logged_foldl_deallocate (al : NodeAllocator A P) (ps : List P)
    (s : A × List (AllocCall P)) :
    (ps.foldl (fun a p => al.logged.deallocate a p 1) s).2
      = s.2 ++ ps.map AllocCall.deallocate := by
  induction ps generalizing s with
  | nil => simp
  | cons p ps ih =>
    simp only [List.foldl_cons, ih, List.map_cons]
    simp [logged]

end NodeAllocator

namespace LinkedList

variable {T A P : Type} [DecidableEq P]

/-- The loop of `destroy` on a well-formed list with nodes `ns`: the nodes are erased
last to first, the sentinel stays, and storage outside the ring is not written. -/
theorem destroy_loop_spec {al : NodeAllocator A P} {inv : A → Prop} {live : A → P → Prop}
    (law : Lawful al inv live) :
    ∀ (ns : List P) (l : LinkedList P) (h : Heap T A P), WF inv live l h ns →
      WF inv live (destroy_loop al ns.length l h).1 (destroy_loop al ns.length l h).2 [] ∧
      (destroy_loop al ns.length l h).1.fake = l.fake ∧
      (destroy_loop al ns.length l h).2.alloc
        = ns.reverse.foldl (fun a p => al.deallocate a p 1) h.alloc ∧
      (∀ q, live (destroy_loop al ns.length l h).2.alloc q ↔ (live h.alloc q ∧ q ∉ ns)) ∧
      (∀ z, z ∉ l.fake :: ns → (destroy_loop al ns.length l h).2.node z = h.node z) := by
  intro ns
  induction ns using List.reverseRecOn with
  | nil =>
    intro l h hwf
    refine ⟨hwf, rfl, rfl, ?_, fun _ _ => rfl⟩
    intro q
    simp [destroy_loop]
  | append_singleton xs y ih =>
    intro l h hwf
    have hstep : destroy_loop al (xs ++ [y]).length l h
        = destroy_loop al xs.length (erase al l { ptr := y } h).1
            (erase al l { ptr := y } h).2 := by
      have hpb := pop_back_eq al l h xs y hwf
      simp only [pop_back] at hpb
      simp only [List.length_append, List.length_singleton, destroy_loop, hpb]
    have hw1 := (wf_erase law l h xs y [] hwf).1
    rw [List.append_nil] at hw1
    obtain ⟨i1, i2, i3, i4, i5⟩ := ih _ _ hw1
    have hy : y ∈ l.fake :: (xs ++ [y]) := by simp
    have hylive : live h.alloc y := hwf.2.2.2 y hy
    obtain ⟨hr, hq, -, -⟩ := ring_closed hwf.1 y hy
    rw [hstep]
    refine ⟨i1, i2, ?_, ?_, ?_⟩
    · rw [i3]
      simp [erase]
    · intro q
      rw [i4 q]
      have := law.deallocate_live _ _ hwf.2.2.1 hylive q
      simp only [erase] at this ⊢
      rw [this]
      simp only [List.mem_append, List.mem_singleton, not_or]
      tauto
    · intro z hz
      have hz1 : z ∉ (erase al l { ptr := y } h).1.fake :: xs := by
        intro hm
        apply hz
        simp only [erase, List.mem_cons, List.mem_append, List.mem_singleton] at hm ⊢
        tauto
      rw [i5 z hz1]
      exact unlink_other h.node y z (fun e => hz (e ▸ hq)) (fun e => hz (e ▸ hr))

/-- `destroy` on a well-formed list: one `deallocate` per value node, last to first,
then one for the sentinel; afterwards exactly the storage of the list has stopped being
live, and storage outside the ring is not written. -/
theorem destroy_spec {al : NodeAllocator A P} {inv : A → Prop} {live : A → P → Prop}
    (law : Lawful al inv live) (nullptr : P) (l : LinkedList P) (h : Heap T A P)
    (ns : List P) (hwf : WF inv live l h ns) (hnull : l.fake ≠ nullptr) :
    (destroy al nullptr l h).2.alloc
        = (ns.reverse ++ [l.fake]).foldl (fun a p => al.deallocate a p 1) h.alloc ∧
      (destroy al nullptr l h).1._size = 0 ∧
      (destroy al nullptr l h).1.fake = l.fake ∧
      inv (destroy al nullptr l h).2.alloc ∧
      (∀ q, live (destroy al nullptr l h).2.alloc q ↔ (live h.alloc q ∧ q ∉ l.fake :: ns)) ∧
      (∀ z, z ∉ l.fake :: ns → (destroy al nullptr l h).2.node z = h.node z) := by
  obtain ⟨i1, i2, i3, i4, i5⟩ := destroy_loop_spec law ns l h hwf
  have hsz : l._size = ns.length := hwf.2.1
  have hfl : live (destroy_loop al ns.length l h).2.alloc l.fake := by
    rw [← i2]
    exact i1.2.2.2 _ (List.mem_cons_self _ _)
  have hd : destroy al nullptr l h
      = ((destroy_loop al ns.length l h).1,
          { node := (destroy_loop al ns.length l h).2.node,
            alloc := al.deallocate (destroy_loop al ns.length l h).2.alloc l.fake 1 }) := by
    simp only [destroy, hnull, if_false, hsz, i2]
  rw [hd]
  refine ⟨?_, ?_, i2, law.deallocate_inv _ _ i1.2.2.1 hfl, ?_, i5⟩
  · simp only [i3, List.foldl_append, List.foldl_cons, List.foldl_nil]
  · have := i1.2.1
    simpa using this
  · intro q
    have := law.deallocate_live _ _ i1.2.2.1 hfl q
    simp only at this ⊢
    rw [this, i4 q]
    simp only [List.mem_cons, not_or]
    tauto

/-- Over the life of a list on a recording allocator, from its construction through
any public operations, the `allocate` calls recorded exceed the `deallocate` calls
recorded by the number of value nodes plus one for the sentinel. -/
theorem life_balance {al : NodeAllocator A P} {inv : A → Prop} {live : A → P → Prop}
    (law : Lawful al inv live) (h0 : Heap T (A × List (AllocCall P)) P)
    (l0 : LinkedList P) (h1 : Heap T (A × List (AllocCall P)) P)
    (hinv : inv h0.alloc.1) (hc : ctor al.logged h0 = some (l0, h1))
    {l : LinkedList P} {h : Heap T (A × List (AllocCall P)) P}
    (hs : Steps al.logged l0 h1 l h) :
    ∃ ns, WF (fun s => inv s.1) (fun s p => live s.1 p) l h ns ∧
      AllocCall.allocations h.alloc.2 + AllocCall.deallocations h0.alloc.2
        = AllocCall.deallocations h.alloc.2 + AllocCall.allocations h0.alloc.2
          + ns.length + 1 := by
  have lawl := NodeAllocator.lawful_logged law
  induction hs with
  | refl =>
    refine ⟨[], wf_ctor lawl h0 l0 h1 hinv hc, ?_⟩
    unfold ctor at hc
    cases ha : al.logged.allocate h0.alloc 1 with
    | none => simp [ha] at hc
    | some r =>
      obtain ⟨fake, s1⟩ := r
      simp only [ha, Option.some.injEq, Prod.mk.injEq] at hc
      obtain ⟨-, rfl⟩ := hc
      obtain ⟨a1, -, rfl⟩ := NodeAllocator.logged_allocate ha
      simp only [AllocCall.allocations_append, AllocCall.deallocations_append,
        AllocCall.allocations, AllocCall.deallocations, List.length_nil]
      omega
  | @tail l1 h1' l2 h2 _ hstep ih =>
    obtain ⟨ns, hwf, hbal⟩ := ih
    rcases step_cases hwf hstep with ⟨xs, ys, ptr, v, p, s1, rfl, hpos, ha, rfl, rfl⟩ |
      ⟨xs, y, ys, rfl, rfl, rfl⟩
    · refine ⟨xs ++ p :: ys, (wf_insert lawl l1 h1' xs ys ptr v p s1 hwf hpos ha).1, ?_⟩
      obtain ⟨a1, -, rfl⟩ := NodeAllocator.logged_allocate ha
      simp only [AllocCall.allocations_append, AllocCall.deallocations_append,
        AllocCall.allocations, AllocCall.deallocations, List.length_append,
        List.length_cons] at hbal ⊢
      omega
    · refine ⟨xs ++ ys, (wf_erase lawl l1 h1' xs y ys hwf).1, ?_⟩
      simp only [erase, NodeAllocator.logged, AllocCall.allocations_append,
        AllocCall.deallocations_append, AllocCall.allocations, AllocCall.deallocations,
        List.length_append, List.length_cons] at hbal ⊢
      omega

/-- C16 (destruction returns everything): for a well-formed list with `n` value nodes
on a recording allocator, `destroy()` appends exactly `n + 1` `deallocate` calls to the
record - one per value node, last node first, and the sentinel last - on pairwise
distinct addresses that were live storage obtained from `allocate`; it leaves `size()`
at 0 and exactly the storage of the list no longer live; and for a list built by
construction and public operations, the record from before the construction to after
`destroy()` has gained as many `allocate` calls as `deallocate` calls. -/
theorem destroy_returns_everything {al : NodeAllocator A P} {inv : A → Prop}
    {live : A → P → Prop} (law : Lawful al inv live) (nullptr : P) (l : LinkedList P)
    (h : Heap T (A × List (AllocCall P)) P) (ns : List P)
    (hwf : WF (fun s => inv s.1) (fun s p => live s.1 p) l h ns)
    (hnull : l.fake ≠ nullptr) :
    (destroy al.logged nullptr l h).2.alloc.2
        = h.alloc.2 ++ (ns.reverse ++ [l.fake]).map AllocCall.deallocate ∧
      (ns.reverse ++ [l.fake]).length = ns.length + 1 ∧
      (ns.reverse ++ [l.fake]).Nodup ∧
      (∀ p ∈ ns.reverse ++ [l.fake], live h.alloc.1 p) ∧
      (destroy al.logged nullptr l h).1.size = 0 ∧
      (∀ q, live (destroy al.logged nullptr l h).2.alloc.1 q
        ↔ (live h.alloc.1 q ∧ q ∉ l.fake :: ns)) ∧
      (∀ h0 l0 h1, inv h0.alloc.1 → ctor al.logged h0 = some (l0, h1) →
        Steps al.logged l0 h1 l h →
        AllocCall.allocations (destroy al.logged nullptr l h).2.alloc.2
            + AllocCall.deallocations h0.alloc.2
          = AllocCall.deallocations (destroy al.logged nullptr l h).2.alloc.2
            + AllocCall.allocations h0.alloc.2) := by
  have lawl := NodeAllocator.lawful_logged law
  obtain ⟨d1, d2, -, -, d5, -⟩ := destroy_spec lawl nullptr l h ns hwf hnull
  have hlog : (destroy al.logged nullptr l h).2.alloc.2
      = h.alloc.2 ++ (ns.reverse ++ [l.fake]).map AllocCall.deallocate := by
    rw [d1, NodeAllocator.logged_foldl_deallocate]
  have hperm : (ns.reverse ++ [l.fake]).Perm (l.fake :: ns) :=
    (List.perm_append_singleton l.fake ns.reverse).trans ((List.reverse_perm ns).cons l.fake)
  refine ⟨hlog, by simp, hperm.nodup_iff.mpr hwf.1.2, ?_, d2, d5, ?_⟩
  · intro p hp
    exact hwf.2.2.2 p (hperm.mem_iff.mp hp)
  · intro h0 l0 h1 hinv hc hs
    obtain ⟨ns1, hw1, hbal⟩ := life_balance law h0 l0 h1 hinv hc hs
    have hlen : ns1.length = ns.length := by
      rw [← hw1.2.1, hwf.2.1]
    rw [hlog]
    simp only [AllocCall.allocations_append, AllocCall.deallocations_append,
      AllocCall.allocations_map_deallocate, AllocCall.deallocations_map_deallocate,
      List.length_append, List.length_reverse, List.length_singleton]
    omega

end LinkedList

namespace FastAllocator

/-- On a sound pool of 24-byte chunks the node allocator always returns. -/
theorem total24 (g : Globals) (hs : (FixedAllocator.get_instance g.fixed24).Sound) :
    ∃ p g1, (nodeAllocator 24).allocate g 1 = some (p, g1) := by
  obtain ⟨p, s1, h⟩ := FixedAllocator.allocate_isSome hs.2.1
  refine ⟨p, { g with fixed24 := some s1 }, ?_⟩
  simp only [nodeAllocator, allocate_24_1, h]

end FastAllocator

namespace LinkedList

variable {T A P : Type} [DecidableEq P]

/-- One round of `List(count)` and one `push_back` keep the relation `FillSim`. -/
theorem fillSim_step {al : NodeAllocator A P} {inv : A → Prop} {live : A → P → Prop}
    (law : Lawful al inv live) (nullptr : P) (dinit : T → T) (v : T) (h0 : Heap T A P)
    (prev : P) (l : LinkedList P) (hA hB : Heap T A P) (ns : List P) (n : P) (a1 : A)
    (hsim : FillSim inv live dinit v h0 prev l hA hB ns)
    (ha : al.allocate hB.alloc 1 = some (n, a1)) :
    FillSim inv live dinit v h0 n { l with _size := l._size + 1 }
      { node := store_next (store_prev (Function.update hA.node n
            { value := dinit (hA.node n).value, next := nullptr, prev := nullptr })
          n prev) prev n,
        alloc := a1 }
      { node := link_before hB.node l.fake n v, alloc := a1 } (ns ++ [n]) := by
  obtain ⟨s1, hwf, hlast, hnext, hprev, hval, hfr, hvB⟩ := hsim
  have hfresh : ¬ live hB.alloc n := law.allocate_fresh _ _ _ hwf.2.2.1 ha
  have hlive : ∀ q, live a1 q ↔ (q = n ∨ live hB.alloc q) :=
    law.allocate_live _ _ _ hwf.2.2.1 ha
  have hn : n ∉ l.fake :: ns := fun hm => hfresh (hwf.2.2.2 n hm)
  have hprevB : (hB.node l.fake).prev = prev := by
    have := linked_prev_last ns l.fake l.fake hwf.1.1
    rw [hlast] at this
    exact (Option.some.inj this).symm
  have hpm : prev ∈ l.fake :: ns := List.mem_of_getLast?_eq_some hlast
  have hnp : n ≠ prev := fun e => hn (e ▸ hpm)
  have hnf : n ≠ l.fake := fun e => hn (e ▸ List.mem_cons_self _ _)
  have hw := wf_insert law l hB ns [] l.fake v n a1 (by simpa using hwf) rfl ha
  have hnd : (l.fake :: ns).Nodup := hwf.1.2
  refine ⟨rfl, hw.1, ?_, ?_, ?_, ?_, ?_, ?_⟩
  · rw [← List.cons_append, List.getLast?_append]
    simp
  · intro x hx hxn
    have hx1 : x ∈ l.fake :: ns := by
      simp only [List.mem_cons, List.mem_append, List.mem_singleton] at hx ⊢
      tauto
    simp only [store_next_next, store_prev_next]
    rw [link_before_next hB.node l.fake n v hnf (by rw [hprevB]; exact hnp), hprevB]
    by_cases hxp : x = prev
    · simp [hxp, Ne.symm hnp]
    · simp only [hxp, hxn, if_false]
      rw [Function.update_noteq hxn]
      exact hnext x hx1 hxp
  · intro x hx
    simp only [store_next_prev, store_prev_prev]
    rw [link_before_prev hB.node l.fake n v hnf, hprevB]
    rcases List.mem_append.mp hx with hx1 | hx1
    · have hxn : x ≠ n := fun e => hn (List.mem_cons_of_mem _ (e ▸ hx1))
      have hxf : x ≠ l.fake := fun e => (List.nodup_cons.mp hnd).1 (e ▸ hx1)
      simp only [hxn, hxf, if_false]
      rw [Function.update_noteq hxn]
      exact hprev x hx1
    · have hxn : x = n := List.mem_singleton.mp hx1
      simp [hxn, hnf]
  · intro x hx
    simp only [store_next_value, store_prev_value]
    rcases List.mem_append.mp hx with hx1 | hx1
    · have hxn : x ≠ n := fun e => hn (List.mem_cons_of_mem _ (e ▸ hx1))
      rw [Function.update_noteq hxn]
      exact hval x hx1
    · have hxn : x = n := List.mem_singleton.mp hx1
      subst hxn
      rw [Function.update_same]
      simp only
      rw [hfr x (by rw [s1]; exact hfresh)]
  · intro z hz
    have hz1 : ¬ (z = n ∨ live hB.alloc z) := fun hh => hz ((hlive z).mpr hh)
    have hzn : z ≠ n := fun e => hz1 (Or.inl e)
    have hzl : ¬ live hB.alloc z := fun e => hz1 (Or.inr e)
    have hzp : z ≠ prev := fun e => hzl (e ▸ hwf.2.2.2 prev hpm)
    simp only [store_next, store_prev]
    rw [Function.update_noteq hzp, Function.update_noteq hzn, Function.update_noteq hzn]
    exact hfr z (by rw [s1]; exact hzl)
  · rw [hw.2, hvB]
    simp only [values, List.map_nil, List.length_append, List.length_singleton]
    exact (List.replicate_succ' ns.length v).symm

/-- The loop of `List(count)` and `count` calls of `push_back` run side by side: on an
allocator that always returns, both finish, on the same list object with the same
nodes, and the relation `FillSim` holds at the end. -/
theorem fillSim_loop {al : NodeAllocator A P} {inv : A → Prop} {live : A → P → Prop}
    (law : Lawful al inv live)
    (htot : ∀ a, inv a → ∃ p a1, al.allocate a 1 = some (p, a1))
    (nullptr : P) (dinit : T → T) (v : T) (h0 : Heap T A P) :
    ∀ (count : Nat) (prev : P) (l : LinkedList P) (hA hB : Heap T A P) (ns : List P),
      FillSim inv live dinit v h0 prev l hA hB ns →
      ∃ prev1 l1 hA1 hB1 ns1,
        ctor_count_loop al nullptr dinit count prev l hA = some (prev1, l1, hA1) ∧
        push_back_n al v count l hB = some (l1, hB1) ∧
        FillSim inv live dinit v h0 prev1 l1 hA1 hB1 ns1 ∧
        ns1.length = ns.length + count ∧ l1.fake = l.fake := by
  intro count
  induction count with
  | zero =>
    intro prev l hA hB ns hsim
    exact ⟨prev, l, hA, hB, ns, rfl, rfl, hsim, rfl, rfl⟩
  | succ k ih =>
    intro prev l hA hB ns hsim
    obtain ⟨n, a1, ha⟩ := htot hB.alloc hsim.2.1.2.2.1
    have hstep := fillSim_step law nullptr dinit v h0 prev l hA hB ns n a1 hsim ha
    obtain ⟨prev1, l1, hA1, hB1, ns1, e1, e2, hs1, hlen, hfk⟩ := ih _ _ _ _ _ hstep
    refine ⟨prev1, l1, hA1, hB1, ns1, ?_, ?_, hs1, ?_, hfk⟩
    · have haA : al.allocate hA.alloc 1 = some (n, a1) := by rw [hsim.1]; exact ha
      simp only [ctor_count_loop, haA]
      exact e1
    · have hpb : push_back al l v hB
          = some ({ l with _size := l._size + 1 },
              { node := link_before hB.node l.fake n v, alloc := a1 }) := by
        simp only [push_back, end_]
        exact insert_eq l _ v hB n a1 ha
      simp only [push_back_n, hpb]
      exact e2
    · rw [hlen, List.length_append, List.length_singleton]
      omega

/-- The two fill constructors side by side on an allocator that always returns: both
return, the same list object on the same allocator state, with the same `count` nodes
linked the same way in a well-formed ring; the nodes of `List(count)` hold the
default-initialised content of their storage, those of `List(count, value)` hold
`value`. -/
theorem ctor_count_sim {al : NodeAllocator A P} {inv : A → Prop} {live : A → P → Prop}
    (law : Lawful al inv live)
    (htot : ∀ a, inv a → ∃ p a1, al.allocate a 1 = some (p, a1))
    (nullptr : P) (dinit : T → T) (v : T) (count : Nat) (h : Heap T A P)
    (hinv : inv h.alloc) :
    ∃ l h1 h2 ns,
      ctor_count al nullptr dinit count h = some (l, h1) ∧
      ctor_count_value al count v h = some (l, h2) ∧
      h1.alloc = h2.alloc ∧ ns.length = count ∧
      WF inv live l h1 ns ∧ WF inv live l h2 ns ∧
      (∀ x ∈ l.fake :: ns, (h1.node x).next = (h2.node x).next ∧
        (h1.node x).prev = (h2.node x).prev) ∧
      values h1 ns = ns.map (fun x => dinit (h.node x).value) ∧
      values h2 ns = List.replicate count v := by
  obtain ⟨fake, a1, ha⟩ := htot h.alloc hinv
  have hc : ctor al h
      = some ({ _size := 0, fake := fake },
          { node := store_prev (store_next h.node fake fake) fake fake, alloc := a1 }) := by
    simp only [ctor, ha]
  have hwf0 := wf_ctor law h _ _ hinv hc
  have hlive : ∀ q, live a1 q ↔ (q = fake ∨ live h.alloc q) :=
    law.allocate_live _ _ _ hinv ha
  have hsim0 : FillSim inv live dinit v h fake
      ({ _size := 0, fake := fake } : LinkedList P)
      { node := store_prev (store_next h.node fake fake) fake fake, alloc := a1 }
      { node := store_prev (store_next h.node fake fake) fake fake, alloc := a1 } [] := by
    refine ⟨rfl, hwf0, rfl, ?_, ?_, ?_, ?_, rfl⟩
    · intro x hx hne
      simp only [List.mem_singleton] at hx
      exact absurd hx hne
    · intro x hx
      cases hx
    · intro x hx
      cases hx
    · intro z hz
      have hzf : z ≠ fake := fun e => hz ((hlive z).mpr (Or.inl e))
      simp only [store_prev, store_next]
      rw [Function.update_noteq hzf, Function.update_noteq hzf]
  obtain ⟨prev1, l1, hA1, hB1, ns1, e1, e2, hs1, hlen, hfk⟩ :=
    fillSim_loop law htot nullptr dinit v h count fake _ _ _ [] hsim0
  obtain ⟨s1, hwf, hlast, hnext, hprev, hval, hfr, hvB⟩ := hs1
  simp only at hfk
  have hpm : prev1 ∈ l1.fake :: ns1 := List.mem_of_getLast?_eq_some hlast
  have hprevB : (hB1.node l1.fake).prev = prev1 := by
    have := linked_prev_last ns1 l1.fake l1.fake hwf.1.1
    rw [hlast] at this
    exact (Option.some.inj this).symm
  have hnextB : (hB1.node prev1).next = l1.fake := by
    have := (ring_closed hwf.1 l1.fake (List.mem_cons_self _ _)).2.2.2
    rw [hprevB] at this
    exact this
  have hnd : (l1.fake :: ns1).Nodup := hwf.1.2
  have hlinks : ∀ x ∈ l1.fake :: ns1,
      (store_prev (store_next hA1.node prev1 l1.fake) l1.fake prev1 x).next
          = (hB1.node x).next ∧
        (store_prev (store_next hA1.node prev1 l1.fake) l1.fake prev1 x).prev
          = (hB1.node x).prev := by
    intro x hx
    simp only [store_prev_next, store_next_next, store_prev_prev, store_next_prev]
    constructor
    · by_cases hxp : x = prev1
      · simp [hxp, hnextB]
      · simp only [hxp, if_false]
        exact hnext x hx hxp
    · by_cases hxf : x = l1.fake
      · simp [hxf, hprevB]
      · simp only [hxf, if_false]
        rcases List.mem_cons.mp hx with e | hm
        · exact absurd e hxf
        · exact hprev x hm
  have hring : Ring (store_prev (store_next hA1.node prev1 l1.fake) l1.fake prev1)
      l1.fake ns1 := by
    refine ⟨linked_frame ns1 l1.fake l1.fake (fun x hx => (hlinks x hx).1) ?_ hwf.1.1, hnd⟩
    intro x hx
    refine (hlinks x ?_).2
    simp only [List.mem_append, List.mem_singleton, List.mem_cons] at hx ⊢
    tauto
  refine ⟨l1,
    ({ node := store_prev (store_next hA1.node prev1 l1.fake) l1.fake prev1,
       alloc := hA1.alloc } : Heap T A P),
    hB1, ns1, ?_, ?_, s1, by simpa using hlen, ?_, hwf, hlinks, ?_, ?_⟩
  · simp only [ctor_count, hc, e1]
  · simp only [ctor_count_value, hc, e2]
  · refine ⟨hring, hwf.2.1, ?_, ?_⟩
    · show inv hA1.alloc
      rw [s1]
      exact hwf.2.2.1
    · intro p hp
      show live hA1.alloc p
      rw [s1]
      exact hwf.2.2.2 p hp
  · simp only [values]
    apply List.map_congr_left
    intro x hx
    simp only [store_prev_value, store_next_value]
    exact hval x hx
  · rw [hvB]
    congr 1
    simpa using hlen

end LinkedList

namespace LinkedList

variable {T A P : Type} [DecidableEq P]

/-- Iterating a ring from `rbegin()` to `rend()` visits the values last to first. -/
theorem reverse_of_ring (l : LinkedList P) (h : Heap T A P) (ns : List P)
    (hr : Ring h.node l.fake ns) (fuel : Nat) (hf : ns.length < fuel) :
    reverse l h fuel = some (values h ns).reverse := by
  have := backward_of_ring l h ns hr fuel hf
  simp only [backward, begin, end_] at this
  simp only [reverse, rend, rbegin, riterate_eq_walk_back, this]

/-- Forward iteration over a ring meets exactly the value nodes, in order. -/
theorem iterate_of_ring (l : LinkedList P) (h : Heap T A P) (ns : List P)
    (hr : Ring h.node l.fake ns) (fuel : Nat) (hf : ns.length < fuel) :
    iterate h.node (end_ l) fuel (begin l h)
      = some (ns.map (fun n => ({ ptr := n } : common_iterator P))) :=
  iterate_of_linked h.node l.fake ns l.fake fuel hr.1 (List.nodup_cons.mp hr.2).1 hf

/-- The two fill constructors build the same ring: on an allocator that always returns,
`List(n)` and the empty list followed by `n` calls of `push_back(v)` both return, and
they return the same list object on the same allocator state with the same `n` value
nodes, linked by the same `next` and `prev` links into a well-formed ring: `size() == n`;
forward iteration meets exactly these `n` nodes before `end()`; walking back from
`end()` and reverse iteration read them last to first; for `n == 0` the sentinel is
self-linked.  The nodes of `List(n)` hold the default-initialised content of their
storage, the pushed nodes hold `v`; the element sequences are equal when default
initialisation yields `v`. -/
theorem default_fill {al : NodeAllocator A P} {inv : A → Prop} {live : A → P → Prop}
    (law : Lawful al inv live)
    (htot : ∀ a, inv a → ∃ p a1, al.allocate a 1 = some (p, a1))
    (nullptr : P) (dinit : T → T) (v : T) (n : Nat) (h : Heap T A P)
    (hinv : inv h.alloc) :
    ∃ l h1 h2 ns,
      ctor_count al nullptr dinit n h = some (l, h1) ∧
      ctor_count_value al n v h = some (l, h2) ∧
      h1.alloc = h2.alloc ∧ l.size = n ∧ ns.length = n ∧
      WF inv live l h1 ns ∧ WF inv live l h2 ns ∧
      (∀ x ∈ l.fake :: ns, (h1.node x).next = (h2.node x).next ∧
        (h1.node x).prev = (h2.node x).prev) ∧
      (∀ fuel, n < fuel →
        iterate h1.node (end_ l) fuel (begin l h1)
          = some (ns.map (fun p => ({ ptr := p } : common_iterator P))) ∧
        iterate h2.node (end_ l) fuel (begin l h2)
          = some (ns.map (fun p => ({ ptr := p } : common_iterator P))) ∧
        forward l h1 fuel = some (values h1 ns) ∧
        backward l h1 fuel = some (values h1 ns).reverse ∧
        reverse l h1 fuel = some (values h1 ns).reverse ∧
        forward l h2 fuel = some (values h2 ns) ∧
        backward l h2 fuel = some (values h2 ns).reverse ∧
        reverse l h2 fuel = some (values h2 ns).reverse) ∧
      (values h1 ns).length = n ∧
      values h1 ns = ns.map (fun x => dinit (h.node x).value) ∧
      values h2 ns = List.replicate n v ∧
      ((∀ x, dinit x = v) → values h1 ns = values h2 ns) ∧
      (n = 0 → (h1.node l.fake).next = l.fake ∧ (h1.node l.fake).prev = l.fake ∧
        begin l h1 = end_ l) := by
  obtain ⟨l, h1, h2, ns, e1, e2, ha, hlen, hw1, hw2, hlinks, hv1, hv2⟩ :=
    ctor_count_sim law htot nullptr dinit v n h hinv
  refine ⟨l, h1, h2, ns, e1, e2, ha, ?_, hlen, hw1, hw2, hlinks, ?_, ?_, hv1, hv2, ?_, ?_⟩
  · exact hw1.2.1.trans hlen
  · intro fuel hf
    have hf1 : ns.length < fuel := by omega
    exact ⟨iterate_of_ring l h1 ns hw1.1 fuel hf1, iterate_of_ring l h2 ns hw2.1 fuel hf1,
      forward_of_ring l h1 ns hw1.1 fuel hf1, backward_of_ring l h1 ns hw1.1 fuel hf1,
      reverse_of_ring l h1 ns hw1.1 fuel hf1, forward_of_ring l h2 ns hw2.1 fuel hf1,
      backward_of_ring l h2 ns hw2.1 fuel hf1, reverse_of_ring l h2 ns hw2.1 fuel hf1⟩
  · simp [values, hlen]
  · intro hd
    rw [hv1, hv2, ← hlen]
    simp [hd, List.eq_replicate_iff]
  · intro hn
    have hnil : ns = [] := List.length_eq_zero.mp (hlen.trans hn)
    subst hnil
    have := hw1.1.1
    exact ⟨this.1, this.2, (wf_empty_iff hw1).1.mpr rfl⟩

end LinkedList

namespace LinkedList

variable {T A P : Type} [DecidableEq P]

/-- The copy loop entered at the first of the nodes `ys` of the source `src` still to
copy, on an allocator that always returns: it returns, having appended one new node per
node of `ys` to the destination `l`, with the values of `ys` in order; the source keeps
its nodes and their contents, and the two lists stay on disjoint storage. -/
theorem copy_loop_spec {al : NodeAllocator A P} {inv : A → Prop} {live : A → P → Prop}
    (law : Lawful al inv live)
    (htot : ∀ a, inv a → ∃ p a1, al.allocate a 1 = some (p, a1))
    (src : LinkedList P) :
    ∀ (ys done nsd : List P) (l : LinkedList P) (h : Heap T A P) (fuel : Nat),
      WF inv live src h (done ++ ys) → WF inv live l h nsd →
      Apart src l (done ++ ys) nsd → ys.length < fuel →
      ∃ l1 h1 nsn,
        copy_loop al src fuel
            { ptr := ((ys ++ [src.fake]).head (by simp)) } l h = some (l1, h1) ∧
        WF inv live l1 h1 (nsd ++ nsn) ∧ nsn.length = ys.length ∧
        values h1 (nsd ++ nsn) = values h nsd ++ values h ys ∧
        WF inv live src h1 (done ++ ys) ∧
        (∀ z ∈ src.fake :: (done ++ ys), h1.node z = h.node z) ∧
        Apart src l1 (done ++ ys) (nsd ++ nsn) ∧ l1.fake = l.fake := by
  intro ys
  induction ys with
  | nil =>
    intro done nsd l h fuel hws hwl hap hf
    obtain ⟨f, rfl⟩ : ∃ f, fuel = f + 1 := ⟨fuel - 1, by omega⟩
    refine ⟨l, h, [], ?_, by simpa using hwl, rfl, by simp [values], hws,
      fun _ _ => rfl, by simpa using hap, rfl⟩
    simp [copy_loop, end_]
  | cons y ys ih =>
    intro done nsd l h fuel hws hwl hap hf
    obtain ⟨f, rfl⟩ : ∃ f, fuel = f + 1 := ⟨fuel - 1, by omega⟩
    have hnds : (src.fake :: (done ++ y :: ys)).Nodup := hws.1.2
    have hyf : y ≠ src.fake := by
      intro e
      have := (List.nodup_cons.mp hnds).1
      exact this (by simp [e])
    obtain ⟨p, a1, ha⟩ := htot h.alloc hwl.2.2.1
    have hfresh : ¬ live h.alloc p := law.allocate_fresh _ _ _ hwl.2.2.1 ha
    have hlive : ∀ q, live a1 q ↔ (q = p ∨ live h.alloc q) :=
      law.allocate_live _ _ _ hwl.2.2.1 ha
    have hw := wf_insert law l h nsd [] l.fake (h.node y).value p a1 (by simpa using hwl)
      rfl ha
    have hpb : push_back al l (common_iterator.deref h.node { ptr := y }) h
        = some ({ l with _size := l._size + 1 },
            { node := link_before h.node l.fake p (h.node y).value, alloc := a1 }) := by
      simp only [push_back, end_, common_iterator.deref]
      exact insert_eq l _ _ h p a1 ha
    have hprevmem : (h.node l.fake).prev ∈ l.fake :: nsd :=
      linked_prev_mem nsd l.fake l.fake hwl.1.1
    have hsame : ∀ z ∈ src.fake :: (done ++ y :: ys),
        link_before h.node l.fake p (h.node y).value z = h.node z := by
      intro z hz
      have hzl : z ∉ l.fake :: nsd := hap z hz
      apply link_before_other
      · intro e
        exact hfresh (e ▸ hws.2.2.2 z hz)
      · intro e
        exact hzl (e ▸ hprevmem)
      · intro e
        exact hzl (e ▸ List.mem_cons_self _ _)
    have hws1 := wf_of_same src h
      ({ node := link_before h.node l.fake p (h.node y).value, alloc := a1 } : Heap T A P)
      (done ++ y :: ys) hws hw.1.2.2.1
      (fun z hz => ⟨hsame z hz, (hlive z).mpr (Or.inr (hws.2.2.2 z hz))⟩)
    have hap1 : Apart src ({ l with _size := l._size + 1 } : LinkedList P)
        (done ++ y :: ys) (nsd ++ [p]) := by
      intro x hx hm
      have hx1 := hap x hx
      simp only [List.mem_cons, List.mem_append, List.mem_singleton, List.not_mem_nil,
        or_false] at hm hx1
      rcases hm with e | e | e
      · exact hx1 (Or.inl e)
      · exact hx1 (Or.inr e)
      · exact hfresh (e ▸ hws.2.2.2 x hx)
    have hre : done ++ y :: ys = (done ++ [y]) ++ ys := by simp
    have hlink : Linked h.node y ys src.fake :=
      ((linked_append h.node done src.fake y ys src.fake).mp hws.1.1).2
    have hnext : (ys ++ [src.fake]).head (by simp) = (h.node y).next := by
      have := linked_next_head ys y src.fake hlink
      rw [List.head?_eq_head (by simp)] at this
      exact Option.some.inj this
    have hymem : y ∈ src.fake :: (done ++ y :: ys) := by simp
    obtain ⟨l1, h1, nsn, e1, hw1, hlen, hv1, hs1, hsm1, hap2, hfk⟩ :=
      ih (done ++ [y]) (nsd ++ [p]) _ _ f (hre ▸ hws1.1) (by simpa using hw.1)
        (hre ▸ hap1) (by simpa using hf)
    refine ⟨l1, h1, p :: nsn, ?_, by simpa using hw1, by simp [hlen], ?_,
      hre ▸ hs1, ?_, ?_, hfk⟩
    · have hne : ({ ptr := y } : common_iterator P) ≠ end_ src := by
        intro e
        exact hyf (congrArg common_iterator.ptr e)
      have hinc : common_iterator.inc
          (link_before h.node l.fake p (h.node y).value) { ptr := y }
          = { ptr := (ys ++ [src.fake]).head (by simp) } := by
        simp only [common_iterator.inc, hsame y hymem, hnext]
      simp only [List.cons_append, List.head_cons, copy_loop, hne, if_false, hpb, hinc]
      exact e1
    · have hv := hv1
      rw [List.append_assoc] at hv
      simp only [List.singleton_append] at hv
      rw [hv, hw.2]
      have hys : values
          ({ node := link_before h.node l.fake p (h.node y).value, alloc := a1 } :
            Heap T A P) ys = values h ys := by
        simp only [values]
        apply List.map_congr_left
        intro z hz
        rw [hsame z (by simp [hz])]
      rw [hys]
      simp [values]
    · intro z hz
      rw [hsm1 z (hre ▸ hz)]
      exact hsame z hz
    · intro x hx hm
      exact hap2 x (hre ▸ hx) (by simpa using hm)

end LinkedList

namespace LinkedList

variable {T A P : Type} [DecidableEq P]

/-- A new self-linked sentinel followed by the copy loop over the well-formed source
`src`, on an allocator that always returns: the result is a well-formed list on
storage of its own with the values of the source in order, and the source keeps its
nodes and their contents. -/
theorem fresh_copy_spec {al : NodeAllocator A P} {inv : A → Prop} {live : A → P → Prop}
    (law : Lawful al inv live)
    (htot : ∀ a, inv a → ∃ p a1, al.allocate a 1 = some (p, a1))
    (src : LinkedList P) (h : Heap T A P) (nss : List P) (hws : WF inv live src h nss)
    (fake : P) (a1 : A) (ha : al.allocate h.alloc 1 = some (fake, a1)) (fuel : Nat)
    (hf : nss.length < fuel) :
    ∃ l1 h1 nsn,
      copy_loop al src fuel
          (begin src ({ node := store_prev (store_next h.node fake fake) fake fake,
                        alloc := a1 } : Heap T A P))
          { _size := 0, fake := fake }
          { node := store_prev (store_next h.node fake fake) fake fake, alloc := a1 }
        = some (l1, h1) ∧
      WF inv live l1 h1 nsn ∧ nsn.length = nss.length ∧
      values h1 nsn = values h nss ∧ WF inv live src h1 nss ∧
      (∀ z ∈ src.fake :: nss, h1.node z = h.node z) ∧ Apart src l1 nss nsn ∧
      l1.fake = fake := by
  have hc : ctor al h
      = some ({ _size := 0, fake := fake },
          { node := store_prev (store_next h.node fake fake) fake fake, alloc := a1 }) := by
    simp only [ctor, ha]
  have hwf0 := wf_ctor law h _ _ hws.2.2.1 hc
  have hfresh : ¬ live h.alloc fake := law.allocate_fresh _ _ _ hws.2.2.1 ha
  have hlive : ∀ q, live a1 q ↔ (q = fake ∨ live h.alloc q) :=
    law.allocate_live _ _ _ hws.2.2.1 ha
  have hsame : ∀ z ∈ src.fake :: nss,
      store_prev (store_next h.node fake fake) fake fake z = h.node z := by
    intro z hz
    have hzf : z ≠ fake := fun e => hfresh (e ▸ hws.2.2.2 z hz)
    simp only [store_prev, store_next]
    rw [Function.update_noteq hzf, Function.update_noteq hzf]
  have hws1 := wf_of_same src h
    ({ node := store_prev (store_next h.node fake fake) fake fake, alloc := a1 } :
      Heap T A P) nss hws hwf0.2.2.1
    (fun z hz => ⟨hsame z hz, (hlive z).mpr (Or.inr (hws.2.2.2 z hz))⟩)
  have hap : Apart src ({ _size := 0, fake := fake } : LinkedList P) nss [] := by
    intro x hx hm
    simp only [List.mem_singleton] at hm
    exact hfresh (hm ▸ hws.2.2.2 x hx)
  have hb : begin src
        ({ node := store_prev (store_next h.node fake fake) fake fake, alloc := a1 } :
          Heap T A P)
      = { ptr := (nss ++ [src.fake]).head (by simp) } := by
    have := linked_next_head nss src.fake src.fake hws.1.1
    rw [List.head?_eq_head (by simp)] at this
    simp only [begin, hsame _ (List.mem_cons_self _ _)]
    exact congrArg _ (Option.some.inj this).symm
  obtain ⟨l1, h1, nsn, e1, hw1, hlen, hv1, hs1, hsm1, hap1, hfk⟩ :=
    copy_loop_spec law htot src nss [] [] _ _ fuel (by simpa using hws1.1) hwf0
      (by simpa using hap) hf
  rw [hb]
  refine ⟨l1, h1, nsn, e1, by simpa using hw1, hlen, ?_, by simpa using hs1, ?_,
    by simpa using hap1, hfk⟩
  · have hv := hv1
    simp only [List.nil_append] at hv
    rw [hv]
    simp only [values, List.map_nil, List.nil_append]
    apply List.map_congr_left
    intro z hz
    rw [hsame z (List.mem_cons_of_mem _ hz)]
  · intro z hz
    rw [hsm1 z (by simpa using hz)]
    exact hsame z hz

/-- The copy constructor on a well-formed source, on an allocator that always returns:
it returns a well-formed list on storage of its own with the values of the source in
order, and the source keeps its nodes and their contents. -/
theorem copy_ctor_spec {al : NodeAllocator A P} {inv : A → Prop} {live : A → P → Prop}
    (law : Lawful al inv live)
    (htot : ∀ a, inv a → ∃ p a1, al.allocate a 1 = some (p, a1))
    (a : LinkedList P) (h : Heap T A P) (nsa : List P) (hwf : WF inv live a h nsa)
    (fuel : Nat) (hf : nsa.length < fuel) :
    ∃ b h1 nsb,
      copy_ctor al a h fuel = some (b, h1) ∧
      WF inv live b h1 nsb ∧ nsb.length = nsa.length ∧
      values h1 nsb = values h nsa ∧ WF inv live a h1 nsa ∧
      (∀ z ∈ a.fake :: nsa, h1.node z = h.node z) ∧ Apart a b nsa nsb := by
  obtain ⟨fake, a1, ha⟩ := htot h.alloc hwf.2.2.1
  obtain ⟨b, h1, nsb, e1, hw1, hlen, hv, hs1, hsm, hap, -⟩ :=
    fresh_copy_spec law htot a h nsa hwf fake a1 ha fuel hf
  refine ⟨b, h1, nsb, ?_, hw1, hlen, hv, hs1, hsm, hap⟩
  simp only [copy_ctor, ctor, ha]
  exact e1

/-- C13 (copy independence): on an allocator that always returns, copy-constructing `b`
from a well-formed list `a` with elements `xs` returns; `b` then reads `xs` and has the
size of `a`; after any sequence of `insert`/`erase`/`push`/`pop` calls on `a`, each
within its precondition, `b` is still a well-formed list of the same nodes, reads `xs`
and has the same size; and after any such sequence on `b`, `a` is still a well-formed
list of its nodes, reads `xs` and has its size. -/
theorem copy_independence {al : NodeAllocator A P} {inv : A → Prop} {live : A → P → Prop}
    (law : Lawful al inv live)
    (htot : ∀ s, inv s → ∃ p s1, al.allocate s 1 = some (p, s1))
    (a : LinkedList P) (h : Heap T A P) (nsa : List P) (hwf : WF inv live a h nsa)
    (fuel : Nat) (hf : nsa.length < fuel) :
    ∃ b h1 nsb,
      copy_ctor al a h fuel = some (b, h1) ∧
      b.size = a.size ∧ a.size = nsa.length ∧
      (∀ f, nsa.length < f →
        forward a h f = some (values h nsa) ∧
        forward b h1 f = some (values h nsa) ∧
        forward a h1 f = some (values h nsa)) ∧
      (∀ a2 h2, Steps al a h1 a2 h2 →
        WF inv live b h2 nsb ∧ b.size = nsb.length ∧ nsb.length = nsa.length ∧
        ∀ f, nsa.length < f → forward b h2 f = some (values h nsa)) ∧
      (∀ b2 h2, Steps al b h1 b2 h2 →
        WF inv live a h2 nsa ∧
        ∀ f, nsa.length < f → forward a h2 f = some (values h nsa)) := by
  obtain ⟨b, h1, nsb, e1, hwb, hlen, hv, hwa, hsm, hap⟩ :=
    copy_ctor_spec law htot a h nsa hwf fuel hf
  have hva : values h1 nsa = values h nsa := by
    simp only [values]
    apply List.map_congr_left
    intro z hz
    rw [hsm z (List.mem_cons_of_mem _ hz)]
  refine ⟨b, h1, nsb, e1, ?_, hwf.2.1, ?_, ?_, ?_⟩
  · exact (hwb.2.1.trans hlen).trans hwf.2.1.symm
  · intro f hf1
    refine ⟨forward_of_ring a h nsa hwf.1 f hf1, ?_, ?_⟩
    · rw [forward_of_ring b h1 nsb hwb.1 f (by omega), hv]
    · rw [forward_of_ring a h1 nsa hwa.1 f hf1, hva]
  · intro a2 h2 hs
    obtain ⟨nsa2, -, hwb2, -, hv2⟩ := steps_frame law b nsb hwa hwb hap hs
    refine ⟨hwb2, hwb.2.1, hlen, ?_⟩
    intro f hf1
    rw [forward_of_ring b h2 nsb hwb2.1 f (by omega), hv2, hv]
  · intro b2 h2 hs
    obtain ⟨nsb2, -, hwa2, -, hv2⟩ := steps_frame law a nsa hwb hwa (fun x hx hm => hap x hm hx) hs
    refine ⟨hwa2, ?_⟩
    intro f hf1
    rw [forward_of_ring a h2 nsa hwa2.1 f hf1, hv2, hva]

/-- C14 (copy assignment): on an allocator that always returns, for two well-formed
lists `a` and `b` on disjoint storage, `a = b` with the two objects at different
addresses returns; afterwards `a` is a well-formed list that reads the elements `b`
held before, in the same order, with `a.size() == b.size()`, on storage disjoint from
that of `b`, and `b` has the same nodes with the same contents and reads the same
elements; with both operands the same object the assignment returns the object and
the memory as they were. -/
theorem copy_assignment {al : NodeAllocator A P} {inv : A → Prop} {live : A → P → Prop}
    (law : Lawful al inv live)
    (htot : ∀ s, inv s → ∃ p s1, al.allocate s 1 = some (p, s1))
    (nullptr : P) (a b : LinkedList P) (h : Heap T A P) (nsa nsb : List P)
    (hwfa : WF inv live a h nsa) (hwfb : WF inv live b h nsb)
    (hap : Apart a b nsa nsb) (hnull : ¬ live h.alloc nullptr)
    (this_addr another_addr : Nat) (fuel : Nat) (hf : nsb.length < fuel) :
    (another_addr ≠ this_addr →
      ∃ a1 h1 nsa1,
        assign al nullptr this_addr another_addr a b h fuel = some (a1, h1) ∧
        WF inv live a1 h1 nsa1 ∧ WF inv live b h1 nsb ∧ Apart b a1 nsb nsa1 ∧
        a1.size = b.size ∧
        (∀ z ∈ b.fake :: nsb, h1.node z = h.node z) ∧
        ∀ f, nsb.length < f →
          forward b h f = some (values h nsb) ∧
          forward a1 h1 f = some (values h nsb) ∧
          forward b h1 f = some (values h nsb)) ∧
    assign al nullptr this_addr this_addr a a h fuel = some (a, h) := by
  constructor
  · intro hne
    have hfn : a.fake ≠ nullptr :=
      fun e => hnull (e ▸ hwfa.2.2.2 a.fake (List.mem_cons_self _ _))
    obtain ⟨-, d2, -, d4, d5, d6⟩ := destroy_spec law nullptr a h nsa hwfa hfn
    have hbout : ∀ z ∈ b.fake :: nsb, z ∉ a.fake :: nsa := fun z hz hm => hap z hm hz
    have hwb0 := wf_of_same b h (destroy al nullptr a h).2 nsb hwfb d4
      (fun z hz => ⟨d6 z (hbout z hz), (d5 z).mpr ⟨hwfb.2.2.2 z hz, hbout z hz⟩⟩)
    obtain ⟨fake, s1, ha⟩ := htot _ d4
    obtain ⟨a1, h1, nsa1, e1, hw1, hlen, hv, hs1, hsm, hap1, -⟩ :=
      fresh_copy_spec law htot b _ nsb hwb0.1 fake s1 ha fuel hf
    have hvb : values h1 nsb = values h nsb := by
      simp only [values]
      apply List.map_congr_left
      intro z hz
      rw [hsm z (List.mem_cons_of_mem _ hz), d6 z (hbout z (List.mem_cons_of_mem _ hz))]
    refine ⟨a1, h1, nsa1, ?_, hw1, hs1, hap1, ?_, ?_, ?_⟩
    · simp only [assign, hne, if_false, ha, d2]
      exact e1
    · exact (hw1.2.1.trans hlen).trans hwfb.2.1.symm
    · intro z hz
      rw [hsm z hz, d6 z (hbout z hz)]
    · intro f hf1
      refine ⟨forward_of_ring b h nsb hwfb.1 f hf1, ?_, ?_⟩
      · rw [forward_of_ring a1 h1 nsa1 hw1.1 f (by omega), hv, hwb0.2]
      · rw [forward_of_ring b h1 nsb hs1.1 f hf1, hvb]
  · simp only [assign, if_true]

end LinkedList

namespace LinkedList

variable {T A P : Type} [DecidableEq P]

/-- Constructing a list next to a well-formed list `src` gives an empty well-formed
list and leaves `src` well formed, on disjoint storage. -/
theorem ctor_frame {al : NodeAllocator A P} {inv : A → Prop} {live : A → P → Prop}
    (law : Lawful al inv live) (src : LinkedList P) (h : Heap T A P) (nss : List P)
    (hws : WF inv live src h nss) (l : LinkedList P) (h1 : Heap T A P)
    (hc : ctor al h = some (l, h1)) :
    WF inv live l h1 [] ∧ WF inv live src h1 nss ∧ Apart l src [] nss := by
  have hwf0 := wf_ctor law h l h1 hws.2.2.1 hc
  unfold ctor at hc
  cases ha : al.allocate h.alloc 1 with
  | none => simp [ha] at hc
  | some r =>
    obtain ⟨fake, a1⟩ := r
    simp only [ha, Option.some.injEq, Prod.mk.injEq] at hc
    obtain ⟨rfl, rfl⟩ := hc
    have hfresh : ¬ live h.alloc fake := law.allocate_fresh _ _ _ hws.2.2.1 ha
    have hlive : ∀ q, live a1 q ↔ (q = fake ∨ live h.alloc q) :=
      law.allocate_live _ _ _ hws.2.2.1 ha
    refine ⟨hwf0, (wf_of_same src h _ nss hws hwf0.2.2.1 ?_).1, ?_⟩
    · intro z hz
      have hzf : z ≠ fake := fun e => hfresh (e ▸ hws.2.2.2 z hz)
      refine ⟨?_, (hlive z).mpr (Or.inr (hws.2.2.2 z hz))⟩
      simp only [store_prev, store_next]
      rw [Function.update_noteq hzf, Function.update_noteq hzf]
    · intro x hx hm
      simp only [List.mem_singleton] at hx
      exact hfresh (hx ▸ hws.2.2.2 x hm)

end LinkedList

namespace Example

/-- Constructing a list on `heap2` gives `list3` in `heap3`. -/
theorem ctor_heap2 :
    LinkedList.ctor (FastAllocator.nodeAllocator 24) heap2 = some (list3, heap3) := by
  rfl

/-- The example list is reached from construction by one `push_back`. -/
theorem reachable_list2 :
    LinkedList.Reachable (FastAllocator.nodeAllocator 24)
      (fun g => (FixedAllocator.get_instance g.fixed24).Sound) list2 heap2 :=
  LinkedList.Reachable.push_back (LinkedList.Reachable.ctor sound_heap0 ctor_heap0)
    push_back_list1

/-- The empty list `list3` and the one-element list `list2` are well formed in `heap3`,
on disjoint storage. -/
theorem wf_list3 :
    LinkedList.WF (fun g => (FixedAllocator.get_instance g.fixed24).Sound)
        (fun g p => (FixedAllocator.get_instance g.fixed24).Live p) list3 heap3 [] ∧
      LinkedList.WF (fun g => (FixedAllocator.get_instance g.fixed24).Sound)
        (fun g p => (FixedAllocator.get_instance g.fixed24).Live p)
        list2 heap3 [Ptr.chunk 24 0 1] ∧
      LinkedList.Apart list3 list2 [] [Ptr.chunk 24 0 1] :=
  LinkedList.ctor_frame FastAllocator.lawful24 list2 heap2 [Ptr.chunk 24 0 1] wf_list2
    list3 heap3 ctor_heap2

/-- The example list is well formed on the recording allocator too. -/
theorem wf_list2_logged :
    LinkedList.WF
      (fun s : Globals × List (AllocCall Ptr) =>
        (FixedAllocator.get_instance s.1.fixed24).Sound)
      (fun s p => (FixedAllocator.get_instance s.1.fixed24).Live p)
      list2 heap2_logged [Ptr.chunk 24 0 1] :=
  wf_list2

end Example

namespace LinkedList

/-- Witness for C11: the end operations on the example list holding `[5]`. -/
theorem end_operations_witness :
    WF (fun g => (FixedAllocator.get_instance g.fixed24).Sound)
        (fun g p => (FixedAllocator.get_instance g.fixed24).Live p)
        Example.list2 Example.heap2 [Ptr.chunk 24 0 1] ∧
      (FastAllocator.nodeAllocator 24).allocate Example.heap2.alloc 1
        = some (Ptr.chunk 24 0 2, Example.heap3.alloc) ∧
      ((∀ fuel, [Ptr.chunk 24 0 1].length < fuel →
          forward Example.list2 Example.heap2 fuel
            = some (values Example.heap2 [Ptr.chunk 24 0 1])) ∧
        (∃ l1 h1,
          push_back (FastAllocator.nodeAllocator 24) Example.list2 7 Example.heap2
            = some (l1, h1) ∧
          WF (fun g => (FixedAllocator.get_instance g.fixed24).Sound)
            (fun g p => (FixedAllocator.get_instance g.fixed24).Live p) l1 h1
            ([Ptr.chunk 24 0 1] ++ [Ptr.chunk 24 0 2]) ∧
          (∀ fuel, [Ptr.chunk 24 0 1].length + 1 < fuel →
            forward l1 h1 fuel = some (values Example.heap2 [Ptr.chunk 24 0 1] ++ [7])) ∧
          l1.size = Example.list2.size + 1) ∧
        (∃ l1 h1,
          push_front (FastAllocator.nodeAllocator 24) Example.list2 7 Example.heap2
            = some (l1, h1) ∧
          WF (fun g => (FixedAllocator.get_instance g.fixed24).Sound)
            (fun g p => (FixedAllocator.get_instance g.fixed24).Live p) l1 h1
            (Ptr.chunk 24 0 2 :: [Ptr.chunk 24 0 1]) ∧
          (∀ fuel, [Ptr.chunk 24 0 1].length + 1 < fuel →
            forward l1 h1 fuel = some (7 :: values Example.heap2 [Ptr.chunk 24 0 1])) ∧
          l1.size = Example.list2.size + 1) ∧
        ([Ptr.chunk 24 0 1] ≠ [] →
          WF (fun g => (FixedAllocator.get_instance g.fixed24).Sound)
            (fun g p => (FixedAllocator.get_instance g.fixed24).Live p)
            (pop_back (FastAllocator.nodeAllocator 24) Example.list2 Example.heap2).1
            (pop_back (FastAllocator.nodeAllocator 24) Example.list2 Example.heap2).2
            [Ptr.chunk 24 0 1].dropLast ∧
          (∀ fuel, [Ptr.chunk 24 0 1].length - 1 < fuel →
            forward (pop_back (FastAllocator.nodeAllocator 24) Example.list2 Example.heap2).1
                (pop_back (FastAllocator.nodeAllocator 24) Example.list2 Example.heap2).2 fuel
              = some (values Example.heap2 [Ptr.chunk 24 0 1]).dropLast) ∧
          (pop_back (FastAllocator.nodeAllocator 24) Example.list2 Example.heap2).1.size + 1
            = Example.list2.size) ∧
        ([Ptr.chunk 24 0 1] ≠ [] →
          WF (fun g => (FixedAllocator.get_instance g.fixed24).Sound)
            (fun g p => (FixedAllocator.get_instance g.fixed24).Live p)
            (pop_front (FastAllocator.nodeAllocator 24) Example.list2 Example.heap2).1
            (pop_front (FastAllocator.nodeAllocator 24) Example.list2 Example.heap2).2
            [Ptr.chunk 24 0 1].tail ∧
          (∀ fuel, [Ptr.chunk 24 0 1].length - 1 < fuel →
            forward (pop_front (FastAllocator.nodeAllocator 24) Example.list2 Example.heap2).1
                (pop_front (FastAllocator.nodeAllocator 24) Example.list2 Example.heap2).2 fuel
              = some (values Example.heap2 [Ptr.chunk 24 0 1]).tail) ∧
          (pop_front (FastAllocator.nodeAllocator 24) Example.list2 Example.heap2).1.size + 1
            = Example.list2.size) ∧
        Example.scenario = some (some [0, 1, 2], 3, some [0, 1], 2)) :=
  ⟨Example.wf_list2, rfl,
    end_operations FastAllocator.lawful24 Example.list2 Example.heap2 [Ptr.chunk 24 0 1] 7
      (Ptr.chunk 24 0 2) Example.heap3.alloc Example.wf_list2 rfl⟩

/-- Witness for C12: the example list holding `[5]`, reached by one `push_back`. -/
theorem empty_state_witness :
    Reachable (FastAllocator.nodeAllocator 24)
        (fun g => (FixedAllocator.get_instance g.fixed24).Sound)
        Example.list2 Example.heap2 ∧
      ((end_ Example.list2).ptr = Example.list2.fake ∧
        (begin Example.list2 Example.heap2 = end_ Example.list2
          ↔ Example.list2.size = 0) ∧
        (Example.list2.size = 0
          ↔ ((Example.heap2.node Example.list2.fake).next = Example.list2.fake ∧
              (Example.heap2.node Example.list2.fake).prev = Example.list2.fake)) ∧
        (∃ l1 h1, Erasures (FastAllocator.nodeAllocator 24) Example.list2.size
          Example.list2 Example.heap2 l1 h1) ∧
        (∀ l1 h1, Erasures (FastAllocator.nodeAllocator 24) Example.list2.size
            Example.list2 Example.heap2 l1 h1 →
          begin l1 h1 = end_ l1 ∧ l1.size = 0)) :=
  ⟨Example.reachable_list2,
    empty_state FastAllocator.lawful24 Example.list2 Example.heap2 Example.reachable_list2⟩

/-- Witness for C18: the example list holding `[5]`, reached by one `push_back`. -/
theorem ring_symmetry_witness :
    Reachable (FastAllocator.nodeAllocator 24)
        (fun g => (FixedAllocator.get_instance g.fixed24).Sound)
        Example.list2 Example.heap2 ∧
      ((∀ k,
        (Example.heap2.node (Example.heap2.node (common_iterator.advance Example.heap2.node k
            (end_ Example.list2)).ptr).next).prev
          = (common_iterator.advance Example.heap2.node k (end_ Example.list2)).ptr ∧
        (Example.heap2.node (Example.heap2.node (common_iterator.advance Example.heap2.node k
            (end_ Example.list2)).ptr).prev).next
          = (common_iterator.advance Example.heap2.node k (end_ Example.list2)).ptr) ∧
      (∀ fuel, Example.list2.size < fuel →
        ∃ xs, forward Example.list2 Example.heap2 fuel = some xs ∧
          backward Example.list2 Example.heap2 fuel = some xs.reverse ∧
          reverse Example.list2 Example.heap2 fuel = some xs.reverse)) :=
  ⟨Example.reachable_list2,
    ring_symmetry FastAllocator.lawful24 Example.list2 Example.heap2
      Example.reachable_list2⟩

/-- Witness for C16: destroying the example list holding `[5]`. -/
theorem destroy_returns_everything_witness :
    WF (fun s : Globals × List (AllocCall Ptr) =>
          (FixedAllocator.get_instance s.1.fixed24).Sound)
        (fun s p => (FixedAllocator.get_instance s.1.fixed24).Live p)
        Example.list2 Example.heap2_logged [Ptr.chunk 24 0 1] ∧
      Example.list2.fake ≠ Ptr.heap 0 ∧
      ((destroy (FastAllocator.nodeAllocator 24).logged (Ptr.heap 0) Example.list2
            Example.heap2_logged).2.alloc.2
          = Example.heap2_logged.alloc.2
            ++ ([Ptr.chunk 24 0 1].reverse ++ [Example.list2.fake]).map
              AllocCall.deallocate ∧
        ([Ptr.chunk 24 0 1].reverse ++ [Example.list2.fake]).length
          = [Ptr.chunk 24 0 1].length + 1 ∧
        ([Ptr.chunk 24 0 1].reverse ++ [Example.list2.fake]).Nodup ∧
        (∀ p ∈ [Ptr.chunk 24 0 1].reverse ++ [Example.list2.fake],
          (FixedAllocator.get_instance Example.heap2_logged.alloc.1.fixed24).Live p) ∧
        (destroy (FastAllocator.nodeAllocator 24).logged (Ptr.heap 0) Example.list2
          Example.heap2_logged).1.size = 0 ∧
        (∀ q,
          (FixedAllocator.get_instance
              (destroy (FastAllocator.nodeAllocator 24).logged (Ptr.heap 0) Example.list2
                Example.heap2_logged).2.alloc.1.fixed24).Live q
            ↔ ((FixedAllocator.get_instance Example.heap2_logged.alloc.1.fixed24).Live q ∧
                q ∉ Example.list2.fake :: [Ptr.chunk 24 0 1])) ∧
        (∀ (h0 : Heap Nat (Globals × List (AllocCall Ptr)) Ptr) l0 h1,
          (FixedAllocator.get_instance h0.alloc.1.fixed24).Sound →
          ctor (FastAllocator.nodeAllocator 24).logged h0 = some (l0, h1) →
          Steps (FastAllocator.nodeAllocator 24).logged l0 h1 Example.list2
            Example.heap2_logged →
          AllocCall.allocations
                (destroy (FastAllocator.nodeAllocator 24).logged (Ptr.heap 0) Example.list2
                  Example.heap2_logged).2.alloc.2
              + AllocCall.deallocations h0.alloc.2
            = AllocCall.deallocations
                (destroy (FastAllocator.nodeAllocator 24).logged (Ptr.heap 0) Example.list2
                  Example.heap2_logged).2.alloc.2
              + AllocCall.allocations h0.alloc.2)) :=
  ⟨Example.wf_list2_logged, by decide,
    destroy_returns_everything FastAllocator.lawful24 (Ptr.heap 0) Example.list2
      Example.heap2_logged [Ptr.chunk 24 0 1] Example.wf_list2_logged (by decide)⟩

/-- An instance of `default_fill`: two elements of a type whose default constructor
sets the value 0, against two calls of `push_back(0)`, on the initial memory. -/
theorem default_fill_witness :
    (∀ g, (FixedAllocator.get_instance g.fixed24).Sound →
        ∃ p g1, (FastAllocator.nodeAllocator 24).allocate g 1 = some (p, g1)) ∧
      (FixedAllocator.get_instance Example.heap0.alloc.fixed24).Sound ∧
      ∃ l h1 h2 ns,
        ctor_count (FastAllocator.nodeAllocator 24) (Ptr.heap 0) (fun _ => 0) 2
          Example.heap0 = some (l, h1) ∧
        ctor_count_value (FastAllocator.nodeAllocator 24) 2 0 Example.heap0
          = some (l, h2) ∧
        h1.alloc = h2.alloc ∧ l.size = 2 ∧ ns.length = 2 ∧
        WF (fun g => (FixedAllocator.get_instance g.fixed24).Sound)
          (fun g p => (FixedAllocator.get_instance g.fixed24).Live p) l h1 ns ∧
        WF (fun g => (FixedAllocator.get_instance g.fixed24).Sound)
          (fun g p => (FixedAllocator.get_instance g.fixed24).Live p) l h2 ns ∧
        (∀ x ∈ l.fake :: ns, (h1.node x).next = (h2.node x).next ∧
          (h1.node x).prev = (h2.node x).prev) ∧
        (∀ fuel, 2 < fuel →
          iterate h1.node (end_ l) fuel (begin l h1)
            = some (ns.map (fun p => ({ ptr := p } : common_iterator Ptr))) ∧
          iterate h2.node (end_ l) fuel (begin l h2)
            = some (ns.map (fun p => ({ ptr := p } : common_iterator Ptr))) ∧
          forward l h1 fuel = some (values h1 ns) ∧
          backward l h1 fuel = some (values h1 ns).reverse ∧
          reverse l h1 fuel = some (values h1 ns).reverse ∧
          forward l h2 fuel = some (values h2 ns) ∧
          backward l h2 fuel = some (values h2 ns).reverse ∧
          reverse l h2 fuel = some (values h2 ns).reverse) ∧
        (values h1 ns).length = 2 ∧
        values h1 ns = ns.map (fun x => (fun _ : Nat => 0) (Example.heap0.node x).value) ∧
        values h2 ns = List.replicate 2 0 ∧
        ((∀ x : Nat, (fun _ : Nat => 0) x = 0) → values h1 ns = values h2 ns) ∧
        (2 = 0 → (h1.node l.fake).next = l.fake ∧ (h1.node l.fake).prev = l.fake ∧
          begin l h1 = end_ l) :=
  ⟨FastAllocator.total24, Example.sound_heap0,
    default_fill FastAllocator.lawful24 FastAllocator.total24 (Ptr.heap 0) (fun _ => 0) 0 2
      Example.heap0 Example.sound_heap0⟩

/-- Witness for C13: copying the example list holding `[5]`. -/
theorem copy_independence_witness :
    (∀ g, (FixedAllocator.get_instance g.fixed24).Sound →
        ∃ p g1, (FastAllocator.nodeAllocator 24).allocate g 1 = some (p, g1)) ∧
      WF (fun g => (FixedAllocator.get_instance g.fixed24).Sound)
        (fun g p => (FixedAllocator.get_instance g.fixed24).Live p)
        Example.list2 Example.heap2 [Ptr.chunk 24 0 1] ∧
      [Ptr.chunk 24 0 1].length < 2 ∧
      ∃ b h1 nsb,
        copy_ctor (FastAllocator.nodeAllocator 24) Example.list2 Example.heap2 2
          = some (b, h1) ∧
        b.size = Example.list2.size ∧ Example.list2.size = [Ptr.chunk 24 0 1].length ∧
        (∀ f, [Ptr.chunk 24 0 1].length < f →
          forward Example.list2 Example.heap2 f
            = some (values Example.heap2 [Ptr.chunk 24 0 1]) ∧
          forward b h1 f = some (values Example.heap2 [Ptr.chunk 24 0 1]) ∧
          forward Example.list2 h1 f = some (values Example.heap2 [Ptr.chunk 24 0 1])) ∧
        (∀ a2 h2, Steps (FastAllocator.nodeAllocator 24) Example.list2 h1 a2 h2 →
          WF (fun g => (FixedAllocator.get_instance g.fixed24).Sound)
            (fun g p => (FixedAllocator.get_instance g.fixed24).Live p) b h2 nsb ∧
          b.size = nsb.length ∧ nsb.length = [Ptr.chunk 24 0 1].length ∧
          ∀ f, [Ptr.chunk 24 0 1].length < f →
            forward b h2 f = some (values Example.heap2 [Ptr.chunk 24 0 1])) ∧
        (∀ b2 h2, Steps (FastAllocator.nodeAllocator 24) b h1 b2 h2 →
          WF (fun g => (FixedAllocator.get_instance g.fixed24).Sound)
            (fun g p => (FixedAllocator.get_instance g.fixed24).Live p)
            Example.list2 h2 [Ptr.chunk 24 0 1] ∧
          ∀ f, [Ptr.chunk 24 0 1].length < f →
            forward Example.list2 h2 f
              = some (values Example.heap2 [Ptr.chunk 24 0 1])) :=
  ⟨FastAllocator.total24, Example.wf_list2, by decide,
    copy_independence FastAllocator.lawful24 FastAllocator.total24 Example.list2
      Example.heap2 [Ptr.chunk 24 0 1] Example.wf_list2 2 (by decide)⟩

/-- Witness for C14: assigning the example list holding `[5]` to the empty list
`list3`, the two objects at addresses 0 and 1. -/
theorem copy_assignment_witness :
    (∀ g, (FixedAllocator.get_instance g.fixed24).Sound →
        ∃ p g1, (FastAllocator.nodeAllocator 24).allocate g 1 = some (p, g1)) ∧
      WF (fun g => (FixedAllocator.get_instance g.fixed24).Sound)
        (fun g p => (FixedAllocator.get_instance g.fixed24).Live p)
        Example.list3 Example.heap3 [] ∧
      WF (fun g => (FixedAllocator.get_instance g.fixed24).Sound)
        (fun g p => (FixedAllocator.get_instance g.fixed24).Live p)
        Example.list2 Example.heap3 [Ptr.chunk 24 0 1] ∧
      Apart Example.list3 Example.list2 [] [Ptr.chunk 24 0 1] ∧
      ¬ (FixedAllocator.get_instance Example.heap3.alloc.fixed24).Live (Ptr.heap 0) ∧
      [Ptr.chunk 24 0 1].length < 2 ∧
      ((1 ≠ 0 →
        ∃ a1 h1 nsa1,
          assign (FastAllocator.nodeAllocator 24) (Ptr.heap 0) 0 1 Example.list3
            Example.list2 Example.heap3 2 = some (a1, h1) ∧
          WF (fun g => (FixedAllocator.get_instance g.fixed24).Sound)
            (fun g p => (FixedAllocator.get_instance g.fixed24).Live p) a1 h1 nsa1 ∧
          WF (fun g => (FixedAllocator.get_instance g.fixed24).Sound)
            (fun g p => (FixedAllocator.get_instance g.fixed24).Live p)
            Example.list2 h1 [Ptr.chunk 24 0 1] ∧
          Apart Example.list2 a1 [Ptr.chunk 24 0 1] nsa1 ∧
          a1.size = Example.list2.size ∧
          (∀ z ∈ Example.list2.fake :: [Ptr.chunk 24 0 1],
            h1.node z = Example.heap3.node z) ∧
          ∀ f, [Ptr.chunk 24 0 1].length < f →
            forward Example.list2 Example.heap3 f
              = some (values Example.heap3 [Ptr.chunk 24 0 1]) ∧
            forward a1 h1 f = some (values Example.heap3 [Ptr.chunk 24 0 1]) ∧
            forward Example.list2 h1 f = some (values Example.heap3 [Ptr.chunk 24 0 1])) ∧
        assign (FastAllocator.nodeAllocator 24) (Ptr.heap 0) 0 0 Example.list3
          Example.list3 Example.heap3 2 = some (Example.list3, Example.heap3)) :=
  ⟨FastAllocator.total24, Example.wf_list3.1, Example.wf_list3.2.1, Example.wf_list3.2.2,
    fun hl => hl.1, by decide,
    copy_assignment FastAllocator.lawful24 FastAllocator.total24 (Ptr.heap 0)
      Example.list3 Example.list2 Example.heap3 [] [Ptr.chunk 24 0 1] Example.wf_list3.1
      Example.wf_list3.2.1 Example.wf_list3.2.2 (fun hl => hl.1) 0 1 2 (by decide)⟩

end LinkedList

namespace LinkedList

/-- C15 (default-fill constructor), evaluated where the code departs from it: after a
list of `int` that held 7 and 8 was destroyed, `List(2)` is served the chunks it gave
back and reads `[7, 8]`, the content left in that storage, where the empty list
followed by two calls of `push_back(int())` reads `[0, 0]`; both have `size() == 2`.
`Node(Node *p, Node *n)` initialises `next` and `prev` and leaves `value`
default-initialised, which for a scalar type is no initialisation. -/
theorem default_fill_reads_stale_values :
    Example.fill_scenario = some ((some [7, 8], 2), (some [0, 0], 2)) := by
  decide

end LinkedList
